import Mathlib

/-!
# Clementine global search model

A shallow embedding of `src/globalsearch/globalsearchmodel.cpp`: the result tree kept by
`GlobalSearchModel`, the operations `AddResults`, `BuildContainers`, `Clear` and
`GetChildResults`, and theorems about them.

Modelling decisions.

* A `QString` is either null or holds characters; Qt compares a null and an empty string as
  equal, so wherever the code compares strings (container keys, `indexOf`) the model compares
  the characters (`QString.chars`).
* `QStandardItem*` pointers are indices into the list of items allocated since the last
  `Clear`; index `0` is `invisibleRootItem()`.  `appendRow` allocates the next index.
* `SearchProvider*` pointers are natural numbers; what the code reads through the pointer
  (`id()`, `name()`) is a function of the pointer in `Env`.
* C++ `int` is modelled by `Int`; the counter `next_provider_sort_index_` would need more than
  two thousand million providers to overflow and is modelled unbounded.
* Members that no function of the file assigns (`group_by_`, `provider_order_`,
  `use_pretty_covers_`) and the `LibraryModel` helpers whose bodies are in other files
  are fields of `Env`.
-/

namespace Clementine

/-! ## Strings -/

/-- A Qt string: `null` is the default-constructed `QString()`, `str s` a string with
characters `s` (`str ""` is empty but not null). -/
inductive QString where
  | null
  | str (s : String)
  deriving DecidableEq, Repr

/-- The characters of a string; a null string has none. -/
def QString.chars : QString → String
  | .null => ""
  | .str s => s

/-- `QString::isNull()`. -/
def QString.isNull : QString → Bool
  | .null => true
  | .str _ => false

/-- `QString::isEmpty()`: true for null strings and for strings without characters. -/
def QString.isEmpty (t : QString) : Bool :=
  decide (t.chars = "")

/-- `operator+` on `QString`. -/
def QString.append : QString → QString → QString
  | .null, .null => .null
  | a, b => .str (a.chars ++ b.chars)

/-- `QString::number(int)`. -/
def QString.number (n : Int) : QString :=
  .str (toString n)

/-- `QStringList::indexOf`: the first position of `x`, or `-1`. -/
def indexOf (x : String) : List String → Int
  | [] => -1
  | y :: rest =>
    if y = x then 0
    else
      let i := indexOf x rest
      if i = -1 then -1 else i + 1

/-- Lookup in a `QMap` kept as an association list (newest binding first). -/
def lookupKey {κ ν : Type} [DecidableEq κ] (k : κ) : List (κ × ν) → Option ν
  | [] => none
  | (k', v) :: rest => if k' = k then some v else lookupKey k rest

/-! ## Data model -/

/-- The values of `LibraryModel::GroupBy` that the switch of `BuildContainers` handles. -/
inductive GroupBy where
  | GroupBy_None
  | GroupBy_Artist
  | GroupBy_Album
  | GroupBy_YearAlbum
  | GroupBy_Year
  | GroupBy_Composer
  | GroupBy_Genre
  | GroupBy_AlbumArtist
  | GroupBy_FileType
  deriving DecidableEq, Repr

open GroupBy

/-- What `BuildContainers` and `AddResults` read from a `Song`, one field per accessor. -/
structure Song where
  title : QString
  artist : QString
  album : QString
  year : Int
  genre : QString
  composer : QString
  effective_albumartist : QString
  TextForFiletype : QString
  deriving DecidableEq, Repr

/-- A `SearchProvider*`. -/
abbrev SearchProvider := Nat

/-- `SearchProvider::Result`. -/
structure Result where
  provider_ : SearchProvider
  metadata_ : Song
  group_automatically_ : Bool
  deriving DecidableEq, Repr

/-- `GlobalSearchModel::ContainerKey`: the provider rank and one value per level.  The slots
hold characters, an unset slot holds none: Qt orders and compares a null and an empty
`QString` as equal. -/
structure ContainerKey where
  provider_index_ : Int
  group_0 : String
  group_1 : String
  group_2 : String
  deriving DecidableEq, Repr

/-- The key `ContainerKey key; key.provider_index_ = sort_index;`. -/
def ContainerKey.ofRank (sort_index : Int) : ContainerKey :=
  { provider_index_ := sort_index, group_0 := "", group_1 := "", group_2 := "" }

/-- The assignment `key->group_[level] = display_text`. -/
def ContainerKey.setGroup (key : ContainerKey) (level : Nat) (display_text : QString) :
    ContainerKey :=
  match level with
  | 0 => { key with group_0 := display_text.chars }
  | 1 => { key with group_1 := display_text.chars }
  | _ => { key with group_2 := display_text.chars }

/-- The icon or decoration of an item. -/
inductive Icon where
  | no_icon
  | provider_icon (p : SearchProvider)
  | artist_icon_
  | album_icon_
  | no_cover_icon_
  deriving DecidableEq, Repr

/-- A `QStandardItem`: its text, the data stored under each role (`none` when the role was
never set), its flags, its parent and its rows (pointers to the children, in row order). -/
structure QStandardItem where
  text : QString := .null
  icon : Icon := .no_icon
  Role_Result : Option Result := none
  Role_ProviderIndex : Option Int := none
  Role_IsDivider : Option Bool := none
  Role_SortText : Option QString := none
  Role_ContainerType : Option GroupBy := none
  enabled_only : Bool := false
  parent : Option Nat := none
  rows : List Nat := []
  deriving DecidableEq, Repr

/-- The state of a `GlobalSearchModel` that the functions of the file read and write. -/
structure GlobalSearchModel where
  items : List QStandardItem
  provider_sort_indices_ : List (SearchProvider × Int)
  containers_ : List (ContainerKey × Nat)
  next_provider_sort_index_ : Int
  deriving DecidableEq, Repr

/-- What the functions read and never write: the configuration members, the provider
accessors and the `LibraryModel` helpers defined in other files. -/
structure Env where
  group_by_0 : GroupBy
  group_by_1 : GroupBy
  group_by_2 : GroupBy
  provider_order_ : List String
  use_pretty_covers_ : Bool
  provider_id : SearchProvider → String
  provider_name : SearchProvider → QString
  SortTextForArtist : QString → QString
  PrettyYearAlbum : Int → QString → QString
  SortTextForYear : Int → QString

/-- The member `group_by_[level]`, for `level < 3`. -/
def Env.group_by_ (env : Env) : Nat → GroupBy
  | 0 => env.group_by_0
  | 1 => env.group_by_1
  | _ => env.group_by_2

/-- Modelled from the spec: `LibraryModel::TextOrUnknown`, whose body is not in the source
file.  The spec: "Empty/unset text fields resolve to a locale-appropriate "Unknown"
placeholder rather than an empty string"; any other text is kept. -/
def TextOrUnknown (text : QString) : QString :=
  if text.isEmpty then .str "Unknown" else text

/-! ## The item store -/

/-- The pointer of `invisibleRootItem()`. -/
def invisibleRootItem : Nat := 0

/-- `parent->appendRow(item)`: the item gets the next free pointer, becomes the last row of
`parent`, and its parent is set. -/
def appendRow (items : List QStandardItem) (parent : Nat) (item : QStandardItem) :
    List QStandardItem :=
  List.modify (fun p => { p with rows := p.rows ++ [items.length] }) parent items
    ++ [{ item with parent := some parent }]

/-! ## BuildContainers -/

/-- What the switch of `BuildContainers` computes for one level. -/
structure LevelTexts where
  display_text : QString
  sort_text : QString
  has_artist_icon : Bool
  has_album_icon : Bool
  deriving DecidableEq, Repr

/-- The case `GroupBy_AlbumArtist` of the switch, entered with `display_text` as the cases
falling through into it have left it. -/
def caseAlbumArtist (env : Env) (s : Song) (display_text : QString) : LevelTexts :=
  let display_text := if display_text.isNull then s.effective_albumartist else display_text
  let display_text := TextOrUnknown display_text
  { display_text := display_text
    sort_text := env.SortTextForArtist display_text
    has_artist_icon := false
    has_album_icon := true }

/-- The case `GroupBy_Album`, which falls through into `GroupBy_AlbumArtist`. -/
def caseAlbum (env : Env) (s : Song) (display_text : QString) : LevelTexts :=
  caseAlbumArtist env s (if display_text.isNull then s.album else display_text)

/-- The case `GroupBy_Genre`, which falls through into `GroupBy_Album`. -/
def caseGenre (env : Env) (s : Song) (display_text : QString) : LevelTexts :=
  caseAlbum env s (if display_text.isNull then s.genre else display_text)

/-- The switch on `group_by_[level]`: `none` for `GroupBy_None` (the function returns),
otherwise the texts and icon flags. -/
def levelTexts (env : Env) (s : Song) : GroupBy → Option LevelTexts
  | GroupBy_Artist =>
    some { display_text := TextOrUnknown s.artist
           sort_text := env.SortTextForArtist s.artist
           has_artist_icon := true
           has_album_icon := false }
  | GroupBy_YearAlbum =>
    let year := max 0 s.year
    some { display_text := env.PrettyYearAlbum year s.album
           sort_text := (env.SortTextForYear year).append s.album
           has_artist_icon := false
           has_album_icon := true }
  | GroupBy_Year =>
    let year := max 0 s.year
    some { display_text := QString.number year
           sort_text := (env.SortTextForYear year).append (.str " ")
           has_artist_icon := false
           has_album_icon := false }
  | GroupBy_Composer => some (caseGenre env s s.composer)
  | GroupBy_Genre => some (caseGenre env s .null)
  | GroupBy_Album => some (caseAlbum env s .null)
  | GroupBy_AlbumArtist => some (caseAlbumArtist env s .null)
  | GroupBy_FileType =>
    some { display_text := s.TextForFiletype
           sort_text := s.TextForFiletype
           has_artist_icon := false
           has_album_icon := false }
  | GroupBy_None => none

/-- The container item created for a level (lines 137 to 151). -/
def newContainer (env : Env) (key : ContainerKey) (level : Nat) (t : LevelTexts) :
    QStandardItem :=
  { text := t.display_text
    Role_ProviderIndex := some key.provider_index_
    Role_SortText := some t.sort_text
    Role_ContainerType := some (env.group_by_ level)
    icon :=
      if t.has_artist_icon then Icon.artist_icon_
      else if t.has_album_icon then
        (if env.use_pretty_covers_ then Icon.no_cover_icon_ else Icon.album_icon_)
      else Icon.no_icon }

/-- `BuildContainers` with the number of levels still allowed: `remaining = 3 - level`, so
`remaining = 0` is the test `level >= 3`.  Returns the model and the returned item. -/
def BuildContainersFrom (env : Env) (s : Song) :
    Nat → GlobalSearchModel → Nat → ContainerKey → Nat → GlobalSearchModel × Nat
  | 0, m, parent, _, _ => (m, parent)
  | remaining + 1, m, parent, key, level =>
    match levelTexts env s (env.group_by_ level) with
    | none => (m, parent)
    | some t =>
      let key := key.setGroup level t.display_text
      match lookupKey key m.containers_ with
      | some container => BuildContainersFrom env s remaining m container key (level + 1)
      | none =>
        let container := m.items.length
        let m := { m with
          items := appendRow m.items parent (newContainer env key level t)
          containers_ := (key, container) :: m.containers_ }
        BuildContainersFrom env s remaining m container key (level + 1)

/-- `GlobalSearchModel::BuildContainers(s, parent, key, level)`. -/
def BuildContainers (env : Env) (s : Song) (m : GlobalSearchModel) (parent : Nat)
    (key : ContainerKey) (level : Nat) : GlobalSearchModel × Nat :=
  BuildContainersFrom env s (3 - level) m parent key level

/-! ## AddResults -/

/-- Lines 42 to 62 of `AddResults`: the rank of the batch, with the divider created and the
rank recorded when the provider is new. -/
def resolveProvider (env : Env) (m : GlobalSearchModel) (provider : SearchProvider) :
    GlobalSearchModel × Int :=
  match lookupKey provider m.provider_sort_indices_ with
  | none =>
    let configured_index := indexOf (env.provider_id provider) env.provider_order_
    let sort_index :=
      if configured_index ≠ -1 then configured_index else m.next_provider_sort_index_
    let next :=
      if configured_index ≠ -1 then m.next_provider_sort_index_
      else m.next_provider_sort_index_ + 1
    let divider : QStandardItem :=
      { text := env.provider_name provider
        icon := Icon.provider_icon provider
        Role_IsDivider := some true
        Role_ProviderIndex := some sort_index
        enabled_only := true }
    ({ m with
        items := appendRow m.items invisibleRootItem divider
        provider_sort_indices_ := (provider, sort_index) :: m.provider_sort_indices_
        next_provider_sort_index_ := next }, sort_index)
  | some sort_index => (m, sort_index)

/-- The body of the loop of `AddResults` (lines 65 to 80) for one result. -/
def insertResult (env : Env) (sort_index : Int) (m : GlobalSearchModel) (result : Result) :
    GlobalSearchModel :=
  let built :=
    if result.group_automatically_ then
      BuildContainers env result.metadata_ m invisibleRootItem
        (ContainerKey.ofRank sort_index) 0
    else (m, invisibleRootItem)
  let item : QStandardItem :=
    { text := result.metadata_.title
      Role_Result := some result
      Role_ProviderIndex := some sort_index }
  { built.1 with items := appendRow built.1.items built.2 item }

/-- `GlobalSearchModel::AddResults`.  `results.first()` needs a non-empty list: on an empty
batch the call does not return a model. -/
def AddResults (env : Env) (m : GlobalSearchModel) (results : List Result) :
    Option GlobalSearchModel :=
  match results with
  | [] => none
  | first :: _ =>
    let resolved := resolveProvider env m first.provider_
    some (results.foldl (insertResult env resolved.2) resolved.1)

/-! ## Clear -/

/-- `GlobalSearchModel::Clear`: both maps emptied, the counter set to 1000, and
`QStandardItemModel::clear()` leaves only the root item, without rows. -/
def Clear (_m : GlobalSearchModel) : GlobalSearchModel :=
  { items := [{}]
    provider_sort_indices_ := []
    containers_ := []
    next_provider_sort_index_ := 1000 }

/-! ## GetChildResults -/

/-- `item->data(Role_Result).value<SearchProvider::Result>()`: the stored result, or the
default-constructed `dflt` when the item has no data under the role. -/
def resultValue (dflt : Result) (item : QStandardItem) : Result :=
  item.Role_Result.getD dflt

/-- The recursive `GetChildResults(item, results, visited)`, on the pair
`(results, visited)`.  The first argument bounds the depth of the recursion. -/
def GetChildResultsRec (m : GlobalSearchModel) (dflt : Result) :
    Nat → Nat → List Result × List Nat → List Result × List Nat
  | 0, _, acc => acc
  | depth + 1, item, acc =>
    if item ∈ acc.2 then acc
    else
      let visited := item :: acc.2
      match m.items[item]? with
      | none => (acc.1, visited)
      | some it =>
        if it.rows ≠ [] then
          it.rows.foldl (fun a child => GetChildResultsRec m dflt depth child a)
            (acc.1, visited)
        else (acc.1 ++ [resultValue dflt it], visited)

/-- `GlobalSearchModel::GetChildResults(const QList<QStandardItem*>&)`.  A row points to an
item allocated after its parent, so no path is longer than the number of items. -/
def GetChildResults (m : GlobalSearchModel) (dflt : Result) (items : List Nat) :
    List Result :=
  (items.foldl (fun a item => GetChildResultsRec m dflt (m.items.length + 1) item a)
    ([], [])).1

/-! ## Sequences of calls -/

/-- A call made on the model. -/
inductive Op where
  | clear
  | addResults (results : List Result)
  deriving DecidableEq, Repr

/-- One call. -/
def step (env : Env) (m : GlobalSearchModel) : Op → Option GlobalSearchModel
  | Op.clear => some (Clear m)
  | Op.addResults results => AddResults env m results

/-- A sequence of calls, from left to right; `none` as soon as one call does not return. -/
def run (env : Env) : List Op → GlobalSearchModel → Option GlobalSearchModel
  | [], m => some m
  | op :: rest, m => (step env m op).bind (run env rest)

/-- The batches given to `AddResults` since the last `Clear`, oldest first, on top of the
batches `earlier` that came before the sequence. -/
def batchesSinceClear : List Op → List (List Result) → List (List Result)
  | [], earlier => earlier
  | Op.clear :: rest, _ => batchesSinceClear rest []
  | Op.addResults results :: rest, earlier => batchesSinceClear rest (earlier ++ [results])

/-! ## Invariants of the store, the cache and the registry -/

/-- Well-formedness of the item store: rows and parents agree. -/
structure ItemsWF (items : List QStandardItem) : Prop where
  root : ∃ r, items[0]? = some r ∧ r.parent = none
  rows_valid : ∀ (i : Nat) (it : QStandardItem), items[i]? = some it → ∀ c ∈ it.rows,
    ∃ cit : QStandardItem, items[c]? = some cit ∧ cit.parent = some i
  parent_valid : ∀ (i : Nat) (it : QStandardItem) (p : Nat), items[i]? = some it →
    it.parent = some p → p < i ∧ ∃ pit : QStandardItem, items[p]? = some pit ∧ i ∈ pit.rows
  rows_nodup : ∀ (i : Nat) (it : QStandardItem), items[i]? = some it → it.rows.Nodup
  has_parent : ∀ (i : Nat) (it : QStandardItem), items[i]? = some it → 0 < i →
    it.parent ≠ none

/-- The rank and the result carried by an item that wraps a result. -/
def leafData (it : QStandardItem) : Option (Int × Result) :=
  it.Role_Result.map (fun r => (it.Role_ProviderIndex.getD 0, r))

/-- The icon, text and rank of a divider item. -/
def dividerData (it : QStandardItem) : Option (Icon × QString × Int) :=
  match it.Role_IsDivider with
  | some true => some (it.icon, it.text, it.Role_ProviderIndex.getD 0)
  | _ => none

/-- The leaf data of the item at a pointer, if any. -/
def leafAt (items : List QStandardItem) (i : Nat) : Option (Int × Result) :=
  items[i]?.bind leafData

/-- The leaves among the rows of the item at `p`, in row order. -/
def rowLeaves (items : List QStandardItem) (p : Nat) : List (Int × Result) :=
  match items[p]? with
  | none => []
  | some it => it.rows.filterMap (leafAt items)

/-- The item at the pointer, if there is one, wraps no result. -/
def Plain (items : List QStandardItem) (p : Nat) : Prop :=
  ∀ y : QStandardItem, items[p]? = some y → y.Role_Result = none

/-- Well-formedness of a model: a well-formed item store, a container cache whose keys
are distinct and whose values are distinct pointers into the store, and results wrapped
only by items without rows, none of them the root or a cached container. -/
structure ModelWF (m : GlobalSearchModel) : Prop where
  items : ItemsWF m.items
  cache_valid : ∀ e ∈ m.containers_, 0 < e.2 ∧ e.2 < m.items.length
  keys_nodup : (m.containers_.map Prod.fst).Nodup
  values_nodup : (m.containers_.map Prod.snd).Nodup
  root_plain : Plain m.items invisibleRootItem
  cache_plain : ∀ e ∈ m.containers_, Plain m.items e.2
  leaves_childless : ∀ (i : Nat) (it : QStandardItem), m.items[i]? = some it →
    it.Role_Result ≠ none → it.rows = []

/-- The items of the tree: the root, and the rows of items of the tree. -/
inductive InTree (items : List QStandardItem) : Nat → Prop where
  | root : InTree items invisibleRootItem
  | row (p i : Nat) (it : QStandardItem) :
      InTree items p → items[p]? = some it → i ∈ it.rows → InTree items i

/-- The second model extends the first by containers only: same ranks and counter, the
cache keeps its bindings, and no item gains or loses a leaf row. -/
structure Grows (m m' : GlobalSearchModel) : Prop where
  ranks_eq : m'.provider_sort_indices_ = m.provider_sort_indices_
  next_eq : m'.next_provider_sort_index_ = m.next_provider_sort_index_
  length_le : m.items.length ≤ m'.items.length
  cache_mono : ∀ (k : ContainerKey) (c : Nat), lookupKey k m.containers_ = some c →
    lookupKey k m'.containers_ = some c
  rowLeaves_eq : ∀ q : Nat, rowLeaves m'.items q = rowLeaves m.items q
  leaves_eq : m'.items.filterMap leafData = m.items.filterMap leafData
  dividers_eq : m'.items.filterMap dividerData = m.items.filterMap dividerData

/-- The key that `BuildContainers` has written after walking at most `n` levels from
`level` for the song: the walk stops at the first `GroupBy_None`. -/
def chainKeyFrom (env : Env) (s : Song) : Nat → ContainerKey → Nat → ContainerKey
  | 0, key, _ => key
  | n + 1, key, level =>
    match levelTexts env s (env.group_by_ level) with
    | none => key
    | some t => chainKeyFrom env s n (key.setGroup level t.display_text) (level + 1)

/-- The key of the last container of a result: rank and the values of all active levels. -/
def fullKey (env : Env) (sort_index : Int) (s : Song) : ContainerKey :=
  chainKeyFrom env s 3 (ContainerKey.ofRank sort_index) 0

/-- The item under which `AddResults` files a result of the given rank, read off the
container cache: the container cached under the full key of the result, or the root when
the result is not grouped or the first level is `GroupBy_None`. -/
def leafParent (env : Env) (containers_ : List (ContainerKey × Nat)) (x : Int × Result) :
    Nat :=
  if x.2.group_automatically_ = true ∧ env.group_by_0 ≠ GroupBy_None then
    (lookupKey (fullKey env x.1 x.2.metadata_) containers_).getD invisibleRootItem
  else invisibleRootItem

/-- The model files exactly the ranked results `L`, in this order: they are its leaves, the
keys of the walk of every grouped one are cached, and the leaf rows of every item are the
results whose `leafParent` it is. -/
structure Filed (env : Env) (m : GlobalSearchModel) (L : List (Int × Result)) : Prop where
  wf : ModelWF m
  leaves : m.items.filterMap leafData = L
  cached : ∀ x ∈ L, x.2.group_automatically_ = true → env.group_by_0 ≠ GroupBy_None →
    ∀ j, j ≤ 2 →
      (lookupKey (chainKeyFrom env x.2.metadata_ (j + 1) (ContainerKey.ofRank x.1) 0)
        m.containers_).isSome = true
  rows : ∀ p : Nat,
    rowLeaves m.items p = L.filter (fun x => decide (leafParent env m.containers_ x = p))

/-- The provider of a batch: `results.first().provider_`. -/
def batchProvider (results : List Result) : SearchProvider :=
  match results with
  | [] => 0
  | first :: _ => first.provider_

/-- The distinct providers of a list of batch providers, in the order in which each was
first seen. -/
def firstSeen (providers : List SearchProvider) : List SearchProvider :=
  providers.foldl (fun seen p => if p ∈ seen then seen else seen ++ [p]) []

/-- The rank of a provider as the claim words it: the index of its id in the preference
order when the id occurs there, otherwise 1000 plus the number of providers outside the
preference order among `earlier`, the providers first seen before it. -/
def specRank (env : Env) (earlier : List SearchProvider) (p : SearchProvider) : Int :=
  if env.provider_id p ∈ env.provider_order_ then
    (env.provider_order_.indexOf (env.provider_id p) : Nat)
  else
    1000 + ((earlier.filter
      (fun q => decide (env.provider_id q ∉ env.provider_order_))).length : Nat)

/-- The rank of a provider given the list `seen` of distinct providers in first-seen
order: `specRank` with the providers that come before it in the list. -/
def rankOf (env : Env) (seen : List SearchProvider) (p : SearchProvider) : Int :=
  specRank env (seen.takeWhile (fun q => decide (q ≠ p))) p

/-- The results of the batches, in insertion order, each with the rank of the provider of
its batch. -/
def ranked (env : Env) (seen : List SearchProvider) (batches : List (List Result)) :
    List (Int × Result) :=
  batches.flatMap (fun b => b.map (fun r => (rankOf env seen (batchProvider b), r)))

/-- The provider registry agrees with the batch providers seen since the last `Clear`:
ranks, counter and dividers. -/
structure Registry (env : Env) (m : GlobalSearchModel) (seen : List SearchProvider) :
    Prop where
  ranks : ∀ p : SearchProvider, lookupKey p m.provider_sort_indices_ =
    if p ∈ seen then some (rankOf env seen p) else none
  next : m.next_provider_sort_index_ = 1000 + ((seen.filter
    (fun q => decide (env.provider_id q ∉ env.provider_order_))).length : Nat)
  dividers : m.items.filterMap dividerData =
    seen.map (fun p => (Icon.provider_icon p, env.provider_name p, rankOf env seen p))

/-- The invariant of a model that has received the non-empty batches `batches` since the
last `Clear`. -/
structure Inv (env : Env) (m : GlobalSearchModel) (batches : List (List Result)) :
    Prop where
  nonempty : ∀ b ∈ batches, b ≠ []
  registry : Registry env m (firstSeen (batches.map batchProvider))
  filed : Filed env m (ranked env (firstSeen (batches.map batchProvider)) batches)

/-- The distinct providers that have supplied a batch since the last `Clear` of the
sequence, in first-seen order. -/
def providersSeen (ops : List Op) : List SearchProvider :=
  firstSeen ((batchesSinceClear ops []).map batchProvider)

/-- The results inserted since the last `Clear` of the sequence, in insertion order, each
with the rank of the provider of its batch. -/
def resultsSinceClear (env : Env) (ops : List Op) : List (Int × Result) :=
  ranked env (providersSeen ops) (batchesSinceClear ops [])

/-- What the model holds for a grouped result `r` inserted with rank `rank`, when `L` are
the ranked results inserted: for every active level exactly one cache binding for the key
of the walk up to that level, its container an item of the tree; and the container `c`
cached under the full key, an item of the tree whose rows are distinct and whose leaf rows
are exactly the grouped results of `L` with the same rank and the same full key, in
insertion order. -/
def SharedChain (env : Env) (m : GlobalSearchModel) (L : List (Int × Result)) (rank : Int)
    (r : Result) : Prop :=
  (∀ j, j < 3 → (∀ i, i ≤ j → env.group_by_ i ≠ GroupBy_None) →
    (m.containers_.map Prod.fst).count
      (chainKeyFrom env r.metadata_ (j + 1) (ContainerKey.ofRank rank) 0) = 1 ∧
    ∃ cj, lookupKey (chainKeyFrom env r.metadata_ (j + 1) (ContainerKey.ofRank rank) 0)
      m.containers_ = some cj ∧ InTree m.items cj) ∧
  ∃ c cit, lookupKey (fullKey env rank r.metadata_) m.containers_ = some c ∧
    m.items[c]? = some cit ∧ InTree m.items c ∧ cit.rows.Nodup ∧
    cit.rows.filterMap (leafAt m.items) =
      L.filter (fun x => decide (x.2.group_automatically_ = true ∧
        fullKey env x.1 x.2.metadata_ = fullKey env rank r.metadata_))

/-! ## Reading GetChildResults -/

/-- The item at the pointer exists and has no rows: what `GetChildResults` takes for a
leaf. -/
def Childless (items : List QStandardItem) (i : Nat) : Prop :=
  ∃ it : QStandardItem, items[i]? = some it ∧ it.rows = []

/-- The item `j` is `i` itself or is reached from `i` through rows. -/
inductive Desc (items : List QStandardItem) : Nat → Nat → Prop where
  | refl (i : Nat) : Desc items i i
  | step (i c j : Nat) (it : QStandardItem) :
      items[i]? = some it → c ∈ it.rows → Desc items c j → Desc items i j

/-- The result that `GetChildResults` emits for the item at a pointer. -/
def valueAt (m : GlobalSearchModel) (dflt : Result) (i : Nat) : Result :=
  match m.items[i]? with
  | some it => resultValue dflt it
  | none => dflt

/-- The pair `(results, visited)` of a traversal has emitted the values of the items
`ids`: distinct items, namely the visited items without rows. -/
structure Collected (m : GlobalSearchModel) (dflt : Result)
    (acc : List Result × List Nat) (ids : List Nat) : Prop where
  results_eq : acc.1 = ids.map (valueAt m dflt)
  nodup : ids.Nodup
  mem : ∀ i : Nat, i ∈ ids ↔ i ∈ acc.2 ∧ Childless m.items i

/-- Every visited item with pointer at least `b` has all the items below it visited. -/
def ClosedFrom (items : List QStandardItem) (visited : List Nat) (b : Nat) : Prop :=
  ∀ v ∈ visited, b ≤ v → ∀ j : Nat, Desc items v j → j ∈ visited

/-- Some node of the list reaches the item. -/
def ReachedFrom (items : List QStandardItem) (nodes : List Nat) (j : Nat) : Prop :=
  ∃ n ∈ nodes, Desc items n j

/-- What `GetChildResults` does on the model without counting an item twice: every item
that wraps a result has no rows, and for every list of pointers into the store the call
returns the values of distinct items, exactly the items without rows reached from the
list; the result is the same up to order for any list that reaches the same items, so for
the list without its duplicates, and for a list from which a node below another node of the
list is removed, whichever of the two comes first. -/
def CollectsOnce (m : GlobalSearchModel) : Prop :=
  (∀ (i : Nat) (it : QStandardItem), m.items[i]? = some it → it.Role_Result ≠ none →
    Childless m.items i) ∧
  ∀ (dflt : Result) (nodes : List Nat), (∀ n ∈ nodes, n < m.items.length) →
    (∃ leaves : List Nat, leaves.Nodup ∧
      (∀ i, i ∈ leaves ↔ Childless m.items i ∧ ReachedFrom m.items nodes i) ∧
      GetChildResults m dflt nodes = leaves.map (valueAt m dflt)) ∧
    (∀ nodes' : List Nat, (∀ n ∈ nodes', n < m.items.length) →
      (∀ j, ReachedFrom m.items nodes j ↔ ReachedFrom m.items nodes' j) →
      (GetChildResults m dflt nodes).Perm (GetChildResults m dflt nodes')) ∧
    (GetChildResults m dflt nodes).Perm (GetChildResults m dflt nodes.dedup) ∧
    (∀ c d : Nat, c < m.items.length → Desc m.items c d →
      (GetChildResults m dflt (c :: d :: nodes)).Perm
        (GetChildResults m dflt (c :: nodes)) ∧
      (GetChildResults m dflt (d :: c :: nodes)).Perm
        (GetChildResults m dflt (c :: nodes)))

/-! ## The field chain of the Composer, Genre, Album and AlbumArtist modes -/

/-- The priority chain composer, genre, album, effective album-artist, from the field named
by the mode on. -/
def priorityChain (s : Song) : GroupBy → List QString
  | GroupBy_Composer => [s.composer, s.genre, s.album, s.effective_albumartist]
  | GroupBy_Genre => [s.genre, s.album, s.effective_albumartist]
  | GroupBy_Album => [s.album, s.effective_albumartist]
  | GroupBy_AlbumArtist => [s.effective_albumartist]
  | _ => []

/-- The display text as the claim words it: the first non-empty value of the chain, or
"Unknown" when every value is empty. -/
def firstNonEmptyOrUnknown : List QString → QString
  | [] => .str "Unknown"
  | t :: rest => if t.isEmpty then firstNonEmptyOrUnknown rest else t

/-- The first value of the chain that is not null; null when all are. -/
def firstNonNull : List QString → QString
  | [] => .null
  | t :: rest => if t.isNull then firstNonNull rest else t

/-! ## Example data -/

/-- A song with the given artist and title, the other fields unset. -/
def exampleSong (artist title : String) : Song :=
  { title := .str title, artist := .str artist, album := .null, year := 0, genre := .null,
    composer := .null, effective_albumartist := .str artist, TextForFiletype := .null }

/-- An environment with levels `[Artist, None, None]` and no preferred provider order. -/
def exampleEnv : Env :=
  { group_by_0 := GroupBy_Artist, group_by_1 := GroupBy_None, group_by_2 := GroupBy_None
    provider_order_ := []
    use_pretty_covers_ := true
    provider_id := fun p => toString p
    provider_name := fun p => .str (toString p)
    SortTextForArtist := fun t => t
    PrettyYearAlbum := fun y a => (QString.number y).append ((QString.str " ").append a)
    SortTextForYear := fun y => QString.number y }

/-- The batch of the scenario: Radiohead/A, Radiohead/B, Muse/C, all of provider 1. -/
def exampleBatch : List Result :=
  [ { provider_ := 1, metadata_ := exampleSong "Radiohead" "A", group_automatically_ := true },
    { provider_ := 1, metadata_ := exampleSong "Radiohead" "B", group_automatically_ := true },
    { provider_ := 1, metadata_ := exampleSong "Muse" "C", group_automatically_ := true } ]

/-- A model before any call. -/
def exampleModel : GlobalSearchModel :=
  { items := [{}], provider_sort_indices_ := [], containers_ := [],
    next_provider_sort_index_ := 0 }

/-- A default-constructed result. -/
def exampleDefault : Result :=
  { provider_ := 0, metadata_ := exampleSong "" "", group_automatically_ := true }

/-- The model after `Clear` and the batch of the scenario: the root with rows 1, 2 and 5;
item 1 the divider of provider 1; item 2 the container "Radiohead" with the leaves 3 and 4;
item 5 the container "Muse" with the leaf 6. -/
def scenarioModel : GlobalSearchModel :=
  { items :=
      [ { rows := [1, 2, 5] },
        { text := .str "1", icon := Icon.provider_icon 1, Role_ProviderIndex := some 1000,
          Role_IsDivider := some true, enabled_only := true, parent := some 0 },
        { text := .str "Radiohead", icon := Icon.artist_icon_, Role_ProviderIndex := some 1000,
          Role_SortText := some (.str "Radiohead"), Role_ContainerType := some GroupBy_Artist,
          parent := some 0, rows := [3, 4] },
        { text := .str "A", Role_ProviderIndex := some 1000, parent := some 2,
          Role_Result := some { provider_ := 1, metadata_ := exampleSong "Radiohead" "A",
                                group_automatically_ := true } },
        { text := .str "B", Role_ProviderIndex := some 1000, parent := some 2,
          Role_Result := some { provider_ := 1, metadata_ := exampleSong "Radiohead" "B",
                                group_automatically_ := true } },
        { text := .str "Muse", icon := Icon.artist_icon_, Role_ProviderIndex := some 1000,
          Role_SortText := some (.str "Muse"), Role_ContainerType := some GroupBy_Artist,
          parent := some 0, rows := [6] },
        { text := .str "C", Role_ProviderIndex := some 1000, parent := some 5,
          Role_Result := some { provider_ := 1, metadata_ := exampleSong "Muse" "C",
                                group_automatically_ := true } } ]
    provider_sort_indices_ := [(1, 1000)]
    containers_ :=
      [ ({ provider_index_ := 1000, group_0 := "Muse", group_1 := "", group_2 := "" }, 5),
        ({ provider_index_ := 1000, group_0 := "Radiohead", group_1 := "", group_2 := "" }, 2) ]
    next_provider_sort_index_ := 1001 }

/-- An environment whose preference order is `[P2, P1]`, provider 1 having id "P1" and
provider 2 id "P2". -/
def preferenceEnv : Env :=
  { exampleEnv with
    provider_order_ := ["P2", "P1"]
    provider_id := fun p => if p = 1 then "P1" else if p = 2 then "P2" else "other" }

/-- A one-result batch of the given provider. -/
def singleBatch (p : SearchProvider) : List Result :=
  [ { provider_ := p, metadata_ := exampleSong "Radiohead" "A", group_automatically_ := true } ]

/-- A song whose composer is the empty (not null) string and whose genre is "Rock". -/
def emptyComposerSong : Song :=
  { title := .str "T", artist := .str "Radiohead", album := .str "Kid A", year := 2000,
    genre := .str "Rock", composer := .str "", effective_albumartist := .str "Radiohead",
    TextForFiletype := .str "MP3" }

/-- Both results have a leaf, with one rank, among the rows of one item of the store. -/
def FiledTogether (m : GlobalSearchModel) (r1 r2 : Result) : Prop :=
  ∃ c rank, (rank, r1) ∈ rowLeaves m.items c ∧ (rank, r2) ∈ rowLeaves m.items c

/-- An environment with levels `[Year, None, None]`. -/
def yearEnv : Env :=
  { exampleEnv with group_by_0 := GroupBy_Year }

/-! ## GetChildResults on model indexes -/

/-- `GlobalSearchModel::GetChildResults(const QModelIndexList&)`: every index is replaced by
`itemFromIndex(index)` and the list is handed to the overload for items.  An index is given
here by what `itemFromIndex` returns for it: an item pointer, or `none` for the null pointer
that it returns for an invalid index.  Nothing tests the pointer: for a null item the
traversal evaluates `item->rowCount()`, and the call does not return a list. -/
def GetChildResultsOfIndexes (m : GlobalSearchModel) (dflt : Result)
    (indexes : List (Option Nat)) : Option (List Result) :=
  (indexes.foldl
    (fun a item =>
      match a, item with
      | some acc, some p => some (GetChildResultsRec m dflt (m.items.length + 1) p acc)
      | _, _ => none)
    (some ([], []))).map Prod.fst

/-! ## What a call adds to the store -/

/-- An item without its rows: the part of an item that no later `appendRow` changes. -/
def coreData (it : QStandardItem) : QStandardItem :=
  { it with rows := [] }

/-- The item is a container made with the given rank: it has a container type and the
rank, wraps no result, is no divider and has a parent. -/
def IsContainerOf (rank : Int) (x : QStandardItem) : Prop :=
  x.Role_ContainerType ≠ none ∧ x.Role_Result = none ∧ x.Role_IsDivider = none ∧
    x.Role_ProviderIndex = some rank ∧ x.parent ≠ none

/-- The number of levels that `BuildContainers` walks from level 0: the smallest level whose
mode is `GroupBy_None`, or 3 when there is none. -/
def activeLevels (env : Env) : Nat :=
  if env.group_by_0 = GroupBy_None then 0
  else if env.group_by_1 = GroupBy_None then 1
  else if env.group_by_2 = GroupBy_None then 2
  else 3

/-- The divider item that lines 53 to 56 of `AddResults` make for a provider. -/
def dividerItem (env : Env) (provider : SearchProvider) (sort_index : Int) : QStandardItem :=
  { text := env.provider_name provider
    icon := Icon.provider_icon provider
    Role_IsDivider := some true
    Role_ProviderIndex := some sort_index
    enabled_only := true }

/-- The leaf item that lines 76 to 78 of `AddResults` make for a result. -/
def leafItem (sort_index : Int) (result : Result) : QStandardItem :=
  { text := result.metadata_.title
    Role_Result := some result
    Role_ProviderIndex := some sort_index }

/-- The item is a leaf made with the given rank: it wraps a result and has the rank, is no
divider and no container, and has a parent. -/
def IsLeafOf (rank : Int) (x : QStandardItem) : Prop :=
  x.Role_Result ≠ none ∧ x.Role_ProviderIndex = some rank ∧ x.Role_IsDivider = none ∧
    x.Role_ContainerType = none ∧ x.parent ≠ none

/-- The key of the container one level up, read off a key: the key without its last set
value, and none for a key with a value at the first level only. -/
def ContainerKey.parentKey (k : ContainerKey) : Option ContainerKey :=
  if k.group_2 ≠ "" then some { k with group_2 := "" }
  else if k.group_1 ≠ "" then some { k with group_1 := "" }
  else none

/-- The item that the cache gives for the level above a key: the root for a key of the
first level, otherwise the container cached under the parent key. -/
def containerParent (containers_ : List (ContainerKey × Nat)) (k : ContainerKey) :
    Option Nat :=
  match k.parentKey with
  | none => some invisibleRootItem
  | some pk => lookupKey pk containers_

/-- The cache and the container items agree, on the items without their rows: every
binding of the cache points to a container item with the rank of the key, no result and no
divider flag, whose parent is the item the cache gives for the level above; every container
item is bound; and an item with a result is no divider. -/
structure CacheTreeOn (cs : List QStandardItem) (cache : List (ContainerKey × Nat)) :
    Prop where
  bound : ∀ (k : ContainerKey) (c : Nat), lookupKey k cache = some c →
    ∃ (it : QStandardItem) (p : Nat), cs[c]? = some it ∧ it.Role_ContainerType ≠ none ∧
      it.Role_Result = none ∧ it.Role_IsDivider = none ∧
      it.Role_ProviderIndex = some k.provider_index_ ∧ it.parent = some p ∧
      containerParent cache k = some p
  containers : ∀ (i : Nat) (it : QStandardItem), cs[i]? = some it →
    it.Role_ContainerType ≠ none → ∃ k : ContainerKey, lookupKey k cache = some i
  kinds : ∀ (i : Nat) (it : QStandardItem), cs[i]? = some it → it.Role_Result ≠ none →
    it.Role_IsDivider = none

/-- The cache and the container items of a model agree. -/
def CacheTree (m : GlobalSearchModel) : Prop :=
  CacheTreeOn (m.items.map coreData) m.containers_

/-- The state of the walk of `BuildContainers` at a level: at level 0 the parent is the
root, at a later level the parent is the container cached under the key so far; the slots
of the levels still to come are unset. -/
def WalkAt (cache : List (ContainerKey × Nat)) (key : ContainerKey) (parent level : Nat) :
    Prop :=
  (level = 0 → parent = invisibleRootItem) ∧
  (0 < level → lookupKey key cache = some parent) ∧
  (level ≤ 1 → key.group_1 = "") ∧ (level ≤ 2 → key.group_2 = "")

/-- The items that wrap a result are the leaves of the batches: there are as many as there
are results in the batches, the results they wrap are, in store order, the results of the
batches in insertion order, each such item is in the tree, has no rows and is neither a
divider nor a container, and no divider and no container wraps a result. -/
def LeavesWrapResults (m : GlobalSearchModel) (batches : List (List Result)) : Prop :=
  m.items.countP (fun it => decide (it.Role_Result ≠ none)) =
      (batches.map List.length).sum ∧
    m.items.filterMap (fun it => it.Role_Result) = batches.flatten ∧
    (∀ (i : Nat) (it : QStandardItem), m.items[i]? = some it → it.Role_Result ≠ none →
      InTree m.items i ∧ it.rows = [] ∧ it.Role_IsDivider = none ∧
        it.Role_ContainerType = none) ∧
    (∀ (i : Nat) (it : QStandardItem), m.items[i]? = some it →
      it.Role_IsDivider ≠ none ∨ it.Role_ContainerType ≠ none → it.Role_Result = none)

/-- The container cache and the container items are in bijection: every item with a
container type is in the tree and is the value of exactly one binding of the cache; the
keys of the cache are distinct, so a key is bound to one item only; the values of the cache
are distinct; and every binding points to an item of the tree that has a container type
and the rank of the key. -/
def CacheBijection (m : GlobalSearchModel) : Prop :=
  (∀ (i : Nat) (it : QStandardItem), m.items[i]? = some it → it.Role_ContainerType ≠ none →
    InTree m.items i ∧ ∃ k : ContainerKey, (k, i) ∈ m.containers_ ∧
      ∀ k' : ContainerKey, (k', i) ∈ m.containers_ → k' = k) ∧
  (m.containers_.map Prod.fst).Nodup ∧
  (∀ (k : ContainerKey) (c c' : Nat), (k, c) ∈ m.containers_ → (k, c') ∈ m.containers_ →
    c = c') ∧
  (m.containers_.map Prod.snd).Nodup ∧
  (∀ (k : ContainerKey) (c : Nat), (k, c) ∈ m.containers_ →
    InTree m.items c ∧ ∃ it : QStandardItem, m.items[c]? = some it ∧
      it.Role_ContainerType ≠ none ∧ it.Role_ProviderIndex = some k.provider_index_)

/-- The key of a container is its whole path: every binding of the cache points to a
container item with the rank of the key, which is a row of its parent, and the parent is
the root for a key with a value at the first level only, the item cached under the key
without its second value for a key with values at two levels, and the item cached under
the key without its third value for a key with a third value. -/
def KeyIsPath (m : GlobalSearchModel) : Prop :=
  ∀ (k : ContainerKey) (c : Nat), lookupKey k m.containers_ = some c →
    ∃ (it : QStandardItem) (p : Nat) (pit : QStandardItem),
      m.items[c]? = some it ∧ it.Role_ContainerType ≠ none ∧
      it.Role_ProviderIndex = some k.provider_index_ ∧
      it.parent = some p ∧ m.items[p]? = some pit ∧ c ∈ pit.rows ∧
      (k.group_1 = "" → k.group_2 = "" → p = invisibleRootItem) ∧
      (k.group_1 ≠ "" → k.group_2 = "" →
        lookupKey { k with group_1 := "" } m.containers_ = some p) ∧
      (k.group_2 ≠ "" → lookupKey { k with group_2 := "" } m.containers_ = some p)

/-- Two paths with the same second value `v1` under different first values `v0` and `w0`,
for one rank: the four keys are cached, the two first-level containers are different rows
of the root, the two second-level containers are different items, and each is a row of the
first-level container of its own path and not of the other. -/
def TwoContainers (m : GlobalSearchModel) (rank : Int) (v0 w0 v1 : String) : Prop :=
  ∃ (p q c d : Nat) (pit qit cit dit : QStandardItem),
    lookupKey { provider_index_ := rank, group_0 := v0, group_1 := "", group_2 := "" }
      m.containers_ = some p ∧
    lookupKey { provider_index_ := rank, group_0 := w0, group_1 := "", group_2 := "" }
      m.containers_ = some q ∧
    lookupKey { provider_index_ := rank, group_0 := v0, group_1 := v1, group_2 := "" }
      m.containers_ = some c ∧
    lookupKey { provider_index_ := rank, group_0 := w0, group_1 := v1, group_2 := "" }
      m.containers_ = some d ∧
    p ≠ q ∧ c ≠ d ∧
    m.items[p]? = some pit ∧ m.items[q]? = some qit ∧
    m.items[c]? = some cit ∧ m.items[d]? = some dit ∧
    pit.parent = some invisibleRootItem ∧ qit.parent = some invisibleRootItem ∧
    cit.parent = some p ∧ dit.parent = some q ∧
    c ∈ pit.rows ∧ d ∈ qit.rows ∧ c ∉ qit.rows ∧ d ∉ pit.rows

/-- A song with an artist and an album. -/
def albumSong (artist album title : String) : Song :=
  { exampleSong artist title with album := .str album }

/-- An environment with levels `[Artist, Album, None]`. -/
def albumEnv : Env :=
  { exampleEnv with group_by_1 := GroupBy_Album }

/-- A batch with the album title "Greatest Hits" under two artists. -/
def albumBatch : List Result :=
  [ { provider_ := 1, metadata_ := albumSong "Blur" "Greatest Hits" "A",
      group_automatically_ := true },
    { provider_ := 1, metadata_ := albumSong "Queen" "Greatest Hits" "B",
      group_automatically_ := true } ]

/-- The ranks of the providers seen keep the providers apart: each provider seen is bound
to its rank; a provider whose id is in the preference order has a rank from 0 up to, not
including, 1000; a provider whose id is not has a rank from 1000 on, below 1000 plus the
number of providers seen, and greater than the rank of every such provider first seen
before it; two different providers have different ranks, so the keys of their walks differ
whatever the songs are, and so do the keys and the items of cached containers that carry
their ranks. -/
def RanksSeparate (env : Env) (m : GlobalSearchModel) (seen : List SearchProvider) : Prop :=
  (∀ p ∈ seen, lookupKey p m.provider_sort_indices_ = some (rankOf env seen p)) ∧
  (∀ p ∈ seen, env.provider_id p ∈ env.provider_order_ →
    0 ≤ rankOf env seen p ∧ rankOf env seen p < 1000) ∧
  (∀ p ∈ seen, env.provider_id p ∉ env.provider_order_ →
    1000 ≤ rankOf env seen p ∧ rankOf env seen p < 1000 + (seen.length : Nat)) ∧
  (∀ p ∈ seen, ∀ q ∈ seen, env.provider_id p ∉ env.provider_order_ →
    env.provider_id q ∉ env.provider_order_ →
    p ∈ seen.takeWhile (fun x => decide (x ≠ q)) → rankOf env seen p < rankOf env seen q) ∧
  (∀ p ∈ seen, ∀ q ∈ seen, p ≠ q → rankOf env seen p ≠ rankOf env seen q) ∧
  (∀ p ∈ seen, ∀ q ∈ seen, p ≠ q → ∀ (s s' : Song) (j j' : Nat),
    chainKeyFrom env s j (ContainerKey.ofRank (rankOf env seen p)) 0 ≠
      chainKeyFrom env s' j' (ContainerKey.ofRank (rankOf env seen q)) 0) ∧
  (∀ p ∈ seen, ∀ q ∈ seen, p ≠ q →
    ∀ (k k' : ContainerKey) (c c' : Nat) (it it' : QStandardItem),
      (k, c) ∈ m.containers_ → (k', c') ∈ m.containers_ →
      m.items[c]? = some it → m.items[c']? = some it' →
      it.Role_ProviderIndex = some (rankOf env seen p) →
      it'.Role_ProviderIndex = some (rankOf env seen q) → k ≠ k' ∧ c ≠ c')

/-- The traversal as the claim words it, first part: the nodes without children met by a
depth-first walk from a node that takes the children in sibling order, with repetitions.
A node without children lists itself; a node with children lists nothing itself, only what
its children list.  `fuel` bounds the depth of the walk. -/
def specLeavesBelow (items : List QStandardItem) : Nat → Nat → List Nat
  | 0, _ => []
  | fuel + 1, i =>
    match items[i]? with
    | none => []
    | some it =>
      if it.rows = [] then [i] else it.rows.flatMap (specLeavesBelow items fuel)

/-- The traversal as the claim words it, second part: of a sequence of visits only the
first visit of each node counts, on top of the nodes `visited` before. -/
def specVisit (visited reached : List Nat) : List Nat :=
  reached.foldl (fun seen p => if p ∈ seen then seen else seen ++ [p]) visited

/-- The nodes that the traversal of the claim emits for a list of input nodes: the walks
from the input nodes in input order, one visited set for the whole call. -/
def specTraversal (m : GlobalSearchModel) (nodes : List Nat) : List Nat :=
  specVisit [] (nodes.flatMap (specLeavesBelow m.items (m.items.length + 1)))

/-- The result list of the claim: the `Role_Result` data of the nodes of the traversal. -/
def specGetChildResults (m : GlobalSearchModel) (dflt : Result) (nodes : List Nat) :
    List Result :=
  (specTraversal m nodes).map (valueAt m dflt)

/-- A batch whose second result names another provider than its first, and whose third
result is not grouped. -/
def mixedBatch : List Result :=
  [ { provider_ := 1, metadata_ := exampleSong "Radiohead" "A", group_automatically_ := true },
    { provider_ := 2, metadata_ := exampleSong "Muse" "C", group_automatically_ := true },
    { provider_ := 3, metadata_ := exampleSong "Blur" "D", group_automatically_ := false } ]

/-- An environment with levels `[Artist, None, Album]`: a mode after a `GroupBy_None`. -/
def gapEnv : Env :=
  { exampleEnv with group_by_2 := GroupBy_Album }

/-- A batch of two results that are not grouped. -/
def ungroupedBatch : List Result :=
  [ { provider_ := 1, metadata_ := exampleSong "Radiohead" "A",
      group_automatically_ := false },
    { provider_ := 1, metadata_ := exampleSong "Radiohead" "B",
      group_automatically_ := false } ]

/-! ## Lemmas -/

theorem lookupKey_cons_self {κ ν : Type} [DecidableEq κ] (k : κ) (v : ν) (l : List (κ × ν)) :
    lookupKey k ((k, v) :: l) = some v := by
  simp [lookupKey]

theorem lookupKey_cons_ne {κ ν : Type} [DecidableEq κ] {k k' : κ} (v : ν) (l : List (κ × ν))
    (h : k' ≠ k) : lookupKey k ((k', v) :: l) = lookupKey k l := by
  simp [lookupKey, h]

theorem lookupKey_eq_none_iff {κ ν : Type} [DecidableEq κ] (k : κ) (l : List (κ × ν)) :
    lookupKey k l = none ↔ k ∉ l.map Prod.fst := by
  induction l with
  | nil => simp [lookupKey]
  | cons x rest ih =>
    obtain ⟨k', v⟩ := x
    by_cases h : k' = k
    · subst h; simp [lookupKey]
    · simp [lookupKey, h, ih, Ne.symm h]

theorem lookupKey_mem {κ ν : Type} [DecidableEq κ] {k : κ} {v : ν} {l : List (κ × ν)}
    (h : lookupKey k l = some v) : (k, v) ∈ l := by
  induction l with
  | nil => simp [lookupKey] at h
  | cons x rest ih =>
    obtain ⟨k', w⟩ := x
    by_cases hk : k' = k
    · subst hk; simp [lookupKey] at h; simp [h]
    · simp [lookupKey, hk] at h; exact List.mem_cons_of_mem _ (ih h)

theorem ModelWF.lookup_lt {m : GlobalSearchModel} (hwf : ModelWF m) {k : ContainerKey}
    {c : Nat} (h : lookupKey k m.containers_ = some c) : c < m.items.length :=
  (hwf.cache_valid _ (lookupKey_mem h)).2

theorem ModelWF.lookup_pos {m : GlobalSearchModel} (hwf : ModelWF m) {k : ContainerKey}
    {c : Nat} (h : lookupKey k m.containers_ = some c) : 0 < c :=
  (hwf.cache_valid _ (lookupKey_mem h)).1

theorem ModelWF.lookup_inj {m : GlobalSearchModel} (hwf : ModelWF m) {k k' : ContainerKey}
    {c : Nat} (h : lookupKey k m.containers_ = some c)
    (h' : lookupKey k' m.containers_ = some c) : k = k' := by
  have := List.inj_on_of_nodup_map hwf.values_nodup (lookupKey_mem h) (lookupKey_mem h') rfl
  exact congrArg Prod.fst this

theorem ModelWF.of_eq {m m' : GlobalSearchModel} (hwf : ModelWF m)
    (hitems : m'.items = m.items) (hcache : m'.containers_ = m.containers_) : ModelWF m' := by
  obtain ⟨h1, h2, h3, h4, h5, h6, h7⟩ := hwf
  constructor
  · rw [hitems]; exact h1
  · rw [hitems, hcache]; exact h2
  · rw [hcache]; exact h3
  · rw [hcache]; exact h4
  · rw [hitems]; exact h5
  · rw [hitems, hcache]; exact h6
  · rw [hitems]; exact h7

theorem ModelWF.lookup_plain {m : GlobalSearchModel} (hwf : ModelWF m) {k : ContainerKey}
    {c : Nat} (h : lookupKey k m.containers_ = some c) : Plain m.items c :=
  hwf.cache_plain _ (lookupKey_mem h)

theorem ItemsWF.inTree {items : List QStandardItem} (hwf : ItemsWF items) :
    ∀ i, i < items.length → InTree items i := by
  intro i
  induction i using Nat.strong_induction_on with
  | _ i ih =>
    intro hi
    rcases Nat.eq_zero_or_pos i with h0 | hpos
    · subst h0; exact InTree.root
    · have hit : items[i]? = some items[i] := List.getElem?_eq_getElem hi
      cases hpar : items[i].parent with
      | none => exact absurd hpar (hwf.has_parent i _ hit hpos)
      | some p =>
        obtain ⟨hlt, pit, hpit, hmem⟩ := hwf.parent_valid i _ p hit hpar
        exact InTree.row p i pit (ih p hlt (by omega)) hpit hmem

theorem length_appendRow (items : List QStandardItem) (p : Nat) (it : QStandardItem) :
    (appendRow items p it).length = items.length + 1 := by
  simp [appendRow]

theorem getElem?_appendRow_lt (items : List QStandardItem) (p : Nat) (it : QStandardItem)
    {i : Nat} (h : i < items.length) :
    (appendRow items p it)[i]? =
      some (if p = i then { items[i] with rows := items[i].rows ++ [items.length] }
            else items[i]) := by
  unfold appendRow
  rw [List.getElem?_append_left (by simpa using h), List.getElem?_modify,
    List.getElem?_eq_getElem h]
  simp

theorem getElem?_appendRow_length (items : List QStandardItem) (p : Nat) (it : QStandardItem) :
    (appendRow items p it)[items.length]? = some { it with parent := some p } := by
  unfold appendRow
  rw [List.getElem?_append_right (by simp)]
  simp

theorem getElem?_appendRow_gt (items : List QStandardItem) (p : Nat) (it : QStandardItem)
    {i : Nat} (h : items.length < i) : (appendRow items p it)[i]? = none := by
  apply List.getElem?_eq_none
  rw [length_appendRow]; omega

theorem filterMap_modify {α β : Type} (g : α → Option β) (f : α → α)
    (hg : ∀ a, g (f a) = g a) (n : Nat) (l : List α) :
    (List.modify f n l).filterMap g = l.filterMap g := by
  induction l generalizing n with
  | nil => simp
  | cons a rest ih =>
    cases n with
    | zero => simp [List.filterMap_cons, hg]
    | succ n => simp [List.filterMap_cons, ih]

theorem filterMap_appendRow {β : Type} (g : QStandardItem → Option β)
    (hg : ∀ x rs, g { x with rows := rs } = g x)
    (items : List QStandardItem) (p : Nat) (it : QStandardItem) :
    (appendRow items p it).filterMap g =
      items.filterMap g ++ (g { it with parent := some p }).toList := by
  unfold appendRow
  rw [List.filterMap_append, filterMap_modify g _ (fun a => hg a _)]
  cases h : g { it with parent := some p } <;> simp [List.filterMap_cons, h]

theorem appendRow_cases (items : List QStandardItem) (p : Nat) (it : QStandardItem)
    {i : Nat} {x : QStandardItem} (h : (appendRow items p it)[i]? = some x) :
    (∃ y, items[i]? = some y ∧
        x = if p = i then { y with rows := y.rows ++ [items.length] } else y) ∨
      (i = items.length ∧ x = { it with parent := some p }) := by
  rcases Nat.lt_trichotomy i items.length with hlt | heq | hgt
  · left
    rw [getElem?_appendRow_lt items p it hlt] at h
    exact ⟨items[i], List.getElem?_eq_getElem hlt, (Option.some.inj h).symm⟩
  · right
    subst heq
    rw [getElem?_appendRow_length] at h
    exact ⟨rfl, (Option.some.inj h).symm⟩
  · rw [getElem?_appendRow_gt items p it hgt] at h
    cases h

theorem getElem?_appendRow_of_some (items : List QStandardItem) (p : Nat)
    (it : QStandardItem) {i : Nat} {y : QStandardItem} (h : items[i]? = some y) :
    (appendRow items p it)[i]? =
      some (if p = i then { y with rows := y.rows ++ [items.length] } else y) := by
  have hlt : i < items.length := (List.getElem?_eq_some_iff.mp h).1
  rw [getElem?_appendRow_lt items p it hlt]
  have : items[i] = y := by
    rw [List.getElem?_eq_getElem hlt] at h
    exact Option.some.inj h
  rw [this]

theorem appendRow_wf {items : List QStandardItem} (hwf : ItemsWF items) {p : Nat}
    (hp : p < items.length) {it : QStandardItem} (hrows : it.rows = []) :
    ItemsWF (appendRow items p it) := by
  constructor
  · obtain ⟨r, hr, hrp⟩ := hwf.root
    refine ⟨_, getElem?_appendRow_of_some items p it hr, ?_⟩
    split <;> simp [hrp]
  · intro i x hx c hc
    rcases appendRow_cases items p it hx with ⟨y, hy, rfl⟩ | ⟨rfl, rfl⟩
    · by_cases hpi : p = i
      · subst hpi
        simp only [if_true, List.mem_append, List.mem_singleton] at hc
        rcases hc with hc | rfl
        · obtain ⟨cit, hcit, hcp⟩ := hwf.rows_valid p y hy c hc
          refine ⟨_, getElem?_appendRow_of_some items p it hcit, ?_⟩
          split <;> simp [hcp]
        · exact ⟨_, getElem?_appendRow_length items p it, rfl⟩
      · simp only [if_neg hpi] at hc
        obtain ⟨cit, hcit, hcp⟩ := hwf.rows_valid i y hy c hc
        refine ⟨_, getElem?_appendRow_of_some items p it hcit, ?_⟩
        split <;> simp [hcp]
    · simp [hrows] at hc
  · intro i x q hx hq
    rcases appendRow_cases items p it hx with ⟨y, hy, rfl⟩ | ⟨rfl, rfl⟩
    · have hyq : y.parent = some q := by
        split at hq <;> simpa using hq
      obtain ⟨hlt, pit, hpit, hmem⟩ := hwf.parent_valid i y q hy hyq
      refine ⟨hlt, _, getElem?_appendRow_of_some items p it hpit, ?_⟩
      split <;> simp [hmem]
    · simp only [Option.some.injEq] at hq
      subst hq
      refine ⟨hp, _, getElem?_appendRow_lt items p it hp, ?_⟩
      simp
  · intro i x hx
    rcases appendRow_cases items p it hx with ⟨y, hy, rfl⟩ | ⟨rfl, rfl⟩
    · by_cases hpi : p = i
      · subst hpi
        simp only [if_true]
        refine List.Nodup.append (hwf.rows_nodup p y hy) (List.nodup_singleton _) ?_
        intro c hc hc2
        simp only [List.mem_singleton] at hc2
        subst hc2
        obtain ⟨cit, hcit, _⟩ := hwf.rows_valid p y hy _ hc
        have := (List.getElem?_eq_some_iff.mp hcit).1
        omega
      · simp only [if_neg hpi]
        exact hwf.rows_nodup i y hy
    · simp [hrows]
  · intro i x hx hi
    rcases appendRow_cases items p it hx with ⟨y, hy, rfl⟩ | ⟨rfl, rfl⟩
    · have := hwf.has_parent i y hy hi
      split <;> simpa using this
    · simp

theorem Plain.appendRow {items : List QStandardItem} {q : Nat} (h : Plain items q)
    (hq : q < items.length) (p : Nat) (it : QStandardItem) :
    Plain (appendRow items p it) q := by
  intro x hx
  rcases appendRow_cases items p it hx with ⟨y, hy, rfl⟩ | ⟨rfl, _⟩
  · have := h y hy
    split <;> simpa using this
  · omega

/-- Appending a row without rows of its own under an item that wraps no result keeps the
model well formed. -/
theorem ModelWF.appendRow_items {m : GlobalSearchModel} (hwf : ModelWF m) {p : Nat}
    (hp : p < m.items.length) (hplain : Plain m.items p) {it : QStandardItem}
    (hrows : it.rows = []) : ModelWF { m with items := appendRow m.items p it } := by
  have hroot : invisibleRootItem < m.items.length := by
    obtain ⟨r, hr, _⟩ := hwf.items.root
    exact (List.getElem?_eq_some_iff.mp hr).1
  refine ⟨appendRow_wf hwf.items hp hrows, ?_, hwf.keys_nodup, hwf.values_nodup,
    hwf.root_plain.appendRow hroot p it, ?_, ?_⟩
  · intro e he
    have := hwf.cache_valid e he
    show 0 < e.2 ∧ e.2 < (appendRow _ _ _).length
    rw [length_appendRow]; omega
  · intro e he
    exact (hwf.cache_plain e he).appendRow (hwf.cache_valid e he).2 p it
  · intro i x hx hres
    rcases appendRow_cases m.items p it hx with ⟨y, hy, rfl⟩ | ⟨rfl, rfl⟩
    · by_cases hpi : p = i
      · subst hpi
        exact absurd (by simpa using hplain y hy) hres
      · simp only [if_neg hpi] at hres ⊢
        exact hwf.leaves_childless i y hy hres
    · exact hrows

theorem leafAt_appendRow_lt (items : List QStandardItem) (p : Nat) (it : QStandardItem)
    {i : Nat} (h : i < items.length) :
    leafAt (appendRow items p it) i = leafAt items i := by
  unfold leafAt
  rw [getElem?_appendRow_lt items p it h, List.getElem?_eq_getElem h]
  split <;> rfl

theorem leafAt_appendRow_length (items : List QStandardItem) (p : Nat)
    (it : QStandardItem) :
    leafAt (appendRow items p it) items.length = leafData it := by
  unfold leafAt
  rw [getElem?_appendRow_length]
  rfl

theorem rowLeaves_of_length_le (items : List QStandardItem) {p : Nat}
    (h : items.length ≤ p) : rowLeaves items p = [] := by
  unfold rowLeaves
  rw [List.getElem?_eq_none h]

theorem rowLeaves_appendRow {items : List QStandardItem} (hwf : ItemsWF items) {q : Nat}
    (hq : q < items.length) {it : QStandardItem} (hrows : it.rows = []) (p : Nat) :
    rowLeaves (appendRow items q it) p =
      rowLeaves items p ++ (if p = q then (leafData it).toList else []) := by
  rcases Nat.lt_trichotomy p items.length with hlt | heq | hgt
  · have hy : items[p]? = some items[p] := List.getElem?_eq_getElem hlt
    have hcongr : ∀ c ∈ items[p].rows,
        leafAt (appendRow items q it) c = leafAt items c := by
      intro c hc
      obtain ⟨cit, hcit, _⟩ := hwf.rows_valid p _ hy c hc
      exact leafAt_appendRow_lt items q it (List.getElem?_eq_some_iff.mp hcit).1
    unfold rowLeaves
    rw [getElem?_appendRow_lt items q it hlt, hy]
    by_cases hqp : q = p
    · subst hqp
      simp only [if_true, List.filterMap_append]
      rw [List.filterMap_congr hcongr]
      congr 1
      cases h : leafData it <;> simp [List.filterMap_cons, leafAt_appendRow_length, h]
    · have hpq : ¬ p = q := fun h => hqp h.symm
      simp only [if_neg hqp, if_neg hpq, List.append_nil]
      exact List.filterMap_congr hcongr
  · subst heq
    have hne : ¬ items.length = q := by omega
    rw [rowLeaves_of_length_le items (Nat.le_refl _)]
    unfold rowLeaves
    rw [getElem?_appendRow_length]
    simp [hrows, hne]
  · have hne : ¬ p = q := by omega
    rw [rowLeaves_of_length_le items (Nat.le_of_lt hgt),
      rowLeaves_of_length_le _ (by rw [length_appendRow]; omega)]
    simp [hne]

theorem grows_refl (m : GlobalSearchModel) : Grows m m :=
  ⟨rfl, rfl, Nat.le_refl _, fun _ _ h => h, fun _ => rfl, rfl, rfl⟩

theorem grows_trans {a b c : GlobalSearchModel} (h1 : Grows a b) (h2 : Grows b c) :
    Grows a c :=
  ⟨h2.ranks_eq.trans h1.ranks_eq, h2.next_eq.trans h1.next_eq,
    Nat.le_trans h1.length_le h2.length_le,
    fun k v h => h2.cache_mono k v (h1.cache_mono k v h),
    fun q => (h2.rowLeaves_eq q).trans (h1.rowLeaves_eq q),
    h2.leaves_eq.trans h1.leaves_eq, h2.dividers_eq.trans h1.dividers_eq⟩

theorem leafData_newContainer (env : Env) (key : ContainerKey) (level : Nat)
    (t : LevelTexts) : leafData (newContainer env key level t) = none := rfl

/-- Creating the container of one level (lines 137 to 154) keeps the model well formed
and only extends it. -/
theorem createContainer_spec (env : Env) {m : GlobalSearchModel} (hwf : ModelWF m)
    {parent : Nat} (hp : parent < m.items.length) (hplain : Plain m.items parent)
    {key : ContainerKey} (hkey : lookupKey key m.containers_ = none) (level : Nat)
    (t : LevelTexts) :
    let m' : GlobalSearchModel := { m with
      items := appendRow m.items parent (newContainer env key level t)
      containers_ := (key, m.items.length) :: m.containers_ }
    ModelWF m' ∧ Grows m m' ∧ lookupKey key m'.containers_ = some m.items.length := by
  intro m'
  have hwf1 : ModelWF { m with
      items := appendRow m.items parent (newContainer env key level t) } :=
    hwf.appendRow_items hp hplain rfl
  refine ⟨⟨hwf1.items, ?_, ?_, ?_, hwf1.root_plain, ?_, hwf1.leaves_childless⟩,
    ⟨rfl, rfl, ?_, ?_, ?_, ?_, ?_⟩, ?_⟩
  · intro e he
    rcases List.mem_cons.mp he with rfl | he
    · show 0 < m.items.length ∧ m.items.length < (appendRow m.items parent _).length
      rw [length_appendRow]; omega
    · exact hwf1.cache_valid e he
  · show ((key, m.items.length) :: m.containers_ |>.map Prod.fst).Nodup
    rw [List.map_cons, List.nodup_cons]
    exact ⟨(lookupKey_eq_none_iff key _).mp hkey, hwf.keys_nodup⟩
  · show ((key, m.items.length) :: m.containers_ |>.map Prod.snd).Nodup
    rw [List.map_cons, List.nodup_cons]
    refine ⟨?_, hwf.values_nodup⟩
    intro hmem
    obtain ⟨e, he, hev⟩ := List.mem_map.mp hmem
    have := (hwf.cache_valid e he).2
    have hev2 : e.2 = m.items.length := hev
    omega
  · intro e he
    rcases List.mem_cons.mp he with rfl | he
    · intro y hy
      have hy2 : (appendRow m.items parent (newContainer env key level t))[m.items.length]?
          = some y := hy
      rw [getElem?_appendRow_length] at hy2
      cases hy2
      rfl
    · exact hwf1.cache_plain e he
  · show m.items.length ≤ (appendRow m.items parent _).length
    rw [length_appendRow]; omega
  · intro k c hk
    have hkk : key ≠ k := by
      rintro rfl
      rw [hkey] at hk; cases hk
    show lookupKey k ((key, m.items.length) :: m.containers_) = some c
    rw [lookupKey_cons_ne _ _ hkk]; exact hk
  · intro q
    show rowLeaves (appendRow m.items parent _) q = _
    rw [rowLeaves_appendRow hwf.items hp rfl, leafData_newContainer]
    simp
  · show (appendRow m.items parent _).filterMap leafData = _
    rw [filterMap_appendRow leafData (fun _ _ => rfl)]
    show _ ++ (leafData (newContainer env key level t)).toList = _
    rw [leafData_newContainer]; simp
  · show (appendRow m.items parent _).filterMap dividerData = _
    rw [filterMap_appendRow dividerData (fun _ _ => rfl)]
    show _ ++ (dividerData (newContainer env key level t)).toList = _
    rw [show dividerData (newContainer env key level t) = none from rfl]; simp
  · show lookupKey key ((key, m.items.length) :: m.containers_) = _
    exact lookupKey_cons_self _ _ _

theorem BuildContainersFrom_inactive (env : Env) (s : Song) (n : Nat)
    (m : GlobalSearchModel) (parent : Nat) (key : ContainerKey) (level : Nat)
    (h : levelTexts env s (env.group_by_ level) = none) :
    BuildContainersFrom env s n m parent key level = (m, parent) := by
  cases n with
  | zero => rfl
  | succ n => simp [BuildContainersFrom, h]

/-- `BuildContainers` keeps the model well formed, only extends it, and returns a pointer
into the store to an item that wraps no result. -/
theorem BuildContainersFrom_grows (env : Env) (s : Song) :
    ∀ (n : Nat) (m : GlobalSearchModel) (parent : Nat) (key : ContainerKey) (level : Nat),
      ModelWF m → parent < m.items.length → Plain m.items parent →
      ModelWF (BuildContainersFrom env s n m parent key level).1 ∧
      Grows m (BuildContainersFrom env s n m parent key level).1 ∧
      (BuildContainersFrom env s n m parent key level).2 <
        (BuildContainersFrom env s n m parent key level).1.items.length ∧
      Plain (BuildContainersFrom env s n m parent key level).1.items
        (BuildContainersFrom env s n m parent key level).2 := by
  intro n
  induction n with
  | zero =>
    intro m parent key level hwf hp hpl
    exact ⟨hwf, grows_refl m, hp, hpl⟩
  | succ n ih =>
    intro m parent key level hwf hp hpl
    cases ht : levelTexts env s (env.group_by_ level) with
    | none =>
      rw [BuildContainersFrom_inactive env s _ m parent key level ht]
      exact ⟨hwf, grows_refl m, hp, hpl⟩
    | some t =>
      cases hl : lookupKey (key.setGroup level t.display_text) m.containers_ with
      | some container =>
        have hc := hwf.lookup_lt hl
        simp only [BuildContainersFrom, ht, hl]
        exact ih m container _ (level + 1) hwf hc (hwf.lookup_plain hl)
      | none =>
        obtain ⟨hwf1, hg1, hl1⟩ := createContainer_spec env hwf hp hpl hl level t
        simp only [BuildContainersFrom, ht, hl]
        have hlen : m.items.length <
            (appendRow m.items parent
              (newContainer env (key.setGroup level t.display_text) level t)).length := by
          rw [length_appendRow]; omega
        obtain ⟨h1, h2, h3, h4⟩ := ih _ m.items.length (key.setGroup level t.display_text)
          (level + 1) hwf1 hlen (hwf1.lookup_plain hl1)
        exact ⟨h1, grows_trans hg1 h2, h3, h4⟩

/-- When the parent given to `BuildContainers` is the container cached under the key given
to it, the returned item is the container cached under the key of the whole walk. -/
theorem BuildContainersFrom_lookup (env : Env) (s : Song) :
    ∀ (n : Nat) (m : GlobalSearchModel) (parent : Nat) (key : ContainerKey) (level : Nat),
      ModelWF m → parent < m.items.length → lookupKey key m.containers_ = some parent →
      lookupKey (chainKeyFrom env s n key level)
        (BuildContainersFrom env s n m parent key level).1.containers_ =
        some (BuildContainersFrom env s n m parent key level).2 := by
  intro n
  induction n with
  | zero =>
    intro m parent key level _ _ hk
    exact hk
  | succ n ih =>
    intro m parent key level hwf hp hk
    cases ht : levelTexts env s (env.group_by_ level) with
    | none =>
      rw [BuildContainersFrom_inactive env s _ m parent key level ht]
      simpa [chainKeyFrom, ht] using hk
    | some t =>
      cases hl : lookupKey (key.setGroup level t.display_text) m.containers_ with
      | some container =>
        have hc := hwf.lookup_lt hl
        simp only [BuildContainersFrom, chainKeyFrom, ht, hl]
        exact ih m container _ (level + 1) hwf hc hl
      | none =>
        obtain ⟨hwf1, _, hl1⟩ := createContainer_spec env hwf hp (hwf.lookup_plain hk) hl
          level t
        simp only [BuildContainersFrom, chainKeyFrom, ht, hl]
        have hlen : m.items.length <
            (appendRow m.items parent
              (newContainer env (key.setGroup level t.display_text) level t)).length := by
          rw [length_appendRow]; omega
        exact ih _ m.items.length (key.setGroup level t.display_text) (level + 1) hwf1 hlen hl1

/-- Under the same condition every key written during the walk is cached afterwards. -/
theorem BuildContainersFrom_chain_cached (env : Env) (s : Song) :
    ∀ (n : Nat) (m : GlobalSearchModel) (parent : Nat) (key : ContainerKey) (level : Nat)
      (j : Nat), j ≤ n →
      ModelWF m → parent < m.items.length → lookupKey key m.containers_ = some parent →
      (lookupKey (chainKeyFrom env s j key level)
        (BuildContainersFrom env s n m parent key level).1.containers_).isSome = true := by
  intro n
  induction n with
  | zero =>
    intro m parent key level j hj _ _ hk
    have : j = 0 := by omega
    subst this
    show (lookupKey key m.containers_).isSome = true
    rw [hk]; rfl
  | succ n ih =>
    intro m parent key level j hj hwf hp hk
    have hmono := (BuildContainersFrom_grows env s (n + 1) m parent key level hwf hp
      (hwf.lookup_plain hk)).2.1
    have hkey : (lookupKey key
        (BuildContainersFrom env s (n + 1) m parent key level).1.containers_).isSome
          = true := by
      rw [hmono.cache_mono key parent hk]; rfl
    cases j with
    | zero => exact hkey
    | succ j =>
      cases ht : levelTexts env s (env.group_by_ level) with
      | none => simpa [chainKeyFrom, ht] using hkey
      | some t =>
        cases hl : lookupKey (key.setGroup level t.display_text) m.containers_ with
        | some container =>
          have hc := hwf.lookup_lt hl
          simp only [BuildContainersFrom, chainKeyFrom, ht, hl]
          exact ih m container _ (level + 1) j (by omega) hwf hc hl
        | none =>
          obtain ⟨hwf1, _, hl1⟩ := createContainer_spec env hwf hp (hwf.lookup_plain hk) hl
            level t
          simp only [BuildContainersFrom, chainKeyFrom, ht, hl]
          have hlen : m.items.length <
              (appendRow m.items parent
                (newContainer env (key.setGroup level t.display_text) level t)).length := by
            rw [length_appendRow]; omega
          exact ih _ m.items.length (key.setGroup level t.display_text) (level + 1) j
            (by omega) hwf1 hlen hl1

theorem levelTexts_eq_none_iff (env : Env) (s : Song) (g : GroupBy) :
    levelTexts env s g = none ↔ g = GroupBy_None := by
  cases g <;> simp [levelTexts]

/-- From an active level on, the item returned by `BuildContainers` is the container cached
under the key of the whole walk, and every key of the walk is cached. -/
theorem BuildContainersFrom_active (env : Env) (s : Song) (n : Nat)
    (m : GlobalSearchModel) (parent : Nat) (key : ContainerKey) (level : Nat)
    (hwf : ModelWF m) (hp : parent < m.items.length) (hpl : Plain m.items parent)
    (hact : env.group_by_ level ≠ GroupBy_None) :
    lookupKey (chainKeyFrom env s (n + 1) key level)
        (BuildContainersFrom env s (n + 1) m parent key level).1.containers_ =
        some (BuildContainersFrom env s (n + 1) m parent key level).2 ∧
    ∀ j, j ≤ n →
      (lookupKey (chainKeyFrom env s (j + 1) key level)
        (BuildContainersFrom env s (n + 1) m parent key level).1.containers_).isSome
          = true := by
  cases ht : levelTexts env s (env.group_by_ level) with
  | none => exact absurd ((levelTexts_eq_none_iff env s _).mp ht) hact
  | some t =>
    cases hl : lookupKey (key.setGroup level t.display_text) m.containers_ with
    | some container =>
      have hc := hwf.lookup_lt hl
      simp only [BuildContainersFrom, chainKeyFrom, ht, hl]
      exact ⟨BuildContainersFrom_lookup env s n m container _ (level + 1) hwf hc hl,
        fun j hj =>
          BuildContainersFrom_chain_cached env s n m container _ (level + 1) j hj hwf hc hl⟩
    | none =>
      obtain ⟨hwf1, _, hl1⟩ := createContainer_spec env hwf hp hpl hl level t
      simp only [BuildContainersFrom, chainKeyFrom, ht, hl]
      have hlen : m.items.length <
          (appendRow m.items parent
            (newContainer env (key.setGroup level t.display_text) level t)).length := by
        rw [length_appendRow]; omega
      exact ⟨BuildContainersFrom_lookup env s n _ m.items.length _ (level + 1) hwf1 hlen hl1,
        fun j hj => BuildContainersFrom_chain_cached env s n _ m.items.length _ (level + 1)
          j hj hwf1 hlen hl1⟩

/-- What lines 65 to 73 compute for one result: a well-formed extension of the model and the
parent of the new leaf, which is `leafParent` in the extended cache. -/
theorem built_spec (env : Env) (sort_index : Int) {m : GlobalSearchModel} (hwf : ModelWF m)
    (result : Result) :
    let built :=
      if result.group_automatically_ then
        BuildContainers env result.metadata_ m invisibleRootItem
          (ContainerKey.ofRank sort_index) 0
      else (m, invisibleRootItem)
    ModelWF built.1 ∧ Grows m built.1 ∧ built.2 < built.1.items.length ∧
      Plain built.1.items built.2 ∧
      built.2 = leafParent env built.1.containers_ (sort_index, result) ∧
      (result.group_automatically_ = true → env.group_by_0 ≠ GroupBy_None →
        ∀ j, j ≤ 2 →
          (lookupKey (chainKeyFrom env result.metadata_ (j + 1)
            (ContainerKey.ofRank sort_index) 0) built.1.containers_).isSome = true) := by
  intro built
  have hroot : invisibleRootItem < m.items.length := by
    obtain ⟨r, hr, _⟩ := hwf.items.root
    exact (List.getElem?_eq_some_iff.mp hr).1
  by_cases hauto : result.group_automatically_ = true
  · by_cases hact : env.group_by_0 = GroupBy_None
    · have hb : built = (m, invisibleRootItem) := by
        simp only [built, hauto, if_true, BuildContainers]
        exact BuildContainersFrom_inactive env _ _ m _ _ 0
          ((levelTexts_eq_none_iff env _ _).mpr hact)
      rw [hb]
      refine ⟨hwf, grows_refl m, hroot, hwf.root_plain, ?_, fun _ h => absurd hact h⟩
      simp [leafParent, hact]
    · have hb : built = BuildContainersFrom env result.metadata_ 3 m invisibleRootItem
          (ContainerKey.ofRank sort_index) 0 := by
        simp only [built, hauto, if_true, BuildContainers]
      rw [hb]
      obtain ⟨h1, h2, h3, h3p⟩ := BuildContainersFrom_grows env result.metadata_ 3 m
        invisibleRootItem (ContainerKey.ofRank sort_index) 0 hwf hroot hwf.root_plain
      obtain ⟨h4, h5⟩ := BuildContainersFrom_active env result.metadata_ 2 m
        invisibleRootItem (ContainerKey.ofRank sort_index) 0 hwf hroot hwf.root_plain hact
      refine ⟨h1, h2, h3, h3p, ?_, fun _ _ => h5⟩
      simp only [leafParent, hauto, hact, ne_eq, not_false_eq_true, and_self, if_true]
      rw [show fullKey env sort_index result.metadata_ =
        chainKeyFrom env result.metadata_ 3 (ContainerKey.ofRank sort_index) 0 from rfl, h4]
      rfl
  · have hb : built = (m, invisibleRootItem) := by
      simp only [built, hauto]; rfl
    rw [hb]
    refine ⟨hwf, grows_refl m, hroot, hwf.root_plain, ?_, fun h => absurd h hauto⟩
    simp [leafParent, hauto]

theorem leafParent_mono (env : Env) {c c' : List (ContainerKey × Nat)}
    (hmono : ∀ (k : ContainerKey) (v : Nat), lookupKey k c = some v → lookupKey k c' = some v)
    (x : Int × Result)
    (hx : x.2.group_automatically_ = true → env.group_by_0 ≠ GroupBy_None →
      (lookupKey (fullKey env x.1 x.2.metadata_) c).isSome = true) :
    leafParent env c' x = leafParent env c x := by
  unfold leafParent
  by_cases h : x.2.group_automatically_ = true ∧ env.group_by_0 ≠ GroupBy_None
  · simp only [h, and_self, if_true]
    obtain ⟨v, hv⟩ := Option.isSome_iff_exists.mp (hx h.1 h.2)
    rw [hv, hmono _ _ hv]
  · simp only [h, if_false]

/-- The body of the loop of `AddResults` files one more result. -/
theorem insertResult_filed (env : Env) (sort_index : Int) {m : GlobalSearchModel}
    {L : List (Int × Result)} (h : Filed env m L) (result : Result) :
    Filed env (insertResult env sort_index m result) (L ++ [(sort_index, result)]) := by
  obtain ⟨hwf1, hg, hlt, hpl, hpar, hfull⟩ := built_spec env sort_index h.wf result
  unfold insertResult
  generalize (if result.group_automatically_ then
        BuildContainers env result.metadata_ m invisibleRootItem
          (ContainerKey.ofRank sort_index) 0
      else (m, invisibleRootItem)) = built at hwf1 hg hlt hpl hpar hfull
  have hstable : ∀ x ∈ L, leafParent env built.1.containers_ x =
      leafParent env m.containers_ x :=
    fun x hx => leafParent_mono env hg.cache_mono x
      (fun hauto hact => h.cached x hx hauto hact 2 (Nat.le_refl 2))
  constructor
  · exact hwf1.appendRow_items hlt hpl rfl
  · show (appendRow _ _ _).filterMap leafData = _
    rw [filterMap_appendRow leafData (fun _ _ => rfl), hg.leaves_eq, h.leaves]
    rfl
  · intro x hx hauto hact j hj
    show (lookupKey _ built.1.containers_).isSome = true
    rcases List.mem_append.mp hx with hx | hx
    · obtain ⟨v, hv⟩ := Option.isSome_iff_exists.mp (h.cached x hx hauto hact j hj)
      rw [hg.cache_mono _ _ hv]; rfl
    · rw [List.mem_singleton] at hx
      subst hx
      exact hfull hauto hact j hj
  · intro p
    show rowLeaves (appendRow _ _ _) p =
      (L ++ [(sort_index, result)]).filter
        (fun x => decide (leafParent env built.1.containers_ x = p))
    rw [rowLeaves_appendRow hwf1.items hlt rfl, hg.rowLeaves_eq, h.rows p,
      List.filter_append]
    congr 1
    · apply List.filter_congr
      intro x hx
      rw [hstable x hx]
    · simp only [List.filter_cons, List.filter_nil, ← hpar]
      by_cases hp : p = built.2
      · subst hp
        simp [leafData]
      · have hp2 : ¬ built.2 = p := fun e => hp e.symm
        simp [hp, hp2]

theorem insertResult_registry (env : Env) (sort_index : Int) {m : GlobalSearchModel}
    (hwf : ModelWF m) (result : Result) :
    (insertResult env sort_index m result).provider_sort_indices_ =
        m.provider_sort_indices_ ∧
      (insertResult env sort_index m result).next_provider_sort_index_ =
        m.next_provider_sort_index_ ∧
      (insertResult env sort_index m result).items.filterMap dividerData =
        m.items.filterMap dividerData := by
  obtain ⟨_, hg, _, _, _, _⟩ := built_spec env sort_index hwf result
  unfold insertResult
  generalize (if result.group_automatically_ then
        BuildContainers env result.metadata_ m invisibleRootItem
          (ContainerKey.ofRank sort_index) 0
      else (m, invisibleRootItem)) = built at hg
  refine ⟨hg.ranks_eq, hg.next_eq, ?_⟩
  show (appendRow _ _ _).filterMap dividerData = _
  rw [filterMap_appendRow dividerData (fun _ _ => rfl), hg.dividers_eq]
  simp [dividerData]

theorem indexOf_eq (x : String) (l : List String) :
    indexOf x l = if x ∈ l then ((l.indexOf x : Nat) : Int) else -1 := by
  induction l with
  | nil => simp [indexOf]
  | cons y rest ih =>
    by_cases hy : y = x
    · subst hy; simp [indexOf]
    · have hxy : ¬ x = y := fun e => hy e.symm
      rw [indexOf, if_neg hy, ih]
      by_cases hx : x ∈ rest
      · simp only [hx, if_true, List.mem_cons, or_true, List.indexOf_cons_ne _ hy]
        have : ¬ ((List.indexOf x rest : Nat) : Int) = -1 := by omega
        simp only [this, if_false]
        push_cast; rfl
      · simp [hx, hxy]

theorem firstSeen_append_singleton (l : List SearchProvider) (p : SearchProvider) :
    firstSeen (l ++ [p]) =
      if p ∈ firstSeen l then firstSeen l else firstSeen l ++ [p] := by
  simp [firstSeen, List.foldl_append]

theorem mem_firstSeen (l : List SearchProvider) (p : SearchProvider) :
    p ∈ firstSeen l ↔ p ∈ l := by
  induction l using List.reverseRecOn with
  | nil => simp [firstSeen]
  | append_singleton l q ih =>
    rw [firstSeen_append_singleton]
    by_cases hq : q ∈ firstSeen l
    · simp only [hq, if_true, List.mem_append, List.mem_singleton]
      constructor
      · intro h; exact Or.inl (ih.mp h)
      · rintro (h | rfl)
        · exact ih.mpr h
        · exact hq
    · simp only [hq, if_false, List.mem_append, List.mem_singleton, ih]

theorem nodup_firstSeen (l : List SearchProvider) : (firstSeen l).Nodup := by
  induction l using List.reverseRecOn with
  | nil => simp [firstSeen]
  | append_singleton l q ih =>
    rw [firstSeen_append_singleton]
    by_cases hq : q ∈ firstSeen l
    · simpa [hq] using ih
    · simp only [hq, if_false]
      refine List.Nodup.append ih (List.nodup_singleton _) ?_
      intro a ha ha2
      rw [List.mem_singleton] at ha2
      subst ha2
      exact hq ha

theorem takeWhile_ne_append_of_mem (seen extra : List SearchProvider) {p : SearchProvider}
    (hp : p ∈ seen) :
    (seen ++ extra).takeWhile (fun q => decide (q ≠ p)) =
      seen.takeWhile (fun q => decide (q ≠ p)) := by
  induction seen with
  | nil => cases hp
  | cons a rest ih =>
    by_cases ha : a = p
    · subst ha; simp [List.takeWhile_cons]
    · have hmem : p ∈ rest := by
        rcases List.mem_cons.mp hp with h | h
        · exact absurd h.symm ha
        · exact h
      simp only [List.cons_append, List.takeWhile_cons, ne_eq, ha, not_false_eq_true,
        decide_True, if_true, ih hmem]

theorem takeWhile_ne_append_self (seen : List SearchProvider) {p : SearchProvider}
    (hp : p ∉ seen) :
    (seen ++ [p]).takeWhile (fun q => decide (q ≠ p)) = seen := by
  induction seen with
  | nil => simp [List.takeWhile_cons]
  | cons a rest ih =>
    have ha : a ≠ p := fun e => hp (e ▸ List.mem_cons_self _ _)
    have hrest : p ∉ rest := fun h => hp (List.mem_cons_of_mem _ h)
    simp only [List.cons_append, List.takeWhile_cons, ne_eq, ha, not_false_eq_true,
      decide_True, if_true, ih hrest]

theorem rankOf_append_of_mem (env : Env) (seen extra : List SearchProvider)
    {p : SearchProvider} (hp : p ∈ seen) :
    rankOf env (seen ++ extra) p = rankOf env seen p := by
  unfold rankOf
  rw [takeWhile_ne_append_of_mem seen extra hp]

theorem rankOf_append_self (env : Env) (seen : List SearchProvider) {p : SearchProvider}
    (hp : p ∉ seen) : rankOf env (seen ++ [p]) p = specRank env seen p := by
  unfold rankOf
  rw [takeWhile_ne_append_self seen hp]

theorem insertResult_registry_inv (env : Env) (sort_index : Int) {m : GlobalSearchModel}
    {seen : List SearchProvider} (hwf : ModelWF m) (h : Registry env m seen)
    (result : Result) : Registry env (insertResult env sort_index m result) seen := by
  obtain ⟨h1, h2, h3⟩ := insertResult_registry env sort_index hwf result
  exact ⟨fun p => by rw [h1]; exact h.ranks p, by rw [h2]; exact h.next,
    by rw [h3]; exact h.dividers⟩

/-- The loop of `AddResults` files the results of the batch after those filed before and
leaves the registry alone. -/
theorem foldl_insertResult_spec (env : Env) (sort_index : Int)
    (seen : List SearchProvider) :
    ∀ (results : List Result) (m : GlobalSearchModel) (L : List (Int × Result)),
      Filed env m L → Registry env m seen →
      Filed env (results.foldl (insertResult env sort_index) m)
          (L ++ results.map (fun r => (sort_index, r))) ∧
        Registry env (results.foldl (insertResult env sort_index) m) seen := by
  intro results
  induction results with
  | nil =>
    intro m L hf hr
    simpa using ⟨hf, hr⟩
  | cons r rest ih =>
    intro m L hf hr
    have := ih (insertResult env sort_index m r) (L ++ [(sort_index, r)])
      (insertResult_filed env sort_index hf r)
      (insertResult_registry_inv env sort_index hf.wf hr r)
    simpa [List.foldl_cons, List.append_assoc] using this

/-- Lines 42 to 62: the rank returned is the rank of the provider among the providers seen
so far with this one added, the registry follows, and nothing is filed or moved. -/
theorem resolveProvider_spec (env : Env) {m : GlobalSearchModel}
    {seen : List SearchProvider} {L : List (Int × Result)}
    (hf : Filed env m L) (hr : Registry env m seen) (p : SearchProvider) :
    Registry env (resolveProvider env m p).1 (if p ∈ seen then seen else seen ++ [p]) ∧
      Filed env (resolveProvider env m p).1 L ∧
      (resolveProvider env m p).2 = rankOf env (if p ∈ seen then seen else seen ++ [p]) p := by
  have hlook := hr.ranks p
  by_cases hp : p ∈ seen
  · simp only [hp, if_true] at hlook ⊢
    have : resolveProvider env m p = (m, rankOf env seen p) := by
      simp only [resolveProvider, hlook]
    rw [this]
    exact ⟨hr, hf, rfl⟩
  · simp only [hp, if_false] at hlook ⊢
    have hroot : invisibleRootItem < m.items.length := by
      obtain ⟨r, hr0, _⟩ := hf.wf.items.root
      exact (List.getElem?_eq_some_iff.mp hr0).1
    have hrank : (if indexOf (env.provider_id p) env.provider_order_ ≠ -1 then
          indexOf (env.provider_id p) env.provider_order_
        else m.next_provider_sort_index_) = rankOf env (seen ++ [p]) p := by
      rw [rankOf_append_self env seen hp, indexOf_eq, specRank, hr.next]
      by_cases hin : env.provider_id p ∈ env.provider_order_
      · have : ¬ ((List.indexOf (env.provider_id p) env.provider_order_ : Nat) : Int) = -1 := by
          omega
        simp [hin, this]
      · simp [hin]
    simp only [resolveProvider, hlook]
    rw [hrank]
    refine ⟨⟨?_, ?_, ?_⟩,
      ⟨(hf.wf.appendRow_items hroot hf.wf.root_plain rfl).of_eq rfl rfl, ?_, ?_, ?_⟩, rfl⟩
    · intro q
      show lookupKey q ((p, rankOf env (seen ++ [p]) p) :: m.provider_sort_indices_) = _
      by_cases hq : p = q
      · subst hq
        simp [lookupKey_cons_self]
      · rw [lookupKey_cons_ne _ _ hq, hr.ranks q]
        have hq2 : ¬ q = p := fun e => hq e.symm
        by_cases hqs : q ∈ seen
        · simp [hqs, rankOf_append_of_mem env seen [p] hqs]
        · simp [hqs, hq2]
    · show (if indexOf (env.provider_id p) env.provider_order_ ≠ -1 then
          m.next_provider_sort_index_ else m.next_provider_sort_index_ + 1) = _
      rw [indexOf_eq, hr.next]
      by_cases hin : env.provider_id p ∈ env.provider_order_
      · have : ¬ ((List.indexOf (env.provider_id p) env.provider_order_ : Nat) : Int) = -1 := by
          omega
        simp [hin, this, List.filter_append, List.filter_cons]
      · simp [hin, List.filter_append, List.filter_cons]
        omega
    · show (appendRow _ _ _).filterMap dividerData = _
      rw [filterMap_appendRow dividerData (fun _ _ => rfl), hr.dividers, List.map_append]
      congr 1
      apply List.map_congr_left
      intro q hq
      rw [rankOf_append_of_mem env seen [p] hq]
    · show (appendRow _ _ _).filterMap leafData = _
      rw [filterMap_appendRow leafData (fun _ _ => rfl), hf.leaves]
      simp [leafData]
    · exact hf.cached
    · intro q
      show rowLeaves (appendRow _ _ _) q = _
      rw [rowLeaves_appendRow hf.wf.items hroot rfl, hf.rows q]
      simp [leafData]

theorem ranked_congr (env : Env) {seen seen' : List SearchProvider}
    (batches : List (List Result))
    (h : ∀ b ∈ batches, rankOf env seen' (batchProvider b) = rankOf env seen (batchProvider b)) :
    ranked env seen' batches = ranked env seen batches := by
  unfold ranked
  apply List.flatMap_congr
  intro b hb
  rw [h b hb]

theorem Inv_clear (env : Env) (m : GlobalSearchModel) : Inv env (Clear m) [] := by
  refine ⟨by simp, ⟨?_, ?_, ?_⟩,
    ⟨⟨⟨?_, ?_, ?_, ?_, ?_⟩, ?_, ?_, ?_, ?_, ?_, ?_⟩, ?_, ?_, ?_⟩⟩
  · intro p; simp [Clear, lookupKey, firstSeen]
  · simp [Clear, firstSeen]
  · simp [Clear, firstSeen, dividerData]
  · exact ⟨{}, rfl, rfl⟩
  · intro i it hi c hc
    have : it = {} := by
      cases i with
      | zero => simpa [Clear] using hi.symm
      | succ i => simp [Clear] at hi
    subst this
    cases hc
  · intro i it p hi hp
    have : it = {} := by
      cases i with
      | zero => simpa [Clear] using hi.symm
      | succ i => simp [Clear] at hi
    subst this
    cases hp
  · intro i it hi
    have : it = {} := by
      cases i with
      | zero => simpa [Clear] using hi.symm
      | succ i => simp [Clear] at hi
    subst this
    exact List.nodup_nil
  · intro i it hi hpos
    cases i with
    | zero => omega
    | succ i => simp [Clear] at hi
  · intro e he
    simp [Clear] at he
  · simp [Clear]
  · simp [Clear]
  · intro y hy
    simp [Clear, invisibleRootItem] at hy
    subst hy
    rfl
  · intro e he
    simp [Clear] at he
  · intro i it hi _
    cases i with
    | zero =>
      simp [Clear] at hi
      subst hi
      rfl
    | succ i => simp [Clear] at hi
  · simp [Clear, ranked, leafData]
  · intro x hx
    simp [ranked] at hx
  · intro p
    cases p with
    | zero => simp [Clear, ranked, rowLeaves]
    | succ p => simp [Clear, ranked, rowLeaves]

/-- `AddResults` on a non-empty batch returns a model, and the invariant holds for the
batches received with this one added. -/
theorem AddResults_inv (env : Env) {m : GlobalSearchModel} {batches : List (List Result)}
    (h : Inv env m batches) {results : List Result} (hne : results ≠ []) :
    ∃ m', AddResults env m results = some m' ∧ Inv env m' (batches ++ [results]) := by
  cases results with
  | nil => exact absurd rfl hne
  | cons first rest =>
    refine ⟨_, rfl, ?_⟩
    have hseen : firstSeen ((batches ++ [first :: rest]).map batchProvider) =
        if first.provider_ ∈ firstSeen (batches.map batchProvider) then
          firstSeen (batches.map batchProvider)
        else firstSeen (batches.map batchProvider) ++ [first.provider_] := by
      rw [List.map_append, List.map_singleton, firstSeen_append_singleton]
      rfl
    obtain ⟨hr1, hf1, hrank⟩ := resolveProvider_spec env h.filed h.registry first.provider_
    rw [← hseen] at hr1 hrank
    have hstable : ranked env (firstSeen ((batches ++ [first :: rest]).map batchProvider))
        batches = ranked env (firstSeen (batches.map batchProvider)) batches := by
      apply ranked_congr
      intro b hb
      have hmem : batchProvider b ∈ firstSeen (batches.map batchProvider) :=
        (mem_firstSeen _ _).mpr (List.mem_map_of_mem _ hb)
      rw [hseen]
      split
      · rfl
      · exact rankOf_append_of_mem env _ _ hmem
    rw [← hstable] at hf1
    obtain ⟨hf2, hr2⟩ := foldl_insertResult_spec env (resolveProvider env m first.provider_).2
      _ (first :: rest) _ _ hf1 hr1
    refine ⟨?_, hr2, ?_⟩
    · intro b hb
      rcases List.mem_append.mp hb with hb | hb
      · exact h.nonempty b hb
      · rw [List.mem_singleton] at hb
        subst hb
        exact List.cons_ne_nil _ _
    · have hsplit : ranked env (firstSeen ((batches ++ [first :: rest]).map batchProvider))
          (batches ++ [first :: rest]) =
          ranked env (firstSeen ((batches ++ [first :: rest]).map batchProvider)) batches ++
            (first :: rest).map (fun r => ((resolveProvider env m first.provider_).2, r)) := by
        rw [hrank]
        simp [ranked, List.flatMap_append, batchProvider]
      rw [hsplit]
      exact hf2

/-- A sequence of calls whose batches are all non-empty returns a model, and the invariant
holds for the batches received since the last `Clear`. -/
theorem run_inv (env : Env) :
    ∀ (ops : List Op), (∀ results, Op.addResults results ∈ ops → results ≠ []) →
      ∀ (m : GlobalSearchModel) (batches : List (List Result)), Inv env m batches →
      ∃ m', run env ops m = some m' ∧ Inv env m' (batchesSinceClear ops batches) := by
  intro ops
  induction ops with
  | nil =>
    intro _ m batches h
    exact ⟨m, rfl, h⟩
  | cons op rest ih =>
    intro hne m batches h
    have hrest : ∀ results, Op.addResults results ∈ rest → results ≠ [] :=
      fun results hr => hne results (List.mem_cons_of_mem _ hr)
    cases op with
    | clear =>
      obtain ⟨m', hm', hinv⟩ := ih hrest (Clear m) [] (Inv_clear env m)
      exact ⟨m', by simpa [run, step] using hm', hinv⟩
    | addResults results =>
      obtain ⟨m1, hm1, hinv1⟩ := AddResults_inv env h (hne results (List.mem_cons_self _ _))
      obtain ⟨m', hm', hinv⟩ := ih hrest m1 _ hinv1
      exact ⟨m', by simpa [run, step, hm1] using hm', hinv⟩

theorem run_clear_inv (env : Env) (m0 : GlobalSearchModel) (ops : List Op)
    (hne : ∀ results, Op.addResults results ∈ ops → results ≠ []) :
    ∃ m, run env (Op.clear :: ops) m0 = some m ∧ Inv env m (batchesSinceClear ops []) := by
  obtain ⟨m, hm, hinv⟩ := run_inv env ops hne (Clear m0) [] (Inv_clear env m0)
  exact ⟨m, by simpa [run, step] using hm, hinv⟩

theorem mem_ranked (env : Env) (seen : List SearchProvider) {batches : List (List Result)}
    {b : List Result} (hb : b ∈ batches) {r : Result} (hr : r ∈ b) :
    (rankOf env seen (batchProvider b), r) ∈ ranked env seen batches := by
  unfold ranked
  rw [List.mem_flatMap]
  exact ⟨b, hb, List.mem_map_of_mem _ hr⟩

/-- In a model that files `L`, the leaf rows of the container cached under a key are the
grouped results of `L` with that full key. -/
theorem Filed.rows_of_key {env : Env} {m : GlobalSearchModel} {L : List (Int × Result)}
    (h : Filed env m L) (hact : env.group_by_0 ≠ GroupBy_None) {key : ContainerKey} {c : Nat}
    (hc : lookupKey key m.containers_ = some c) :
    rowLeaves m.items c = L.filter (fun x => decide (x.2.group_automatically_ = true ∧
      fullKey env x.1 x.2.metadata_ = key)) := by
  rw [h.rows c]
  apply List.filter_congr
  intro x hx
  by_cases hauto : x.2.group_automatically_ = true
  · obtain ⟨v, hv⟩ := Option.isSome_iff_exists.mp (h.cached x hx hauto hact 2 (Nat.le_refl 2))
    have hv : lookupKey (fullKey env x.1 x.2.metadata_) m.containers_ = some v := hv
    have hpar : leafParent env m.containers_ x = v := by
      simp [leafParent, hauto, hact, hv]
    rw [hpar]
    by_cases hk : fullKey env x.1 x.2.metadata_ = key
    · rw [hk, hc] at hv
      cases hv
      simp [hauto, hk]
    · have hvc : ¬ v = c := by
        intro e
        subst e
        exact hk (h.wf.lookup_inj hv hc)
      simp [hauto, hk, hvc]
  · have hpar : leafParent env m.containers_ x = 0 := by
      simp [leafParent, hauto, invisibleRootItem]
    have hpos := h.wf.lookup_pos hc
    have h0 : ¬ 0 = c := by omega
    rw [hpar]
    simp [hauto, h0]

/-- In a model that files `L`, every grouped result of `L` has its shared chain. -/
theorem Filed.sharedChain {env : Env} {m : GlobalSearchModel} {L : List (Int × Result)}
    (h : Filed env m L) (hact : env.group_by_0 ≠ GroupBy_None) {x : Int × Result}
    (hx : x ∈ L) (hauto : x.2.group_automatically_ = true) :
    SharedChain env m L x.1 x.2 := by
  refine ⟨?_, ?_⟩
  · intro j hj _
    obtain ⟨v, hv⟩ := Option.isSome_iff_exists.mp (h.cached x hx hauto hact j (by omega))
    refine ⟨?_, v, hv, h.wf.items.inTree v (h.wf.lookup_lt hv)⟩
    apply List.count_eq_one_of_mem h.wf.keys_nodup
    exact List.mem_map.mpr ⟨_, lookupKey_mem hv, rfl⟩
  · obtain ⟨c, hc⟩ := Option.isSome_iff_exists.mp (h.cached x hx hauto hact 2 (Nat.le_refl 2))
    have hc : lookupKey (fullKey env x.1 x.2.metadata_) m.containers_ = some c := hc
    have hlt := h.wf.lookup_lt hc
    refine ⟨c, m.items[c], hc, List.getElem?_eq_getElem hlt, h.wf.items.inTree c hlt,
      h.wf.items.rows_nodup c _ (List.getElem?_eq_getElem hlt), ?_⟩
    have := h.rows_of_key hact hc
    unfold rowLeaves at this
    rw [List.getElem?_eq_getElem hlt] at this
    exact this

/-! ## The traversal of GetChildResults -/

theorem desc_trans {items : List QStandardItem} {i j k : Nat} (h1 : Desc items i j)
    (h2 : Desc items j k) : Desc items i k := by
  induction h1 with
  | refl _ => exact h2
  | step i c j it hi hc _ ih => exact Desc.step i c k it hi hc (ih h2)

theorem Desc.eq_of_childless {items : List QStandardItem} {i j : Nat} {it : QStandardItem}
    (hi : items[i]? = some it) (hrows : it.rows = []) (h : Desc items i j) : j = i := by
  cases h with
  | refl _ => rfl
  | step _ c _ it2 hi2 hc _ =>
    rw [hi] at hi2
    cases hi2
    rw [hrows] at hc
    cases hc

theorem Desc.iff_rows {items : List QStandardItem} {i : Nat} {it : QStandardItem}
    (hi : items[i]? = some it) (j : Nat) :
    Desc items i j ↔ j = i ∨ ∃ c ∈ it.rows, Desc items c j := by
  constructor
  · intro h
    cases h with
    | refl _ => exact Or.inl rfl
    | step _ c _ it2 hi2 hc hd =>
      rw [hi] at hi2
      cases hi2
      exact Or.inr ⟨c, hc, hd⟩
  · rintro (rfl | ⟨c, hc, hd⟩)
    · exact Desc.refl _
    · exact Desc.step i c j it hi hc hd

/-- Folding a step that visits one node and everything below it visits everything below
the nodes of the list. -/
theorem foldl_collected (m : GlobalSearchModel) (dflt : Result)
    (f : List Result × List Nat → Nat → List Result × List Nat) (b : Nat)
    (hf : ∀ (c : Nat) (acc : List Result × List Nat) (ids : List Nat),
      c < m.items.length → b ≤ c → Collected m dflt acc ids → ClosedFrom m.items acc.2 c →
      ∃ ids', Collected m dflt (f acc c) ids' ∧
        ∀ j, j ∈ (f acc c).2 ↔ j ∈ acc.2 ∨ Desc m.items c j) :
    ∀ (cs : List Nat) (acc : List Result × List Nat) (ids : List Nat),
      (∀ c ∈ cs, c < m.items.length ∧ b ≤ c) → Collected m dflt acc ids →
      ClosedFrom m.items acc.2 b →
      ∃ ids', Collected m dflt (cs.foldl f acc) ids' ∧
        (∀ j, j ∈ (cs.foldl f acc).2 ↔ j ∈ acc.2 ∨ ReachedFrom m.items cs j) ∧
        ClosedFrom m.items (cs.foldl f acc).2 b := by
  intro cs
  induction cs with
  | nil =>
    intro acc ids _ hcol hclosed
    refine ⟨ids, hcol, ?_, hclosed⟩
    intro j
    simp [ReachedFrom]
  | cons c rest ih =>
    intro acc ids hcs hcol hclosed
    obtain ⟨hclt, hbc⟩ := hcs c (List.mem_cons_self _ _)
    have hclosedc : ClosedFrom m.items acc.2 c :=
      fun v hv hle j hd => hclosed v hv (Nat.le_trans hbc hle) j hd
    obtain ⟨ids1, hcol1, hvis1⟩ := hf c acc ids hclt hbc hcol hclosedc
    have hclosed1 : ClosedFrom m.items (f acc c).2 b := by
      intro v hv hle j hd
      rcases (hvis1 v).mp hv with hv | hv
      · exact (hvis1 j).mpr (Or.inl (hclosed v hv hle j hd))
      · exact (hvis1 j).mpr (Or.inr (desc_trans hv hd))
    obtain ⟨ids2, hcol2, hvis2, hclosed2⟩ := ih (f acc c) ids1
      (fun x hx => hcs x (List.mem_cons_of_mem _ hx)) hcol1 hclosed1
    refine ⟨ids2, hcol2, ?_, hclosed2⟩
    intro j
    rw [List.foldl_cons, hvis2 j, hvis1 j]
    constructor
    · rintro ((h | h) | ⟨x, hx, hd⟩)
      · exact Or.inl h
      · exact Or.inr ⟨c, List.mem_cons_self _ _, h⟩
      · exact Or.inr ⟨x, List.mem_cons_of_mem _ hx, hd⟩
    · rintro (h | ⟨x, hx, hd⟩)
      · exact Or.inl (Or.inl h)
      · rcases List.mem_cons.mp hx with rfl | hx
        · exact Or.inl (Or.inr hd)
        · exact Or.inr ⟨x, hx, hd⟩

/-- With depth to spare, the recursive `GetChildResults` on an item visits the item and
everything below it, and emits one value for every item without rows that it visits for
the first time. -/
theorem GetChildResultsRec_spec (m : GlobalSearchModel) (dflt : Result)
    (hwf : ItemsWF m.items) :
    ∀ (depth item : Nat) (acc : List Result × List Nat) (ids : List Nat),
      item < m.items.length → m.items.length - item ≤ depth →
      Collected m dflt acc ids → ClosedFrom m.items acc.2 item →
      ∃ ids', Collected m dflt (GetChildResultsRec m dflt depth item acc) ids' ∧
        ∀ j, j ∈ (GetChildResultsRec m dflt depth item acc).2 ↔
          j ∈ acc.2 ∨ Desc m.items item j := by
  intro depth
  induction depth with
  | zero =>
    intro item acc ids hlt hdepth _ _
    omega
  | succ depth ih =>
    intro item acc ids hlt hdepth hcol hclosed
    have hit : m.items[item]? = some m.items[item] := List.getElem?_eq_getElem hlt
    by_cases hvis : item ∈ acc.2
    · have hrec : GetChildResultsRec m dflt (depth + 1) item acc = acc := by
        rw [GetChildResultsRec, if_pos hvis]
      rw [hrec]
      refine ⟨ids, hcol, fun j => ⟨Or.inl, ?_⟩⟩
      rintro (h | h)
      · exact h
      · exact hclosed item hvis (Nat.le_refl _) j h
    · by_cases hrows : m.items[item].rows = []
      · have hrec : GetChildResultsRec m dflt (depth + 1) item acc =
            (acc.1 ++ [resultValue dflt m.items[item]], item :: acc.2) := by
          rw [GetChildResultsRec, if_neg hvis]
          simp only [hit, hrows, ne_eq, not_true_eq_false, if_false]
        rw [hrec]
        have hnotin : item ∉ ids := fun h => hvis ((hcol.mem item).mp h).1
        refine ⟨ids ++ [item], ⟨?_, ?_, ?_⟩, ?_⟩
        · simp [hcol.results_eq, valueAt, hit]
        · exact List.Nodup.append hcol.nodup (List.nodup_singleton _)
            (by intro a ha ha2; rw [List.mem_singleton] at ha2; subst ha2; exact hnotin ha)
        · intro i
          simp only [List.mem_append, List.mem_cons, List.not_mem_nil, or_false]
          constructor
          · rintro (h | rfl)
            · exact ⟨Or.inr ((hcol.mem i).mp h).1, ((hcol.mem i).mp h).2⟩
            · exact ⟨Or.inl rfl, _, hit, hrows⟩
          · rintro ⟨rfl | h, hch⟩
            · exact Or.inr rfl
            · exact Or.inl ((hcol.mem i).mpr ⟨h, hch⟩)
        · intro j
          simp only [List.mem_cons]
          constructor
          · rintro (rfl | h)
            · exact Or.inr (Desc.refl _)
            · exact Or.inl h
          · rintro (h | h)
            · exact Or.inr h
            · exact Or.inl (Desc.eq_of_childless hit hrows h)
      · have hrec : GetChildResultsRec m dflt (depth + 1) item acc =
            m.items[item].rows.foldl (fun a child => GetChildResultsRec m dflt depth child a)
              (acc.1, item :: acc.2) := by
          rw [GetChildResultsRec, if_neg hvis]
          simp only [hit, hrows, ne_eq, not_false_eq_true, if_true]
        rw [hrec]
        have hcol0 : Collected m dflt (acc.1, item :: acc.2) ids := by
          refine ⟨hcol.results_eq, hcol.nodup, ?_⟩
          intro i
          simp only [List.mem_cons]
          constructor
          · intro h
            exact ⟨Or.inr ((hcol.mem i).mp h).1, ((hcol.mem i).mp h).2⟩
          · rintro ⟨rfl | h, hch⟩
            · obtain ⟨it, hi, hr⟩ := hch
              rw [hit] at hi
              cases hi
              exact absurd hr hrows
            · exact (hcol.mem i).mpr ⟨h, hch⟩
        have hclosed0 : ClosedFrom m.items (item :: acc.2) (item + 1) := by
          intro v hv hle j hd
          rcases List.mem_cons.mp hv with rfl | hv
          · omega
          · exact List.mem_cons_of_mem _ (hclosed v hv (by omega) j hd)
        have hchildren : ∀ c ∈ m.items[item].rows, c < m.items.length ∧ item + 1 ≤ c := by
          intro c hc
          obtain ⟨cit, hcit, hcp⟩ := hwf.rows_valid item _ hit c hc
          exact ⟨(List.getElem?_eq_some_iff.mp hcit).1,
            (hwf.parent_valid c cit item hcit hcp).1⟩
        obtain ⟨ids', hcol', hvis', _⟩ := foldl_collected m dflt
          (fun a child => GetChildResultsRec m dflt depth child a) (item + 1)
          (fun c a ids0 hc hle hcola hcla => ih c a ids0 hc (by omega) hcola hcla)
          m.items[item].rows (acc.1, item :: acc.2) ids hchildren hcol0 hclosed0
        refine ⟨ids', hcol', ?_⟩
        intro j
        rw [hvis' j, Desc.iff_rows hit j]
        simp only [List.mem_cons, ReachedFrom]
        constructor
        · rintro ((rfl | h) | h)
          · exact Or.inr (Or.inl rfl)
          · exact Or.inl h
          · exact Or.inr (Or.inr h)
        · rintro (h | rfl | h)
          · exact Or.inl (Or.inr h)
          · exact Or.inl (Or.inl rfl)
          · exact Or.inr h

/-- `GetChildResults` on pointers into a well-formed store returns the values of distinct
items: the items without rows reached from the given nodes. -/
theorem GetChildResults_spec (m : GlobalSearchModel) (dflt : Result)
    (hwf : ItemsWF m.items) (nodes : List Nat) (hnodes : ∀ n ∈ nodes, n < m.items.length) :
    ∃ leaves : List Nat, leaves.Nodup ∧
      (∀ i, i ∈ leaves ↔ Childless m.items i ∧ ReachedFrom m.items nodes i) ∧
      GetChildResults m dflt nodes = leaves.map (valueAt m dflt) := by
  obtain ⟨ids, hcol, hvis, _⟩ := foldl_collected m dflt
    (fun a item => GetChildResultsRec m dflt (m.items.length + 1) item a) 0
    (fun c a ids0 hc _ hcola hcla =>
      GetChildResultsRec_spec m dflt hwf (m.items.length + 1) c a ids0 hc (by omega) hcola hcla)
    nodes ([], []) [] (fun c hc => ⟨hnodes c hc, Nat.zero_le _⟩)
    ⟨rfl, List.nodup_nil, by simp⟩ (by intro v hv; cases hv)
  refine ⟨ids, hcol.nodup, ?_, hcol.results_eq⟩
  intro i
  rw [hcol.mem i, hvis i]
  simp [and_comm]

/-! ## The claims -/

/-- C1. After a `Clear` and any calls with non-empty batches, the model is returned, its
leaves are exactly the results inserted since the last `Clear` (one leaf item each, in
insertion order), the leaf rows of every item are the results whose `leafParent` it is, and
every grouped result of every batch has one shared chain (`SharedChain`): one cache binding
per active level, and under the container of its full key, as distinct rows, the leaves of
exactly the grouped results with the same rank and full key. -/
theorem AddResults_shared_chain (env : Env) (m0 : GlobalSearchModel) (ops : List Op)
    (hne : ∀ results, Op.addResults results ∈ ops → results ≠ []) :
    ∃ m, run env (Op.clear :: ops) m0 = some m ∧
      m.items.filterMap leafData = resultsSinceClear env ops ∧
      (∀ p : Nat, rowLeaves m.items p = (resultsSinceClear env ops).filter
        (fun x => decide (leafParent env m.containers_ x = p))) ∧
      ∀ b ∈ batchesSinceClear ops [], ∀ r ∈ b, r.group_automatically_ = true →
        env.group_by_0 ≠ GroupBy_None →
        SharedChain env m (resultsSinceClear env ops)
          (rankOf env (providersSeen ops) (batchProvider b)) r := by
  obtain ⟨m, hm, hinv⟩ := run_clear_inv env m0 ops hne
  refine ⟨m, hm, hinv.filed.leaves, hinv.filed.rows, ?_⟩
  intro b hb r hr hauto hact
  exact hinv.filed.sharedChain hact (mem_ranked env _ hb hr) hauto

/-- The scenario of C1: the batch Radiohead/A, Radiohead/B, Muse/C of provider 1 under the
levels `[Artist, None, None]` gives `scenarioModel`: one divider, a "Radiohead" container
with two leaves and a "Muse" container with one leaf. -/
theorem AddResults_shared_chain_witness :
    (∀ results, Op.addResults results ∈ [Op.addResults exampleBatch] → results ≠ []) ∧
    run exampleEnv [Op.clear, Op.addResults exampleBatch] exampleModel = some scenarioModel ∧
    ∃ m, run exampleEnv (Op.clear :: [Op.addResults exampleBatch]) exampleModel = some m ∧
      m.items.filterMap leafData = resultsSinceClear exampleEnv [Op.addResults exampleBatch] ∧
      (∀ p : Nat, rowLeaves m.items p =
        (resultsSinceClear exampleEnv [Op.addResults exampleBatch]).filter
          (fun x => decide (leafParent exampleEnv m.containers_ x = p))) ∧
      ∀ b ∈ batchesSinceClear [Op.addResults exampleBatch] [], ∀ r ∈ b,
        r.group_automatically_ = true → exampleEnv.group_by_0 ≠ GroupBy_None →
        SharedChain exampleEnv m (resultsSinceClear exampleEnv [Op.addResults exampleBatch])
          (rankOf exampleEnv (providersSeen [Op.addResults exampleBatch]) (batchProvider b))
          r :=
  ⟨by intro results h; simp at h; subst h; simp [exampleBatch],
   by decide,
   AddResults_shared_chain exampleEnv exampleModel [Op.addResults exampleBatch]
     (by intro results h; simp at h; subst h; simp [exampleBatch])⟩

theorem length_filterMap_dividerData (items : List QStandardItem) :
    (items.filterMap dividerData).length =
      items.countP (fun it => decide (it.Role_IsDivider = some true)) := by
  induction items with
  | nil => rfl
  | cons it rest ih =>
    rw [List.filterMap_cons, List.countP_cons]
    by_cases h : it.Role_IsDivider = some true
    · simp [dividerData, h, ih]
    · have hd : dividerData it = none := by
        unfold dividerData
        split
        · next h2 => exact absurd h2 h
        · rfl
      simp [hd, h, ih]

theorem length_firstSeen (l : List SearchProvider) :
    (firstSeen l).length = l.toFinset.card := by
  rw [← List.toFinset_card_of_nodup (nodup_firstSeen l)]
  congr 1
  ext p
  simp [mem_firstSeen]

/-- C2. After a `Clear` and any calls with non-empty batches (further `Clear` calls
included), the model is returned, the number of divider items equals the number of distinct
batch providers since the last `Clear`, the dividers are one per such provider in
first-seen order, and every item of the store is in the tree. -/
theorem divider_count_eq_providers (env : Env) (m0 : GlobalSearchModel) (ops : List Op)
    (hne : ∀ results, Op.addResults results ∈ ops → results ≠ []) :
    ∃ m, run env (Op.clear :: ops) m0 = some m ∧
      m.items.countP (fun it => decide (it.Role_IsDivider = some true)) =
        ((batchesSinceClear ops []).map batchProvider).toFinset.card ∧
      m.items.filterMap dividerData =
        (providersSeen ops).map (fun p =>
          (Icon.provider_icon p, env.provider_name p, rankOf env (providersSeen ops) p)) ∧
      ∀ i, i < m.items.length → InTree m.items i := by
  obtain ⟨m, hm, hinv⟩ := run_clear_inv env m0 ops hne
  refine ⟨m, hm, ?_, hinv.registry.dividers, hinv.filed.wf.items.inTree⟩
  rw [← length_filterMap_dividerData, hinv.registry.dividers, List.length_map,
    length_firstSeen]

/-- Two providers in three batches with a `Clear` in between: after the last `Clear` only
provider 2 has supplied batches, and there is one divider. -/
theorem divider_count_eq_providers_witness :
    (∀ results, Op.addResults results ∈
        [Op.addResults (singleBatch 1), Op.clear, Op.addResults (singleBatch 2),
          Op.addResults (singleBatch 2)] → results ≠ []) ∧
    ∃ m, run exampleEnv (Op.clear ::
        [Op.addResults (singleBatch 1), Op.clear, Op.addResults (singleBatch 2),
          Op.addResults (singleBatch 2)]) exampleModel = some m ∧
      m.items.countP (fun it => decide (it.Role_IsDivider = some true)) =
        ((batchesSinceClear [Op.addResults (singleBatch 1), Op.clear,
          Op.addResults (singleBatch 2), Op.addResults (singleBatch 2)] []).map
            batchProvider).toFinset.card ∧
      m.items.filterMap dividerData =
        (providersSeen [Op.addResults (singleBatch 1), Op.clear,
          Op.addResults (singleBatch 2), Op.addResults (singleBatch 2)]).map (fun p =>
          (Icon.provider_icon p, exampleEnv.provider_name p,
            rankOf exampleEnv (providersSeen [Op.addResults (singleBatch 1), Op.clear,
              Op.addResults (singleBatch 2), Op.addResults (singleBatch 2)]) p)) ∧
      ∀ i, i < m.items.length → InTree m.items i :=
  ⟨by intro results h; simp at h; rcases h with h | h <;> subst h <;> simp [singleBatch],
   divider_count_eq_providers exampleEnv exampleModel _
     (by intro results h; simp at h; rcases h with h | h <;> subst h <;> simp [singleBatch])⟩

/-- C6. After a `Clear` and any calls with non-empty batches, every provider that has
supplied a batch since the last `Clear` is bound in `provider_sort_indices_` to the rank
the claim describes (`specRank` with the providers first seen before it), no other provider
is bound, the counter is 1000 plus the number of providers seen outside the preference
order, and every leaf of every batch carries the rank of the provider of its batch, so all
batches of a provider use one rank. -/
theorem provider_rank_assignment (env : Env) (m0 : GlobalSearchModel) (ops : List Op)
    (hne : ∀ results, Op.addResults results ∈ ops → results ≠ []) :
    ∃ m, run env (Op.clear :: ops) m0 = some m ∧
      (∀ p ∈ providersSeen ops, lookupKey p m.provider_sort_indices_ =
        some (specRank env ((providersSeen ops).takeWhile (fun q => decide (q ≠ p))) p)) ∧
      (∀ p, p ∉ providersSeen ops → lookupKey p m.provider_sort_indices_ = none) ∧
      m.next_provider_sort_index_ = 1000 + (((providersSeen ops).filter
        (fun q => decide (env.provider_id q ∉ env.provider_order_))).length : Nat) ∧
      m.items.filterMap leafData =
        (batchesSinceClear ops []).flatMap (fun b => b.map (fun r =>
          (specRank env ((providersSeen ops).takeWhile
            (fun q => decide (q ≠ batchProvider b))) (batchProvider b), r))) := by
  obtain ⟨m, hm, hinv⟩ := run_clear_inv env m0 ops hne
  refine ⟨m, hm, ?_, ?_, hinv.registry.next, hinv.filed.leaves⟩
  · intro p hp
    have := hinv.registry.ranks p
    rw [if_pos (show p ∈ firstSeen _ from hp)] at this
    exact this
  · intro p hp
    have := hinv.registry.ranks p
    rw [if_neg (show p ∉ firstSeen _ from hp)] at this
    exact this

/-- The scenario of C6: with preference order `[P2, P1]`, P1 arriving before P2, P1 gets
rank 1 and P2 rank 0; a third provider outside the order gets 1000. -/
theorem provider_rank_assignment_witness :
    (∀ results, Op.addResults results ∈
        [Op.addResults (singleBatch 1), Op.addResults (singleBatch 2),
          Op.addResults (singleBatch 3)] → results ≠ []) ∧
    (run preferenceEnv [Op.clear, Op.addResults (singleBatch 1),
        Op.addResults (singleBatch 2), Op.addResults (singleBatch 3)] exampleModel).map
      (fun m => m.provider_sort_indices_) = some [(3, 1000), (2, 0), (1, 1)] ∧
    ∃ m, run preferenceEnv (Op.clear :: [Op.addResults (singleBatch 1),
        Op.addResults (singleBatch 2), Op.addResults (singleBatch 3)]) exampleModel = some m ∧
      (∀ p ∈ providersSeen [Op.addResults (singleBatch 1), Op.addResults (singleBatch 2),
          Op.addResults (singleBatch 3)], lookupKey p m.provider_sort_indices_ =
        some (specRank preferenceEnv ((providersSeen [Op.addResults (singleBatch 1),
          Op.addResults (singleBatch 2), Op.addResults (singleBatch 3)]).takeWhile
            (fun q => decide (q ≠ p))) p)) ∧
      (∀ p, p ∉ providersSeen [Op.addResults (singleBatch 1), Op.addResults (singleBatch 2),
          Op.addResults (singleBatch 3)] → lookupKey p m.provider_sort_indices_ = none) ∧
      m.next_provider_sort_index_ = 1000 + (((providersSeen [Op.addResults (singleBatch 1),
          Op.addResults (singleBatch 2), Op.addResults (singleBatch 3)]).filter
        (fun q => decide (preferenceEnv.provider_id q ∉ preferenceEnv.provider_order_))).length
          : Nat) ∧
      m.items.filterMap leafData =
        (batchesSinceClear [Op.addResults (singleBatch 1), Op.addResults (singleBatch 2),
          Op.addResults (singleBatch 3)] []).flatMap (fun b => b.map (fun r =>
          (specRank preferenceEnv ((providersSeen [Op.addResults (singleBatch 1),
            Op.addResults (singleBatch 2), Op.addResults (singleBatch 3)]).takeWhile
            (fun q => decide (q ≠ batchProvider b))) (batchProvider b), r))) :=
  ⟨by intro results h; simp at h; rcases h with h | h | h <;> subst h <;> simp [singleBatch],
   by decide,
   provider_rank_assignment preferenceEnv exampleModel _
     (by intro results h; simp at h; rcases h with h | h | h <;> subst h <;>
        simp [singleBatch])⟩

theorem run_append (env : Env) (a b : List Op) (m : GlobalSearchModel) :
    run env (a ++ b) m = (run env a m).bind (run env b) := by
  induction a generalizing m with
  | nil => simp [run]
  | cons op rest ih =>
    simp only [List.cons_append, run]
    cases step env m op with
    | none => rfl
    | some m1 => simpa using ih m1

/-- C10. `Clear` returns one fixed model whatever the model before: both maps empty, the
counter 1000 and a store with only the root, which has no rows and no data.  So any calls
after a `Clear` yield the same whatever history came before the `Clear`. -/
theorem Clear_resets (env : Env) :
    (∀ m, Clear m =
      { items := [{}], provider_sort_indices_ := [], containers_ := [],
        next_provider_sort_index_ := 1000 }) ∧
    (∀ m m', Clear m = Clear m') ∧
    (∀ (S : List Op) (m m' : GlobalSearchModel),
      run env (Op.clear :: S) m = run env (Op.clear :: S) m') ∧
    (∀ (H S : List Op) (m m' : GlobalSearchModel),
      run env (H ++ Op.clear :: S) m =
        (run env H m).bind (fun _ => run env (Op.clear :: S) m')) := by
  refine ⟨fun _ => rfl, fun _ _ => rfl, fun _ _ _ => rfl, ?_⟩
  intro H S m m'
  rw [run_append]
  cases run env H m with
  | none => rfl
  | some mH => rfl

theorem chainKeyFrom_congr (env : Env) {s s' : Song}
    (h : ∀ mode, (levelTexts env s mode).map (fun t => t.display_text) =
      (levelTexts env s' mode).map (fun t => t.display_text)) :
    ∀ (n : Nat) (key : ContainerKey) (level : Nat),
      chainKeyFrom env s n key level = chainKeyFrom env s' n key level := by
  intro n
  induction n with
  | zero => intro key level; rfl
  | succ n ih =>
    intro key level
    have hl := h (env.group_by_ level)
    cases h1 : levelTexts env s (env.group_by_ level) with
    | none =>
      cases h2 : levelTexts env s' (env.group_by_ level) with
      | none => simp [chainKeyFrom, h1, h2]
      | some t' => simp [h1, h2] at hl
    | some t =>
      cases h2 : levelTexts env s' (env.group_by_ level) with
      | none => simp [h1, h2] at hl
      | some t' =>
        have : t.display_text = t'.display_text := by simpa [h1, h2] using hl
        simp only [chainKeyFrom, h1, h2, this]
        exact ih _ _

theorem BuildContainersFrom_congr (env : Env) {s s' : Song}
    (h : ∀ mode, levelTexts env s mode = levelTexts env s' mode) :
    ∀ (n : Nat) (m : GlobalSearchModel) (parent : Nat) (key : ContainerKey) (level : Nat),
      BuildContainersFrom env s n m parent key level =
        BuildContainersFrom env s' n m parent key level := by
  intro n
  induction n with
  | zero => intro m parent key level; rfl
  | succ n ih =>
    intro m parent key level
    simp only [BuildContainersFrom, h]
    cases levelTexts env s' (env.group_by_ level) with
    | none => rfl
    | some t =>
      simp only
      cases lookupKey (key.setGroup level t.display_text) m.containers_ with
      | none => exact ih _ _ _ _
      | some container => exact ih _ _ _ _

theorem batchesSinceClear_append_add (ops : List Op) (results : List Result) :
    ∀ earlier, batchesSinceClear (ops ++ [Op.addResults results]) earlier =
      batchesSinceClear ops earlier ++ [results] := by
  induction ops with
  | nil => intro earlier; simp [batchesSinceClear]
  | cons op rest ih =>
    intro earlier
    cases op with
    | clear => simpa [batchesSinceClear] using ih []
    | addResults b => simpa [batchesSinceClear] using ih (earlier ++ [b])

/-- Two results of one batch with the same flag and the same full key are leaf rows of the
same item. -/
theorem Inv.filedTogether {env : Env} {m : GlobalSearchModel} {batches : List (List Result)}
    (h : Inv env m batches) {b : List Result} (hb : b ∈ batches) {r1 r2 : Result}
    (h1 : r1 ∈ b) (h2 : r2 ∈ b) (hflag : r1.group_automatically_ = r2.group_automatically_)
    (hkey : ∀ rank, fullKey env rank r1.metadata_ = fullKey env rank r2.metadata_) :
    (rankOf env (firstSeen (batches.map batchProvider)) (batchProvider b), r1) ∈
        rowLeaves m.items (leafParent env m.containers_
          (rankOf env (firstSeen (batches.map batchProvider)) (batchProvider b), r1)) ∧
      (rankOf env (firstSeen (batches.map batchProvider)) (batchProvider b), r2) ∈
        rowLeaves m.items (leafParent env m.containers_
          (rankOf env (firstSeen (batches.map batchProvider)) (batchProvider b), r1)) := by
  rw [h.filed.rows]
  refine ⟨List.mem_filter.mpr ⟨mem_ranked env _ hb h1, by simp⟩,
    List.mem_filter.mpr ⟨mem_ranked env _ hb h2, ?_⟩⟩
  simp [leafParent, hflag, hkey]

theorem run_pair_filedTogether (env : Env) (m0 : GlobalSearchModel) (ops : List Op)
    (hne : ∀ results, Op.addResults results ∈ ops → results ≠ []) (r1 r2 : Result)
    (hflag : r1.group_automatically_ = r2.group_automatically_)
    (hkey : ∀ rank, fullKey env rank r1.metadata_ = fullKey env rank r2.metadata_) :
    ∃ m, run env (Op.clear :: (ops ++ [Op.addResults [r1, r2]])) m0 = some m ∧
      ∃ c rank, (rank, r1) ∈ rowLeaves m.items c ∧ (rank, r2) ∈ rowLeaves m.items c ∧
        (r1.group_automatically_ = true → env.group_by_0 ≠ GroupBy_None →
          lookupKey (fullKey env rank r1.metadata_) m.containers_ = some c) := by
  have hne2 : ∀ results, Op.addResults results ∈ ops ++ [Op.addResults [r1, r2]] →
      results ≠ [] := by
    intro results hr
    rcases List.mem_append.mp hr with hr | hr
    · exact hne results hr
    · simp at hr; subst hr; simp
  obtain ⟨m, hm, hinv⟩ := run_clear_inv env m0 _ hne2
  rw [batchesSinceClear_append_add] at hinv
  have hbmem : [r1, r2] ∈ batchesSinceClear ops [] ++ [[r1, r2]] := by simp
  have hr1 : r1 ∈ [r1, r2] := by simp
  have hr2 : r2 ∈ [r1, r2] := by simp
  obtain ⟨ha, hb⟩ := hinv.filedTogether hbmem hr1 hr2 hflag hkey
  refine ⟨m, hm, _, _, ha, hb, ?_⟩
  intro hauto hact
  have hx := mem_ranked env (firstSeen ((batchesSinceClear ops [] ++ [[r1, r2]]).map
    batchProvider)) hbmem hr1
  obtain ⟨v, hv⟩ := Option.isSome_iff_exists.mp
    (hinv.filed.cached _ hx hauto hact 2 (Nat.le_refl 2))
  have hv2 : lookupKey (fullKey env (rankOf env (firstSeen ((batchesSinceClear ops [] ++
      [[r1, r2]]).map batchProvider)) (batchProvider [r1, r2])) r1.metadata_)
      m.containers_ = some v := hv
  rw [hv2]
  simp only [leafParent, hauto, hact, ne_eq, not_false_eq_true, and_self, if_true]
  rw [hv2]
  rfl

/-- C7. A song with a negative year is grouped as the same song with year 0: at every level
mode (Year and YearAlbum among them) the switch computes the same display and sort text,
the keys written are the same, `BuildContainers` returns the same model and item, and two
such results inserted in one batch after any calls end up as leaf rows of one item. -/
theorem negative_year_groups_as_zero (env : Env) (s : Song) (y : Int) (hy : y < 0)
    (provider : SearchProvider) (m0 : GlobalSearchModel) (ops : List Op)
    (hne : ∀ results, Op.addResults results ∈ ops → results ≠ []) :
    (∀ mode, levelTexts env { s with year := y } mode =
      levelTexts env { s with year := 0 } mode) ∧
    (∀ n key level, chainKeyFrom env { s with year := y } n key level =
      chainKeyFrom env { s with year := 0 } n key level) ∧
    (∀ m parent key level, BuildContainers env { s with year := y } m parent key level =
      BuildContainers env { s with year := 0 } m parent key level) ∧
    ∃ m, run env (Op.clear :: (ops ++ [Op.addResults
        [⟨provider, { s with year := y }, true⟩, ⟨provider, { s with year := 0 }, true⟩]]))
        m0 = some m ∧
      FiledTogether m ⟨provider, { s with year := y }, true⟩
        ⟨provider, { s with year := 0 }, true⟩ := by
  have hmax : max 0 y = 0 := max_eq_left (le_of_lt hy)
  have htexts : ∀ mode, levelTexts env { s with year := y } mode =
      levelTexts env { s with year := 0 } mode := by
    intro mode
    cases mode <;> simp [levelTexts, caseGenre, caseAlbum, caseAlbumArtist, hmax]
  have hkeys : ∀ n key level, chainKeyFrom env { s with year := y } n key level =
      chainKeyFrom env { s with year := 0 } n key level :=
    chainKeyFrom_congr env (fun mode => by rw [htexts mode])
  refine ⟨htexts, hkeys, ?_, ?_⟩
  · intro m parent key level
    exact BuildContainersFrom_congr env htexts _ m parent key level
  · obtain ⟨m, hm, c, rank, h1, h2, _⟩ := run_pair_filedTogether env m0 ops hne
      ⟨provider, { s with year := y }, true⟩ ⟨provider, { s with year := 0 }, true⟩ rfl
      (fun rank => hkeys 3 _ 0)
    exact ⟨m, hm, c, rank, h1, h2⟩

/-- Year -5 and year 0 under the levels `[Year, None, None]`. -/
theorem negative_year_groups_as_zero_witness :
    ((-5 : Int) < 0) ∧
    (∀ results, Op.addResults results ∈ ([] : List Op) → results ≠ []) ∧
    (∀ mode, levelTexts yearEnv { exampleSong "Radiohead" "A" with year := -5 } mode =
      levelTexts yearEnv { exampleSong "Radiohead" "A" with year := 0 } mode) ∧
    (∀ n key level,
      chainKeyFrom yearEnv { exampleSong "Radiohead" "A" with year := -5 } n key level =
      chainKeyFrom yearEnv { exampleSong "Radiohead" "A" with year := 0 } n key level) ∧
    (∀ m parent key level,
      BuildContainers yearEnv { exampleSong "Radiohead" "A" with year := -5 } m parent key
        level =
      BuildContainers yearEnv { exampleSong "Radiohead" "A" with year := 0 } m parent key
        level) ∧
    ∃ m, run yearEnv (Op.clear :: ([] ++ [Op.addResults
        [⟨1, { exampleSong "Radiohead" "A" with year := -5 }, true⟩,
          ⟨1, { exampleSong "Radiohead" "A" with year := 0 }, true⟩]]))
        exampleModel = some m ∧
      FiledTogether m ⟨1, { exampleSong "Radiohead" "A" with year := -5 }, true⟩
        ⟨1, { exampleSong "Radiohead" "A" with year := 0 }, true⟩ :=
  ⟨by decide, by intro results h; simp at h,
   negative_year_groups_as_zero yearEnv (exampleSong "Radiohead" "A") (-5) (by decide) 1
     exampleModel [] (by intro results h; simp at h)⟩

theorem setGroup_group_0 (key : ContainerKey) (level : Nat) (t : QString)
    (h : 0 < level) : (key.setGroup level t).group_0 = key.group_0 := by
  cases level with
  | zero => omega
  | succ l =>
    cases l with
    | zero => rfl
    | succ l => rfl

theorem chainKeyFrom_group_0 (env : Env) (s : Song) :
    ∀ (n : Nat) (key : ContainerKey) (level : Nat), 0 < level →
      (chainKeyFrom env s n key level).group_0 = key.group_0 := by
  intro n
  induction n with
  | zero => intro key level _; rfl
  | succ n ih =>
    intro key level hl
    cases ht : levelTexts env s (env.group_by_ level) with
    | none => simp [chainKeyFrom, ht]
    | some t =>
      simp only [chainKeyFrom, ht]
      rw [ih _ _ (Nat.succ_pos _), setGroup_group_0 _ _ _ hl]

theorem TextOrUnknown_chars_ne (t : QString) : (TextOrUnknown t).chars ≠ "" := by
  by_cases h : t.isEmpty = true
  · simp [TextOrUnknown, h, QString.chars]
  · have h2 : t.isEmpty = false := by simpa using h
    rw [TextOrUnknown, h2]
    intro hc
    simp [QString.isEmpty] at h2
    exact h2 (by simpa using hc)

theorem chainKeyFrom_provider_index (env : Env) (s : Song) :
    ∀ (n : Nat) (key : ContainerKey) (level : Nat),
      (chainKeyFrom env s n key level).provider_index_ = key.provider_index_ := by
  intro n
  induction n with
  | zero => intro key level; rfl
  | succ n ih =>
    intro key level
    cases ht : levelTexts env s (env.group_by_ level) with
    | none => simp [chainKeyFrom, ht]
    | some t =>
      simp only [chainKeyFrom, ht]
      rw [ih]
      cases level with
      | zero => rfl
      | succ l =>
        cases l with
        | zero => rfl
        | succ l => rfl

theorem chainKeyFrom_succ_of_some (env : Env) (s : Song) (n : Nat) (key : ContainerKey)
    (level : Nat) {t : LevelTexts} (h : levelTexts env s (env.group_by_ level) = some t) :
    chainKeyFrom env s (n + 1) key level =
      chainKeyFrom env s n (key.setGroup level t.display_text) (level + 1) := by
  rw [chainKeyFrom]
  simp only [h]

theorem fullKey_group_0_artist (env : Env) (rank : Int) (s : Song)
    (h : env.group_by_0 = GroupBy_Artist) :
    (fullKey env rank s).group_0 = (TextOrUnknown s.artist).chars := by
  have hlev : levelTexts env s (env.group_by_ 0) =
      some { display_text := TextOrUnknown s.artist
             sort_text := env.SortTextForArtist s.artist
             has_artist_icon := true
             has_album_icon := false } := by
    show levelTexts env s env.group_by_0 = _
    rw [h]
    rfl
  show (chainKeyFrom env s (2 + 1) (ContainerKey.ofRank rank) 0).group_0 = _
  rw [chainKeyFrom_succ_of_some env s 2 _ 0 hlev,
    chainKeyFrom_group_0 env s 2 _ 1 (by omega)]
  rfl

/-- C8. With `TextOrUnknown` as the spec describes it: under `GroupBy_Artist` an empty and
a null artist both give the display text "Unknown" and the same keys at every level, for
no song is the display text of an artist level empty, and two such results inserted in one
batch after any calls end up as leaf rows of one item, which is the container cached under
a key whose first value is "Unknown" when the first level is `GroupBy_Artist`. -/
theorem empty_artist_groups_as_unknown (env : Env) (s : Song) (provider : SearchProvider)
    (m0 : GlobalSearchModel) (ops : List Op)
    (hne : ∀ results, Op.addResults results ∈ ops → results ≠ []) :
    (levelTexts env { s with artist := .str "" } GroupBy_Artist).map
        (fun t => t.display_text) = some (.str "Unknown") ∧
    (levelTexts env { s with artist := .null } GroupBy_Artist).map
        (fun t => t.display_text) = some (.str "Unknown") ∧
    (∀ n key level, chainKeyFrom env { s with artist := .str "" } n key level =
      chainKeyFrom env { s with artist := .null } n key level) ∧
    (∀ (s' : Song) (t : LevelTexts), levelTexts env s' GroupBy_Artist = some t →
      t.display_text.chars ≠ "") ∧
    ∃ m, run env (Op.clear :: (ops ++ [Op.addResults
        [⟨provider, { s with artist := .str "" }, true⟩,
          ⟨provider, { s with artist := .null }, true⟩]])) m0 = some m ∧
      ∃ c rank,
        (rank, (⟨provider, { s with artist := .str "" }, true⟩ : Result)) ∈
          rowLeaves m.items c ∧
        (rank, (⟨provider, { s with artist := .null }, true⟩ : Result)) ∈
          rowLeaves m.items c ∧
        (env.group_by_0 = GroupBy_Artist →
          ∃ key, key.group_0 = "Unknown" ∧ key.provider_index_ = rank ∧
            lookupKey key m.containers_ = some c) := by
  have htexts : ∀ mode,
      (levelTexts env { s with artist := .str "" } mode).map (fun t => t.display_text) =
      (levelTexts env { s with artist := .null } mode).map (fun t => t.display_text) := by
    intro mode
    cases mode <;> simp [levelTexts, caseGenre, caseAlbum, caseAlbumArtist, TextOrUnknown,
      QString.isEmpty, QString.chars]
  have hkeys := chainKeyFrom_congr env htexts
  refine ⟨by simp [levelTexts, TextOrUnknown, QString.isEmpty, QString.chars],
    by simp [levelTexts, TextOrUnknown, QString.isEmpty, QString.chars], hkeys, ?_, ?_⟩
  · intro s' t ht
    simp only [levelTexts, Option.some.injEq] at ht
    subst ht
    exact TextOrUnknown_chars_ne _
  · obtain ⟨m, hm, c, rank, h1, h2, h3⟩ := run_pair_filedTogether env m0 ops hne
      ⟨provider, { s with artist := .str "" }, true⟩
      ⟨provider, { s with artist := .null }, true⟩ rfl (fun rank => hkeys 3 _ 0)
    refine ⟨m, hm, c, rank, h1, h2, ?_⟩
    intro hart
    have hact : env.group_by_0 ≠ GroupBy_None := by rw [hart]; decide
    refine ⟨_, ?_, ?_, h3 rfl hact⟩
    · rw [fullKey_group_0_artist env rank _ hart]
      simp [TextOrUnknown, QString.isEmpty, QString.chars]
    · exact chainKeyFrom_provider_index env _ 3 _ 0

/-- An empty and a null artist under the levels `[Artist, None, None]`. -/
theorem empty_artist_groups_as_unknown_witness :
    (∀ results, Op.addResults results ∈ ([] : List Op) → results ≠ []) ∧
    (levelTexts exampleEnv { exampleSong "" "A" with artist := .str "" } GroupBy_Artist).map
        (fun t => t.display_text) = some (.str "Unknown") ∧
    (levelTexts exampleEnv { exampleSong "" "A" with artist := .null } GroupBy_Artist).map
        (fun t => t.display_text) = some (.str "Unknown") ∧
    (∀ n key level,
      chainKeyFrom exampleEnv { exampleSong "" "A" with artist := .str "" } n key level =
      chainKeyFrom exampleEnv { exampleSong "" "A" with artist := .null } n key level) ∧
    (∀ (s' : Song) (t : LevelTexts), levelTexts exampleEnv s' GroupBy_Artist = some t →
      t.display_text.chars ≠ "") ∧
    ∃ m, run exampleEnv (Op.clear :: ([] ++ [Op.addResults
        [⟨1, { exampleSong "" "A" with artist := .str "" }, true⟩,
          ⟨1, { exampleSong "" "A" with artist := .null }, true⟩]])) exampleModel = some m ∧
      ∃ c rank,
        (rank, (⟨1, { exampleSong "" "A" with artist := .str "" }, true⟩ : Result)) ∈
          rowLeaves m.items c ∧
        (rank, (⟨1, { exampleSong "" "A" with artist := .null }, true⟩ : Result)) ∈
          rowLeaves m.items c ∧
        (exampleEnv.group_by_0 = GroupBy_Artist →
          ∃ key, key.group_0 = "Unknown" ∧ key.provider_index_ = rank ∧
            lookupKey key m.containers_ = some c) :=
  ⟨by intro results h; simp at h,
   empty_artist_groups_as_unknown exampleEnv (exampleSong "" "A") 1 exampleModel []
     (by intro results h; simp at h)⟩

/-- C9, the claim as stated fails: for a song whose composer is the empty, not null, string
and whose genre is "Rock", the `GroupBy_Composer` display text is "Unknown", while the
first non-empty value of the chain is "Rock". -/
theorem field_chain_skips_only_null_counterexample :
    (levelTexts exampleEnv emptyComposerSong GroupBy_Composer).map
        (fun t => t.display_text) = some (.str "Unknown") ∧
    firstNonEmptyOrUnknown (priorityChain emptyComposerSong GroupBy_Composer) = .str "Rock" ∧
    ¬ ((levelTexts exampleEnv emptyComposerSong GroupBy_Composer).map
        (fun t => t.display_text) =
      some (firstNonEmptyOrUnknown (priorityChain emptyComposerSong GroupBy_Composer))) := by
  decide

/-- C9 as amended: for the modes Composer, Genre, Album and AlbumArtist the display text is
`TextOrUnknown` of the first value of the chain, from the field of the mode on, that is not
null: null fields are skipped, an empty field that is not null is taken and shown as
"Unknown". -/
theorem field_chain_first_non_null (env : Env) (s : Song) :
    (levelTexts env s GroupBy_Composer).map (fun t => t.display_text) =
      some (TextOrUnknown (firstNonNull (priorityChain s GroupBy_Composer))) ∧
    (levelTexts env s GroupBy_Genre).map (fun t => t.display_text) =
      some (TextOrUnknown (firstNonNull (priorityChain s GroupBy_Genre))) ∧
    (levelTexts env s GroupBy_Album).map (fun t => t.display_text) =
      some (TextOrUnknown (firstNonNull (priorityChain s GroupBy_Album))) ∧
    (levelTexts env s GroupBy_AlbumArtist).map (fun t => t.display_text) =
      some (TextOrUnknown (firstNonNull (priorityChain s GroupBy_AlbumArtist))) := by
  refine ⟨?_, ?_, ?_, ?_⟩ <;>
    cases hc : s.composer <;> cases hg : s.genre <;> cases ha : s.album <;>
    cases he : s.effective_albumartist <;>
    simp [levelTexts, caseGenre, caseAlbum, caseAlbumArtist, priorityChain, firstNonNull,
      QString.isNull, hc, hg, ha, he]

/-- C4, the code at the failing input: after `Clear` the root has no rows, so
`GetChildResults` on the root takes it for a song and returns one default-constructed
result, not the empty list. -/
theorem GetChildResults_root_after_Clear (m : GlobalSearchModel) (dflt : Result) :
    GetChildResults (Clear m) dflt [invisibleRootItem] = [dflt] := by
  rfl

/-- C3, the code at the failing input: after `Clear` and the batch of the scenario,
`GetChildResults` on the root returns four results, the first a default-constructed result
for the divider, which has no rows. -/
theorem GetChildResults_root_scenario :
    run exampleEnv [Op.clear, Op.addResults exampleBatch] exampleModel = some scenarioModel ∧
    GetChildResults scenarioModel exampleDefault [invisibleRootItem] =
      exampleDefault :: exampleBatch ∧
    (GetChildResults scenarioModel exampleDefault [invisibleRootItem]).length = 4 ∧
    exampleBatch.length = 3 := by
  decide

/-- Two lists of nodes that reach the same items give the same results up to order. -/
theorem GetChildResults_perm (m : GlobalSearchModel) (dflt : Result) (hwf : ItemsWF m.items)
    {nodes nodes' : List Nat} (h : ∀ n ∈ nodes, n < m.items.length)
    (h' : ∀ n ∈ nodes', n < m.items.length)
    (hreach : ∀ j, ReachedFrom m.items nodes j ↔ ReachedFrom m.items nodes' j) :
    (GetChildResults m dflt nodes).Perm (GetChildResults m dflt nodes') := by
  obtain ⟨l1, hnd1, hmem1, hres1⟩ := GetChildResults_spec m dflt hwf nodes h
  obtain ⟨l2, hnd2, hmem2, hres2⟩ := GetChildResults_spec m dflt hwf nodes' h'
  rw [hres1, hres2]
  apply List.Perm.map
  rw [List.perm_ext_iff_of_nodup hnd1 hnd2]
  intro i
  rw [hmem1, hmem2, hreach]

theorem Desc.lt_length {items : List QStandardItem} (hwf : ItemsWF items) {i j : Nat}
    (h : Desc items i j) (hi : i < items.length) : j < items.length := by
  induction h with
  | refl _ => exact hi
  | step i c j it hit hc _ ih =>
    obtain ⟨cit, hcit, _⟩ := hwf.rows_valid i it hit c hc
    exact ih (List.getElem?_eq_some_iff.mp hcit).1

/-- C5. In every model returned after a `Clear` and calls with non-empty batches,
`GetChildResults` counts no item twice (`CollectsOnce`): for every list of pointers into
the store, with repeated nodes or with a node and items below it in any order, it returns
one entry for each distinct item without rows reached from the list, the items that wrap a
result among them, and the same entries up to order as for the list with the duplicates
and the nested nodes removed. -/
theorem GetChildResults_no_double_count (env : Env) (m0 : GlobalSearchModel)
    (ops : List Op) (hne : ∀ results, Op.addResults results ∈ ops → results ≠ []) :
    ∃ m, run env (Op.clear :: ops) m0 = some m ∧ CollectsOnce m := by
  obtain ⟨m, hm, hinv⟩ := run_clear_inv env m0 ops hne
  have hwf := hinv.filed.wf.items
  refine ⟨m, hm, ?_, ?_⟩
  · intro i it hi hres
    exact ⟨it, hi, hinv.filed.wf.leaves_childless i it hi hres⟩
  · intro dflt nodes hnodes
    refine ⟨GetChildResults_spec m dflt hwf nodes hnodes,
      fun nodes' h' hreach => GetChildResults_perm m dflt hwf hnodes h' hreach, ?_, ?_⟩
    · apply GetChildResults_perm m dflt hwf hnodes
      · intro n hn
        exact hnodes n (List.mem_dedup.mp hn)
      · intro j
        simp [ReachedFrom]
    · intro c d hc hd
      have hdlt := hd.lt_length hwf hc
      have hc1 : ∀ n ∈ c :: nodes, n < m.items.length := by
        intro n hn
        rcases List.mem_cons.mp hn with rfl | hn
        · exact hc
        · exact hnodes n hn
      have hreach : ∀ l : List Nat, ∀ j,
          (ReachedFrom m.items l j ∨ Desc m.items d j) ∨ Desc m.items c j ↔
            ReachedFrom m.items l j ∨ Desc m.items c j := by
        intro l j
        constructor
        · rintro ((h | h) | h)
          · exact Or.inl h
          · exact Or.inr (desc_trans hd h)
          · exact Or.inr h
        · rintro (h | h)
          · exact Or.inl (Or.inl h)
          · exact Or.inr h
      constructor
      · apply GetChildResults_perm m dflt hwf _ hc1
        · intro j
          have := hreach nodes j
          simp only [ReachedFrom, List.mem_cons, exists_eq_or_imp] at this ⊢
          tauto
        · intro n hn
          rcases List.mem_cons.mp hn with rfl | hn
          · exact hc
          · rcases List.mem_cons.mp hn with rfl | hn
            · exact hdlt
            · exact hnodes n hn
      · apply GetChildResults_perm m dflt hwf _ hc1
        · intro j
          have := hreach nodes j
          simp only [ReachedFrom, List.mem_cons, exists_eq_or_imp] at this ⊢
          tauto
        · intro n hn
          rcases List.mem_cons.mp hn with rfl | hn
          · exact hdlt
          · rcases List.mem_cons.mp hn with rfl | hn
            · exact hc
            · exact hnodes n hn

/-- In the model of the scenario the container 2 given together with its leaf 3, twice,
yields the two results under the container once each. -/
theorem GetChildResults_no_double_count_witness :
    (∀ results, Op.addResults results ∈ [Op.addResults exampleBatch] → results ≠ []) ∧
    GetChildResults scenarioModel exampleDefault [3, 2, 3, 2] = exampleBatch.take 2 ∧
    GetChildResults scenarioModel exampleDefault [2] = exampleBatch.take 2 ∧
    ∃ m, run exampleEnv (Op.clear :: [Op.addResults exampleBatch]) exampleModel = some m ∧
      CollectsOnce m :=
  ⟨by intro results h; simp at h; subst h; simp [exampleBatch],
   by decide, by decide,
   GetChildResults_no_double_count exampleEnv exampleModel [Op.addResults exampleBatch]
     (by intro results h; simp at h; subst h; simp [exampleBatch])⟩

/-! ## Empty batches and null items -/

/-- C12, the claim as stated fails: `AddResults` on an empty batch returns no model at all,
so not the unchanged model either. -/
theorem AddResults_empty_batch_counterexample :
    AddResults exampleEnv scenarioModel [] = none ∧
    ¬ (AddResults exampleEnv scenarioModel [] = some scenarioModel) ∧
    ¬ ∃ m', AddResults exampleEnv scenarioModel [] = some m' := by
  refine ⟨rfl, ?_, ?_⟩
  · intro h; cases h
  · rintro ⟨m', h⟩; cases h

/-- C12 as amended: `AddResults` has no handling of an empty batch.  It reads
`results.first()` before anything else and without a test, so for every configuration and
every model the call on the empty batch returns no model: not the unchanged model, and no
other one.  A sequence of calls with an empty batch anywhere in it returns no model
either, whatever the calls before and after it are. -/
theorem AddResults_empty_batch_not_handled (env : Env) (m : GlobalSearchModel) :
    AddResults env m [] = none ∧
    AddResults env m [] ≠ some m ∧
    (∀ m', AddResults env m [] ≠ some m') ∧
    (∀ (before after : List Op),
      run env (before ++ Op.addResults [] :: after) m = none) := by
  refine ⟨rfl, ?_, ?_, ?_⟩
  · intro h
    cases h
  · intro m' h
    cases h
  · intro before after
    rw [run_append]
    cases run env before m with
    | none => rfl
    | some m1 => rfl

theorem foldl_indexes_none (m : GlobalSearchModel) (dflt : Result)
    (indexes : List (Option Nat)) :
    indexes.foldl
      (fun a item =>
        match a, item with
        | some acc, some p => some (GetChildResultsRec m dflt (m.items.length + 1) p acc)
        | _, _ => none)
      (none : Option (List Result × List Nat)) = none := by
  induction indexes with
  | nil => rfl
  | cons x rest ih => simpa [List.foldl_cons] using ih

theorem foldl_indexes_some (m : GlobalSearchModel) (dflt : Result) (ptrs : List Nat) :
    ∀ acc : List Result × List Nat,
      (ptrs.map some).foldl
        (fun a item =>
          match a, item with
          | some acc, some p => some (GetChildResultsRec m dflt (m.items.length + 1) p acc)
          | _, _ => none)
        (some acc) =
      some (ptrs.foldl
        (fun a item => GetChildResultsRec m dflt (m.items.length + 1) item a) acc) := by
  induction ptrs with
  | nil => intro acc; rfl
  | cons p rest ih =>
    intro acc
    simp only [List.map_cons, List.foldl_cons]
    exact ih _

/-- C13, the claim as stated fails: in the model of the scenario a null item before the
leaf 3 makes the call return nothing, while without the null item it returns the result of
the leaf. -/
theorem GetChildResults_null_item_counterexample :
    GetChildResultsOfIndexes scenarioModel exampleDefault [none, some 3] = none ∧
    GetChildResultsOfIndexes scenarioModel exampleDefault [some 3] =
      some (exampleBatch.take 1) ∧
    ¬ (GetChildResultsOfIndexes scenarioModel exampleDefault [none, some 3] =
      GetChildResultsOfIndexes scenarioModel exampleDefault [some 3]) := by
  decide

/-- C13 as amended: `GetChildResults` on indexes returns a list exactly when every index
resolves to an item, and then it is the list of `GetChildResults` on those items; with a
null item anywhere in the list the call returns nothing. -/
theorem GetChildResults_needs_items (m : GlobalSearchModel) (dflt : Result) :
    (∀ ptrs : List Nat,
      GetChildResultsOfIndexes m dflt (ptrs.map some) = some (GetChildResults m dflt ptrs)) ∧
    (∀ (ptrs : List Nat) (rest : List (Option Nat)),
      GetChildResultsOfIndexes m dflt (ptrs.map some ++ none :: rest) = none) := by
  constructor
  · intro ptrs
    unfold GetChildResultsOfIndexes GetChildResults
    rw [foldl_indexes_some]
    rfl
  · intro ptrs rest
    unfold GetChildResultsOfIndexes
    rw [List.foldl_append, foldl_indexes_some, List.foldl_cons]
    simp only
    rw [foldl_indexes_none]
    rfl

/-! ## The walk of BuildContainers, for every model -/

theorem map_coreData_modify (items : List QStandardItem) (p n : Nat) :
    (List.modify (fun q : QStandardItem => { q with rows := q.rows ++ [n] }) p items).map
      coreData = items.map coreData := by
  induction items generalizing p with
  | nil => simp
  | cons a rest ih =>
    cases p with
    | zero => simp [coreData]
    | succ p => simp [ih]

theorem map_coreData_appendRow (items : List QStandardItem) (p : Nat) (x : QStandardItem) :
    (appendRow items p x).map coreData =
      items.map coreData ++ [coreData { x with parent := some p }] := by
  unfold appendRow
  rw [List.map_append, map_coreData_modify]
  rfl

theorem lookupKey_append {κ ν : Type} [DecidableEq κ] (k : κ) (l1 l2 : List (κ × ν)) :
    lookupKey k (l1 ++ l2) =
      match lookupKey k l1 with
      | some v => some v
      | none => lookupKey k l2 := by
  induction l1 with
  | nil => rfl
  | cons x rest ih =>
    obtain ⟨k', v⟩ := x
    by_cases h : k' = k
    · subst h; simp [lookupKey]
    · simp [lookupKey, h, ih]

theorem setGroup_provider_index (key : ContainerKey) (level : Nat) (t : QString) :
    (key.setGroup level t).provider_index_ = key.provider_index_ := by
  cases level with
  | zero => rfl
  | succ l =>
    cases l with
    | zero => rfl
    | succ l => rfl

/-- What `BuildContainers` adds, in every model: the cache gains bindings in front, each
for a key that was not cached, the key of the walk up to an active level; the store gains
as many items, all containers with the rank of the key; the registry is untouched. -/
theorem BuildContainersFrom_walk (env : Env) (s : Song) :
    ∀ (n : Nat) (m : GlobalSearchModel) (parent : Nat) (key : ContainerKey) (level : Nat),
      ∃ (created : List (ContainerKey × Nat)) (added : List QStandardItem),
        (BuildContainersFrom env s n m parent key level).1.containers_ =
          created ++ m.containers_ ∧
        (BuildContainersFrom env s n m parent key level).1.items.map coreData =
          m.items.map coreData ++ added ∧
        (BuildContainersFrom env s n m parent key level).1.provider_sort_indices_ =
          m.provider_sort_indices_ ∧
        (BuildContainersFrom env s n m parent key level).1.next_provider_sort_index_ =
          m.next_provider_sort_index_ ∧
        added.length = created.length ∧ created.length ≤ n ∧
        (∀ x ∈ added, IsContainerOf key.provider_index_ x) ∧
        (∀ e ∈ created, lookupKey e.1 m.containers_ = none ∧
          ∃ j, j < n ∧ (∀ i, i ≤ j → env.group_by_ (level + i) ≠ GroupBy_None) ∧
            e.1 = chainKeyFrom env s (j + 1) key level) := by
  intro n
  induction n with
  | zero =>
    intro m parent key level
    exact ⟨[], [], by simp [BuildContainersFrom], by simp [BuildContainersFrom], rfl, rfl,
      rfl, Nat.le_refl _, by simp, by simp⟩
  | succ n ih =>
    intro m parent key level
    cases ht : levelTexts env s (env.group_by_ level) with
    | none =>
      rw [BuildContainersFrom_inactive env s _ m parent key level ht]
      exact ⟨[], [], by simp, by simp, rfl, rfl, rfl, Nat.zero_le _, by simp, by simp⟩
    | some t =>
      have hact : env.group_by_ level ≠ GroupBy_None := by
        intro h
        rw [(levelTexts_eq_none_iff env s _).mpr h] at ht
        cases ht
      have hshift : ∀ j, (∀ i, i ≤ j → env.group_by_ (level + 1 + i) ≠ GroupBy_None) →
          ∀ i, i ≤ j + 1 → env.group_by_ (level + i) ≠ GroupBy_None := by
        intro j hj i hi
        cases i with
        | zero => exact hact
        | succ i =>
          have := hj i (by omega)
          rwa [show level + 1 + i = level + (i + 1) by omega] at this
      cases hl : lookupKey (key.setGroup level t.display_text) m.containers_ with
      | some container =>
        obtain ⟨created, added, h1, h2, h3, h4, h5, h6, h7, h8⟩ :=
          ih m container (key.setGroup level t.display_text) (level + 1)
        simp only [BuildContainersFrom, ht, hl]
        refine ⟨created, added, h1, h2, h3, h4, h5, by omega, ?_, ?_⟩
        · intro x hx
          have := h7 x hx
          rwa [setGroup_provider_index] at this
        · intro e he
          obtain ⟨hnone, j, hj, hlev, hkey⟩ := h8 e he
          refine ⟨hnone, j + 1, by omega, hshift j hlev, ?_⟩
          rw [chainKeyFrom_succ_of_some env s (j + 1) key level ht]
          exact hkey
      | none =>
        obtain ⟨created, added, h1, h2, h3, h4, h5, h6, h7, h8⟩ :=
          ih { m with
              items := appendRow m.items parent
                (newContainer env (key.setGroup level t.display_text) level t)
              containers_ := (key.setGroup level t.display_text, m.items.length) ::
                m.containers_ }
            m.items.length (key.setGroup level t.display_text) (level + 1)
        simp only [BuildContainersFrom, ht, hl]
        refine ⟨created ++ [(key.setGroup level t.display_text, m.items.length)],
          coreData { newContainer env (key.setGroup level t.display_text) level t with
            parent := some parent } :: added, ?_, ?_, h3, h4, ?_, ?_, ?_, ?_⟩
        · rw [h1]; simp
        · rw [h2, map_coreData_appendRow]; simp
        · simp [h5]
        · simp; omega
        · intro x hx
          rcases List.mem_cons.mp hx with rfl | hx
          · refine ⟨?_, rfl, rfl, ?_, ?_⟩
            · simp [coreData, newContainer]
            · simp [coreData, newContainer, setGroup_provider_index]
            · simp [coreData]
          · have := h7 x hx
            rwa [setGroup_provider_index] at this
        · intro e he
          rcases List.mem_append.mp he with he | he
          · obtain ⟨hnone, j, hj, hlev, hkey⟩ := h8 e he
            refine ⟨?_, j + 1, by omega, hshift j hlev, ?_⟩
            · by_cases hk : key.setGroup level t.display_text = e.1
              · rw [← hk] at hnone
                simp [lookupKey] at hnone
              · have : lookupKey e.1 ((key.setGroup level t.display_text, m.items.length) ::
                    m.containers_) = none := hnone
                rwa [lookupKey_cons_ne _ _ hk] at this
            · rw [chainKeyFrom_succ_of_some env s (j + 1) key level ht]
              exact hkey
          · rw [List.mem_singleton] at he
            subst he
            refine ⟨hl, 0, by omega, ?_, ?_⟩
            · intro i hi
              have : i = 0 := by omega
              subst this
              exact hact
            · rw [chainKeyFrom_succ_of_some env s 0 key level ht]
              rfl

theorem BuildContainersFrom_keeps (env : Env) (s : Song) (n : Nat) (m : GlobalSearchModel)
    (parent : Nat) (key : ContainerKey) (level : Nat) {k : ContainerKey} {c : Nat}
    (h : lookupKey k m.containers_ = some c) :
    lookupKey k (BuildContainersFrom env s n m parent key level).1.containers_ = some c := by
  obtain ⟨created, _, h1, _, _, _, _, _, _, h8⟩ :=
    BuildContainersFrom_walk env s n m parent key level
  rw [h1, lookupKey_append]
  cases hc : lookupKey k created with
  | none => exact h
  | some v =>
    have := (h8 _ (lookupKey_mem hc)).1
    rw [h] at this
    cases this

/-- Entered with the parent cached under the key, `BuildContainers` returns, in every
model, the container cached under the key of the whole walk. -/
theorem BuildContainersFrom_returned (env : Env) (s : Song) :
    ∀ (n : Nat) (m : GlobalSearchModel) (parent : Nat) (key : ContainerKey) (level : Nat),
      lookupKey key m.containers_ = some parent →
      lookupKey (chainKeyFrom env s n key level)
        (BuildContainersFrom env s n m parent key level).1.containers_ =
        some (BuildContainersFrom env s n m parent key level).2 := by
  intro n
  induction n with
  | zero => intro m parent key level hk; exact hk
  | succ n ih =>
    intro m parent key level hk
    cases ht : levelTexts env s (env.group_by_ level) with
    | none =>
      rw [BuildContainersFrom_inactive env s _ m parent key level ht]
      simpa [chainKeyFrom, ht] using hk
    | some t =>
      rw [chainKeyFrom_succ_of_some env s n key level ht]
      cases hl : lookupKey (key.setGroup level t.display_text) m.containers_ with
      | some container =>
        simp only [BuildContainersFrom, ht, hl]
        exact ih m container _ (level + 1) hl
      | none =>
        simp only [BuildContainersFrom, ht, hl]
        exact ih _ m.items.length _ (level + 1) (lookupKey_cons_self _ _ _)

/-- Entered with the parent cached under the key, in every model the key of the walk up to
every level is cached afterwards. -/
theorem BuildContainersFrom_prefix (env : Env) (s : Song) :
    ∀ (n j : Nat), j ≤ n → ∀ (m : GlobalSearchModel) (parent : Nat) (key : ContainerKey)
      (level : Nat), lookupKey key m.containers_ = some parent →
      (lookupKey (chainKeyFrom env s j key level)
        (BuildContainersFrom env s n m parent key level).1.containers_).isSome = true := by
  intro n
  induction n with
  | zero =>
    intro j hj m parent key level hk
    have : j = 0 := by omega
    subst this
    show (lookupKey key m.containers_).isSome = true
    rw [hk]; rfl
  | succ n ih =>
    intro j hj m parent key level hk
    have hkey : (lookupKey key
        (BuildContainersFrom env s (n + 1) m parent key level).1.containers_).isSome
          = true := by
      rw [BuildContainersFrom_keeps env s (n + 1) m parent key level hk]; rfl
    cases j with
    | zero => exact hkey
    | succ j =>
      cases ht : levelTexts env s (env.group_by_ level) with
      | none => simpa [chainKeyFrom, ht] using hkey
      | some t =>
        rw [chainKeyFrom_succ_of_some env s j key level ht]
        cases hl : lookupKey (key.setGroup level t.display_text) m.containers_ with
        | some container =>
          simp only [BuildContainersFrom, ht, hl]
          exact ih j (by omega) m container _ (level + 1) hl
        | none =>
          simp only [BuildContainersFrom, ht, hl]
          exact ih j (by omega) _ m.items.length _ (level + 1) (lookupKey_cons_self _ _ _)

/-- From an active level on, in every model: the item returned is the container cached
under the key of the whole walk, and the key of the walk up to every level is cached. -/
theorem BuildContainersFrom_walked (env : Env) (s : Song) (n : Nat) (m : GlobalSearchModel)
    (parent : Nat) (key : ContainerKey) (level : Nat)
    (hact : env.group_by_ level ≠ GroupBy_None) :
    lookupKey (chainKeyFrom env s (n + 1) key level)
        (BuildContainersFrom env s (n + 1) m parent key level).1.containers_ =
        some (BuildContainersFrom env s (n + 1) m parent key level).2 ∧
    ∀ j, j ≤ n →
      (lookupKey (chainKeyFrom env s (j + 1) key level)
        (BuildContainersFrom env s (n + 1) m parent key level).1.containers_).isSome
          = true := by
  cases ht : levelTexts env s (env.group_by_ level) with
  | none => exact absurd ((levelTexts_eq_none_iff env s _).mp ht) hact
  | some t =>
    have hstep : ∀ (m1 : GlobalSearchModel) (c : Nat),
        lookupKey (key.setGroup level t.display_text) m1.containers_ = some c →
        lookupKey (chainKeyFrom env s (n + 1) key level)
          (BuildContainersFrom env s n m1 c (key.setGroup level t.display_text)
            (level + 1)).1.containers_ =
          some (BuildContainersFrom env s n m1 c (key.setGroup level t.display_text)
            (level + 1)).2 ∧
        ∀ j, j ≤ n →
          (lookupKey (chainKeyFrom env s (j + 1) key level)
            (BuildContainersFrom env s n m1 c (key.setGroup level t.display_text)
              (level + 1)).1.containers_).isSome = true := by
      intro m1 c hc
      refine ⟨?_, ?_⟩
      · rw [chainKeyFrom_succ_of_some env s n key level ht]
        exact BuildContainersFrom_returned env s n m1 c _ (level + 1) hc
      · intro j hj
        rw [chainKeyFrom_succ_of_some env s j key level ht]
        exact BuildContainersFrom_prefix env s n j hj m1 c _ (level + 1) hc
    cases hl : lookupKey (key.setGroup level t.display_text) m.containers_ with
    | some container =>
      have := hstep m container hl
      simpa only [BuildContainersFrom, ht, hl] using this
    | none =>
      have := hstep { m with
          items := appendRow m.items parent
            (newContainer env (key.setGroup level t.display_text) level t)
          containers_ := (key.setGroup level t.display_text, m.items.length) ::
            m.containers_ } m.items.length (lookupKey_cons_self _ _ _)
      simpa only [BuildContainersFrom, ht, hl] using this

theorem BuildContainersFrom_truncate (env : Env) (s : Song) :
    ∀ (n extra : Nat) (m : GlobalSearchModel) (parent : Nat) (key : ContainerKey)
      (level : Nat), env.group_by_ (level + n) = GroupBy_None →
      BuildContainersFrom env s (n + extra) m parent key level =
        BuildContainersFrom env s n m parent key level := by
  intro n
  induction n with
  | zero =>
    intro extra m parent key level h
    rw [BuildContainersFrom_inactive env s _ m parent key level
      ((levelTexts_eq_none_iff env s _).mpr h)]
    rfl
  | succ n ih =>
    intro extra m parent key level h
    have h' : env.group_by_ (level + 1 + n) = GroupBy_None := by
      rwa [show level + 1 + n = level + (n + 1) by omega]
    rw [show n + 1 + extra = (n + extra) + 1 by omega]
    cases ht : levelTexts env s (env.group_by_ level) with
    | none => simp [BuildContainersFrom, ht]
    | some t =>
      cases hl : lookupKey (key.setGroup level t.display_text) m.containers_ with
      | some container =>
        simp only [BuildContainersFrom, ht, hl]
        exact ih extra m container _ (level + 1) h'
      | none =>
        simp only [BuildContainersFrom, ht, hl]
        exact ih extra _ _ _ (level + 1) h'

theorem chainKeyFrom_truncate (env : Env) (s : Song) :
    ∀ (n extra : Nat) (key : ContainerKey) (level : Nat),
      env.group_by_ (level + n) = GroupBy_None →
      chainKeyFrom env s (n + extra) key level = chainKeyFrom env s n key level := by
  intro n
  induction n with
  | zero =>
    intro extra key level h
    rw [Nat.add_zero] at h
    have hnone := (levelTexts_eq_none_iff env s _).mpr h
    cases extra with
    | zero => rfl
    | succ e => simp [chainKeyFrom, hnone]
  | succ n ih =>
    intro extra key level h
    have h' : env.group_by_ (level + 1 + n) = GroupBy_None := by
      rwa [show level + 1 + n = level + (n + 1) by omega]
    rw [show n + 1 + extra = (n + extra) + 1 by omega]
    cases ht : levelTexts env s (env.group_by_ level) with
    | none => simp [chainKeyFrom, ht]
    | some t =>
      rw [chainKeyFrom_succ_of_some env s _ key level ht,
        chainKeyFrom_succ_of_some env s _ key level ht]
      exact ih extra _ (level + 1) h'

theorem activeLevels_le (env : Env) : activeLevels env ≤ 3 := by
  unfold activeLevels
  split
  · omega
  · split
    · omega
    · split <;> omega

theorem activeLevels_none (env : Env) (h : activeLevels env < 3) :
    env.group_by_ (activeLevels env) = GroupBy_None := by
  unfold activeLevels at h ⊢
  by_cases h0 : env.group_by_0 = GroupBy_None
  · simp [h0, Env.group_by_]
  · by_cases h1 : env.group_by_1 = GroupBy_None
    · simp [h0, h1, Env.group_by_]
    · by_cases h2 : env.group_by_2 = GroupBy_None
      · simp [h0, h1, h2, Env.group_by_]
      · simp [h0, h1, h2] at h

theorem activeLevels_active (env : Env) (i : Nat) (h : i < activeLevels env) :
    env.group_by_ i ≠ GroupBy_None := by
  unfold activeLevels at h
  by_cases h0 : env.group_by_0 = GroupBy_None
  · simp [h0] at h
  · by_cases h1 : env.group_by_1 = GroupBy_None
    · simp only [h0, h1, if_true, if_false] at h
      have : i = 0 := by omega
      subst this
      exact h0
    · by_cases h2 : env.group_by_2 = GroupBy_None
      · simp only [h0, h1, h2, if_true, if_false] at h
        rcases (show i = 0 ∨ i = 1 by omega) with rfl | rfl
        · exact h0
        · exact h1
      · simp only [h0, h1, h2, if_false] at h
        rcases (show i = 0 ∨ i = 1 ∨ i = 2 by omega) with rfl | rfl | rfl
        · exact h0
        · exact h1
        · exact h2

/-- `BuildContainers` from level 0 is the walk of the active levels only. -/
theorem BuildContainers_eq_active (env : Env) (s : Song) (m : GlobalSearchModel)
    (parent : Nat) (key : ContainerKey) :
    BuildContainers env s m parent key 0 =
      BuildContainersFrom env s (activeLevels env) m parent key 0 := by
  unfold BuildContainers
  rcases Nat.lt_or_ge (activeLevels env) 3 with h | h
  · have hn := activeLevels_none env h
    have := BuildContainersFrom_truncate env s (activeLevels env) (3 - activeLevels env) m
      parent key 0 (by simpa using hn)
    rwa [show activeLevels env + (3 - activeLevels env) = 3 - 0 by omega] at this
  · have : activeLevels env = 3 := le_antisymm (activeLevels_le env) h
    rw [this]

theorem fullKey_eq_active (env : Env) (s : Song) (key : ContainerKey) :
    chainKeyFrom env s 3 key 0 = chainKeyFrom env s (activeLevels env) key 0 := by
  rcases Nat.lt_or_ge (activeLevels env) 3 with h | h
  · have hn := activeLevels_none env h
    have := chainKeyFrom_truncate env s (activeLevels env) (3 - activeLevels env) key 0
      (by simpa using hn)
    rwa [show activeLevels env + (3 - activeLevels env) = 3 by omega] at this
  · have : activeLevels env = 3 := le_antisymm (activeLevels_le env) h
    rw [this]

theorem levelTexts_with_group_by (env : Env) (a b c : GroupBy) (s : Song) (g : GroupBy) :
    levelTexts { env with group_by_0 := a, group_by_1 := b, group_by_2 := c } s g =
      levelTexts env s g := by
  cases g <;> rfl

/-- Two environments that differ in the level modes only and agree on the modes of the
levels walked give the same walk. -/
theorem BuildContainersFrom_with_group_by (env : Env) (a b c : GroupBy) (s : Song) :
    ∀ (n : Nat) (m : GlobalSearchModel) (parent : Nat) (key : ContainerKey) (level : Nat),
      (∀ i, i < n →
        Env.group_by_ { env with group_by_0 := a, group_by_1 := b, group_by_2 := c }
          (level + i) = env.group_by_ (level + i)) →
      BuildContainersFrom { env with group_by_0 := a, group_by_1 := b, group_by_2 := c } s n
          m parent key level =
        BuildContainersFrom env s n m parent key level := by
  intro n
  induction n with
  | zero => intro m parent key level _; rfl
  | succ n ih =>
    intro m parent key level h
    have h0 := h 0 (by omega)
    rw [Nat.add_zero] at h0
    have hrest : ∀ i, i < n →
        Env.group_by_ { env with group_by_0 := a, group_by_1 := b, group_by_2 := c }
          (level + 1 + i) = env.group_by_ (level + 1 + i) := by
      intro i hi
      have := h (i + 1) (by omega)
      rwa [show level + (i + 1) = level + 1 + i by omega] at this
    have hcont : ∀ (k : ContainerKey) (t : LevelTexts),
        newContainer { env with group_by_0 := a, group_by_1 := b, group_by_2 := c } k level t =
          newContainer env k level t := by
      intro k t
      simp only [newContainer, h0]
    simp only [BuildContainersFrom, h0, levelTexts_with_group_by, hcont]
    cases levelTexts env s (env.group_by_ level) with
    | none => rfl
    | some t =>
      simp only
      cases lookupKey (key.setGroup level t.display_text) m.containers_ with
      | none => exact ih _ _ _ (level + 1) hrest
      | some container => exact ih _ _ _ (level + 1) hrest

/-- C16. For every song, model, parent and key: `BuildContainers` is total and returns the
parent unchanged from level 3 on; from level 0 it walks the `activeLevels env` levels before
the first `GroupBy_None`.  With no active level it returns the model and the parent
unchanged; otherwise the key of the walk up to every active level is cached afterwards and
the item returned is the container cached under the key of the last active level.  The cache
gains only bindings for keys of the walk that were not cached, at most one per active level,
the store gains one container per new binding and nothing else, the registry is untouched;
and changing the modes of the levels after the first `GroupBy_None` changes nothing. -/
theorem BuildContainers_walks_active_levels (env : Env) (s : Song) (m : GlobalSearchModel)
    (parent : Nat) (key : ContainerKey) :
    (∀ level, 3 ≤ level → BuildContainers env s m parent key level = (m, parent)) ∧
    (activeLevels env = 0 → BuildContainers env s m parent key 0 = (m, parent)) ∧
    (0 < activeLevels env →
      lookupKey (chainKeyFrom env s (activeLevels env) key 0)
          (BuildContainers env s m parent key 0).1.containers_ =
        some (BuildContainers env s m parent key 0).2 ∧
      ∀ j, j < activeLevels env →
        (lookupKey (chainKeyFrom env s (j + 1) key 0)
          (BuildContainers env s m parent key 0).1.containers_).isSome = true) ∧
    (∃ (created : List (ContainerKey × Nat)) (added : List QStandardItem),
      (BuildContainers env s m parent key 0).1.containers_ = created ++ m.containers_ ∧
      (BuildContainers env s m parent key 0).1.items.map coreData =
        m.items.map coreData ++ added ∧
      (BuildContainers env s m parent key 0).1.provider_sort_indices_ =
        m.provider_sort_indices_ ∧
      (BuildContainers env s m parent key 0).1.next_provider_sort_index_ =
        m.next_provider_sort_index_ ∧
      added.length = created.length ∧ created.length ≤ activeLevels env ∧
      (∀ x ∈ added, IsContainerOf key.provider_index_ x) ∧
      (∀ e ∈ created, lookupKey e.1 m.containers_ = none ∧
        ∃ j, j < activeLevels env ∧ e.1 = chainKeyFrom env s (j + 1) key 0)) ∧
    (∀ a b c : GroupBy,
      (∀ i, i ≤ activeLevels env →
        Env.group_by_ { env with group_by_0 := a, group_by_1 := b, group_by_2 := c } i =
          env.group_by_ i) →
      BuildContainers { env with group_by_0 := a, group_by_1 := b, group_by_2 := c } s m
          parent key 0 =
        BuildContainers env s m parent key 0) := by
  refine ⟨?_, ?_, ?_, ?_, ?_⟩
  · intro level hl
    unfold BuildContainers
    rw [Nat.sub_eq_zero_of_le hl]
    rfl
  · intro h0
    rw [BuildContainers_eq_active, h0]
    rfl
  · intro hpos
    rw [BuildContainers_eq_active]
    obtain ⟨k, hk⟩ : ∃ k, activeLevels env = k + 1 := ⟨activeLevels env - 1, by omega⟩
    have hact : env.group_by_ 0 ≠ GroupBy_None := activeLevels_active env 0 hpos
    obtain ⟨h1, h2⟩ := BuildContainersFrom_walked env s k m parent key 0 hact
    rw [hk]
    exact ⟨h1, fun j hj => h2 j (by omega)⟩
  · rw [BuildContainers_eq_active]
    obtain ⟨created, added, h1, h2, h3, h4, h5, h6, h7, h8⟩ :=
      BuildContainersFrom_walk env s (activeLevels env) m parent key 0
    refine ⟨created, added, h1, h2, h3, h4, h5, h6, h7, ?_⟩
    intro e he
    obtain ⟨hnone, j, hj, _, hkey⟩ := h8 e he
    exact ⟨hnone, j, hj, hkey⟩
  · intro a b c hagree
    have hagree0 : ∀ i, i < activeLevels env →
        Env.group_by_ { env with group_by_0 := a, group_by_1 := b, group_by_2 := c }
          (0 + i) = env.group_by_ (0 + i) := by
      intro i hi
      rw [Nat.zero_add]
      exact hagree i (by omega)
    rw [BuildContainers_eq_active env]
    rw [← BuildContainersFrom_with_group_by env a b c s (activeLevels env) m parent key 0
      hagree0]
    unfold BuildContainers
    rcases Nat.lt_or_ge (activeLevels env) 3 with h | h
    · have hn : Env.group_by_ { env with group_by_0 := a, group_by_1 := b, group_by_2 := c }
          (0 + activeLevels env) = GroupBy_None := by
        rw [Nat.zero_add, hagree _ (Nat.le_refl _)]
        exact activeLevels_none env h
      have := BuildContainersFrom_truncate
        { env with group_by_0 := a, group_by_1 := b, group_by_2 := c } s (activeLevels env)
        (3 - activeLevels env) m parent key 0 hn
      rwa [show activeLevels env + (3 - activeLevels env) = 3 - 0 by omega] at this
    · have : activeLevels env = 3 := le_antisymm (activeLevels_le env) h
      rw [this]

/-! ## What AddResults adds, for every model -/

/-- Lines 42 to 62 in every model: for a provider without a rank one divider under the root
and one binding are added, for a provider with a rank nothing changes. -/
theorem resolveProvider_adds (env : Env) (m : GlobalSearchModel) (p : SearchProvider) :
    (resolveProvider env m p).1.items.map coreData =
      m.items.map coreData ++
        (if lookupKey p m.provider_sort_indices_ = none then
          [coreData { dividerItem env p (resolveProvider env m p).2 with
            parent := some invisibleRootItem }]
        else []) ∧
    (resolveProvider env m p).1.provider_sort_indices_ =
      (if lookupKey p m.provider_sort_indices_ = none then
        [(p, (resolveProvider env m p).2)] else []) ++ m.provider_sort_indices_ ∧
    (resolveProvider env m p).1.containers_ = m.containers_ ∧
    lookupKey p (resolveProvider env m p).1.provider_sort_indices_ =
      some (resolveProvider env m p).2 := by
  cases h : lookupKey p m.provider_sort_indices_ with
  | none =>
    simp [resolveProvider, h, map_coreData_appendRow, lookupKey_cons_self, coreData,
      dividerItem]
  | some r =>
    simp [resolveProvider, h]

/-- The body of the loop in every model: the store gains containers of the rank and then
the leaf of the result, the cache gains bindings in front, the registry is untouched; for a
result that is not grouped the leaf is the only item added, under the root, and the cache
is unchanged. -/
theorem insertResult_adds (env : Env) (rank : Int) (m : GlobalSearchModel) (r : Result) :
    ∃ (created : List (ContainerKey × Nat)) (added : List QStandardItem) (p : Nat),
      (insertResult env rank m r).containers_ = created ++ m.containers_ ∧
      (insertResult env rank m r).items.map coreData =
        m.items.map coreData ++ added ++
          [coreData { leafItem rank r with parent := some p }] ∧
      (insertResult env rank m r).provider_sort_indices_ = m.provider_sort_indices_ ∧
      (insertResult env rank m r).next_provider_sort_index_ =
        m.next_provider_sort_index_ ∧
      (∀ x ∈ added, IsContainerOf rank x) ∧
      (∀ e ∈ created, e.1.provider_index_ = rank) ∧
      (r.group_automatically_ = false →
        created = [] ∧ added = [] ∧ p = invisibleRootItem) := by
  by_cases hauto : r.group_automatically_ = true
  · obtain ⟨created, added, h1, h2, h3, h4, _, _, h7, h8⟩ :=
      BuildContainersFrom_walk env r.metadata_ 3 m invisibleRootItem
        (ContainerKey.ofRank rank) 0
    refine ⟨created, added,
      (BuildContainersFrom env r.metadata_ 3 m invisibleRootItem
        (ContainerKey.ofRank rank) 0).2, ?_, ?_, ?_, ?_, h7, ?_, ?_⟩
    · simpa [insertResult, hauto, BuildContainers] using h1
    · simp only [insertResult, hauto, if_true, BuildContainers]
      rw [map_coreData_appendRow, h2]
      rfl
    · simpa [insertResult, hauto, BuildContainers] using h3
    · simpa [insertResult, hauto, BuildContainers] using h4
    · intro e he
      obtain ⟨_, j, _, _, hkey⟩ := h8 e he
      rw [hkey, chainKeyFrom_provider_index]
      rfl
    · intro hf
      rw [hf] at hauto
      cases hauto
  · have hf : r.group_automatically_ = false := by simpa using hauto
    refine ⟨[], [], invisibleRootItem, ?_, ?_, ?_, ?_, by simp, by simp, fun _ => ⟨rfl, rfl, rfl⟩⟩
    · simp [insertResult, hf]
    · simp only [insertResult, hf, List.append_nil]
      rw [map_coreData_appendRow]
      rfl
    · simp [insertResult, hf]
    · simp [insertResult, hf]

theorem leafData_coreData (it : QStandardItem) : leafData (coreData it) = leafData it := rfl

theorem dividerData_coreData (it : QStandardItem) :
    dividerData (coreData it) = dividerData it := rfl

/-- The loop of `AddResults` in every model: the items added are containers and leaves of
the rank, the leaves being those of the results of the batch in order; the registry is
untouched and every new cache key has the rank. -/
theorem foldl_insertResult_adds (env : Env) (rank : Int) :
    ∀ (results : List Result) (m : GlobalSearchModel),
      ∃ (created : List (ContainerKey × Nat)) (added : List QStandardItem),
        (results.foldl (insertResult env rank) m).containers_ = created ++ m.containers_ ∧
        (results.foldl (insertResult env rank) m).items.map coreData =
          m.items.map coreData ++ added ∧
        (results.foldl (insertResult env rank) m).provider_sort_indices_ =
          m.provider_sort_indices_ ∧
        (results.foldl (insertResult env rank) m).next_provider_sort_index_ =
          m.next_provider_sort_index_ ∧
        (∀ x ∈ added, IsContainerOf rank x ∨ IsLeafOf rank x) ∧
        (∀ e ∈ created, e.1.provider_index_ = rank) ∧
        added.filterMap leafData = results.map (fun r => (rank, r)) ∧
        ((∀ r ∈ results, r.group_automatically_ = false) →
          created = [] ∧
          added = results.map (fun r =>
            coreData { leafItem rank r with parent := some invisibleRootItem })) := by
  intro results
  induction results with
  | nil =>
    intro m
    exact ⟨[], [], by simp, by simp, rfl, rfl, by simp, by simp, by simp, by simp⟩
  | cons r rest ih =>
    intro m
    obtain ⟨c1, a1, p, h1, h2, h3, h4, h5, h6, h7⟩ := insertResult_adds env rank m r
    obtain ⟨c2, a2, g1, g2, g3, g4, g5, g6, g7, g8⟩ := ih (insertResult env rank m r)
    refine ⟨c2 ++ c1, a1 ++ [coreData { leafItem rank r with parent := some p }] ++ a2,
      ?_, ?_, ?_, ?_, ?_, ?_, ?_, ?_⟩
    · rw [List.foldl_cons, g1, h1]; simp
    · rw [List.foldl_cons, g2, h2]; simp
    · rw [List.foldl_cons, g3, h3]
    · rw [List.foldl_cons, g4, h4]
    · intro x hx
      simp only [List.mem_append, List.mem_singleton] at hx
      rcases hx with (hx | rfl) | hx
      · exact Or.inl (h5 x hx)
      · exact Or.inr ⟨by simp [coreData, leafItem], rfl, rfl, rfl, by simp [coreData]⟩
      · exact g5 x hx
    · intro e he
      rcases List.mem_append.mp he with he | he
      · exact g6 e he
      · exact h6 e he
    · rw [List.filterMap_append, List.filterMap_append, g7]
      have hnone : a1.filterMap leafData = [] := by
        rw [List.filterMap_eq_nil_iff]
        intro x hx
        have := (h5 x hx).2.1
        simp [leafData, this]
      rw [hnone]
      simp [leafData, coreData, leafItem]
    · intro hall
      have hr : r.group_automatically_ = false := hall r (List.mem_cons_self _ _)
      obtain ⟨hc, ha, hp⟩ := h7 hr
      obtain ⟨hc2, ha2⟩ := g8 (fun x hx => hall x (List.mem_cons_of_mem _ hx))
      subst hc ha hp hc2
      rw [ha2]
      simp

theorem filterMap_map_coreData {α : Type} (f : QStandardItem → Option α)
    (hf : ∀ it, f (coreData it) = f it) (l : List QStandardItem) :
    (l.map coreData).filterMap f = l.filterMap f := by
  induction l with
  | nil => rfl
  | cons a l ih =>
    simp only [List.map_cons, List.filterMap_cons, hf, ih]

/-- One call of `AddResults` in every model: the provider of the first result is resolved,
which adds a divider and a binding when it has no rank, and every result of the batch is
filed with the rank of that provider. -/
theorem AddResults_adds (env : Env) (m : GlobalSearchModel) (first : Result)
    (rest : List Result) :
    ∃ (m' : GlobalSearchModel) (created : List (ContainerKey × Nat))
      (added : List QStandardItem),
      AddResults env m (first :: rest) = some m' ∧
      m'.containers_ = created ++ m.containers_ ∧
      m'.items.map coreData =
        m.items.map coreData ++
          (if lookupKey first.provider_ m.provider_sort_indices_ = none then
            [coreData { dividerItem env first.provider_
              (resolveProvider env m first.provider_).2 with
              parent := some invisibleRootItem }]
          else []) ++ added ∧
      m'.provider_sort_indices_ =
        (if lookupKey first.provider_ m.provider_sort_indices_ = none then
          [(first.provider_, (resolveProvider env m first.provider_).2)] else []) ++
          m.provider_sort_indices_ ∧
      lookupKey first.provider_ m'.provider_sort_indices_ =
        some (resolveProvider env m first.provider_).2 ∧
      (∀ x ∈ added, IsContainerOf (resolveProvider env m first.provider_).2 x ∨
        IsLeafOf (resolveProvider env m first.provider_).2 x) ∧
      (∀ e ∈ created, e.1.provider_index_ = (resolveProvider env m first.provider_).2) ∧
      added.filterMap leafData =
        (first :: rest).map (fun r => ((resolveProvider env m first.provider_).2, r)) ∧
      ((∀ r ∈ first :: rest, r.group_automatically_ = false) →
        created = [] ∧
        added = (first :: rest).map (fun r =>
          coreData { leafItem (resolveProvider env m first.provider_).2 r with
            parent := some invisibleRootItem })) := by
  obtain ⟨r1, r2, r3, r4⟩ := resolveProvider_adds env m first.provider_
  obtain ⟨created, added, h1, h2, h3, _, h5, h6, h7, h8⟩ :=
    foldl_insertResult_adds env (resolveProvider env m first.provider_).2 (first :: rest)
      (resolveProvider env m first.provider_).1
  refine ⟨_, created, added, rfl, ?_, ?_, ?_, ?_, h5, h6, h7, h8⟩
  · rw [h1, r3]
  · rw [h2, r1]
  · rw [h3, r2]
  · rw [h3, r4]

/-- C17: a result with `group_automatically_ = false` is filed by the loop body of
`AddResults` as one leaf appended to the rows of the root, in every model, for every rank
and every grouping configuration: the new model is the old one with that one row appended,
so the container cache and the provider registry are unchanged, no container is created,
and the new item is the last of the store, wraps the result and has the root as parent.
A batch still resolves the provider of its first result whatever the flags are: when that
provider has no rank, the divider of the provider is appended under the root before the
results and the provider is bound to its rank; and a batch of ungrouped results adds, after
that divider, exactly one leaf under the root per result and leaves the cache unchanged. -/
theorem ungrouped_result_under_root (env : Env) (m : GlobalSearchModel) :
    (∀ (rank : Int) (r : Result), r.group_automatically_ = false →
      insertResult env rank m r =
        { m with items := appendRow m.items invisibleRootItem (leafItem rank r) } ∧
      (insertResult env rank m r).containers_ = m.containers_ ∧
      (insertResult env rank m r).provider_sort_indices_ = m.provider_sort_indices_ ∧
      (insertResult env rank m r).items.length = m.items.length + 1 ∧
      (insertResult env rank m r).items[m.items.length]? =
        some { leafItem rank r with parent := some invisibleRootItem } ∧
      (insertResult env rank m r).items.map coreData =
        m.items.map coreData ++
          [coreData { leafItem rank r with parent := some invisibleRootItem }] ∧
      (∀ root, m.items[invisibleRootItem]? = some root →
        (insertResult env rank m r).items[invisibleRootItem]? =
          some { root with rows := root.rows ++ [m.items.length] })) ∧
    (∀ (first : Result) (rest : List Result),
      ∃ (m' : GlobalSearchModel) (created : List (ContainerKey × Nat))
        (added : List QStandardItem),
        AddResults env m (first :: rest) = some m' ∧
        m'.containers_ = created ++ m.containers_ ∧
        lookupKey first.provider_ m'.provider_sort_indices_ =
          some (resolveProvider env m first.provider_).2 ∧
        (lookupKey first.provider_ m.provider_sort_indices_ = none →
          m'.provider_sort_indices_ =
            (first.provider_, (resolveProvider env m first.provider_).2) ::
              m.provider_sort_indices_ ∧
          m'.items.map coreData =
            m.items.map coreData ++
              [coreData { dividerItem env first.provider_
                (resolveProvider env m first.provider_).2 with
                parent := some invisibleRootItem }] ++ added) ∧
        ((∀ r ∈ first :: rest, r.group_automatically_ = false) →
          created = [] ∧
          added = (first :: rest).map (fun r =>
            coreData { leafItem (resolveProvider env m first.provider_).2 r with
              parent := some invisibleRootItem }))) := by
  refine ⟨?_, ?_⟩
  · intro rank r hr
    have heq : insertResult env rank m r =
        { m with items := appendRow m.items invisibleRootItem (leafItem rank r) } := by
      simp [insertResult, hr, leafItem]
    refine ⟨heq, ?_, ?_, ?_, ?_, ?_, ?_⟩
    · rw [heq]
    · rw [heq]
    · rw [heq]
      exact length_appendRow _ _ _
    · rw [heq]
      exact getElem?_appendRow_length _ _ _
    · rw [heq]
      exact map_coreData_appendRow _ _ _
    · intro root hroot
      rw [heq]
      have hlt : invisibleRootItem < m.items.length := by
        rcases Nat.lt_or_ge invisibleRootItem m.items.length with h | h
        · exact h
        · rw [List.getElem?_eq_none h] at hroot
          cases hroot
      simp only [appendRow]
      rw [List.getElem?_append_left (by simpa using hlt)]
      simp [List.getElem?_modify, hroot]
  · intro first rest
    obtain ⟨m', created, added, h1, h2, h3, h4, h5, _, _, _, h9⟩ :=
      AddResults_adds env m first rest
    refine ⟨m', created, added, h1, h2, h5, ?_, h9⟩
    intro hnew
    rw [h4, h3]
    simp [hnew]

/-- C20: one call of `AddResults` reads the provider from the first result only.  For
every model and every batch `first :: rest`, with `rank` the rank that the provider of
`first` has or is given: every item that the call adds after the divider is a container or
a leaf that carries `rank`, every key it adds to the cache has `rank` in its provider slot,
and the leaves added are those of the results of the batch, in order, each paired with
`rank`, whatever the `provider_` of each result is.  The dividers of the store after the
call are those from before, followed by the divider of the provider of `first` when that
provider had no rank and by nothing otherwise; the registry gains a binding for that
provider only, and only in that case. -/
theorem AddResults_reads_first_provider (env : Env) (m : GlobalSearchModel)
    (first : Result) (rest : List Result) :
    ∃ (m' : GlobalSearchModel) (created : List (ContainerKey × Nat))
      (added : List QStandardItem),
      AddResults env m (first :: rest) = some m' ∧
      m'.containers_ = created ++ m.containers_ ∧
      m'.items.map coreData =
        m.items.map coreData ++
          (if lookupKey first.provider_ m.provider_sort_indices_ = none then
            [coreData { dividerItem env first.provider_
              (resolveProvider env m first.provider_).2 with
              parent := some invisibleRootItem }]
          else []) ++ added ∧
      (∀ x ∈ added,
        x.Role_ProviderIndex = some (resolveProvider env m first.provider_).2 ∧
        x.Role_IsDivider = none ∧
        (IsContainerOf (resolveProvider env m first.provider_).2 x ∨
          IsLeafOf (resolveProvider env m first.provider_).2 x)) ∧
      (∀ e ∈ created, e.1.provider_index_ = (resolveProvider env m first.provider_).2) ∧
      added.filterMap leafData =
        (first :: rest).map (fun r => ((resolveProvider env m first.provider_).2, r)) ∧
      m'.items.filterMap leafData =
        m.items.filterMap leafData ++
          (first :: rest).map (fun r => ((resolveProvider env m first.provider_).2, r)) ∧
      m'.items.filterMap dividerData =
        m.items.filterMap dividerData ++
          (if lookupKey first.provider_ m.provider_sort_indices_ = none then
            [(Icon.provider_icon first.provider_, env.provider_name first.provider_,
              (resolveProvider env m first.provider_).2)]
          else []) ∧
      m'.provider_sort_indices_ =
        (if lookupKey first.provider_ m.provider_sort_indices_ = none then
          [(first.provider_, (resolveProvider env m first.provider_).2)] else []) ++
          m.provider_sort_indices_ := by
  obtain ⟨m', created, added, h1, h2, h3, h4, _, h6, h7, h8, _⟩ :=
    AddResults_adds env m first rest
  have hkinds : ∀ x ∈ added,
      x.Role_ProviderIndex = some (resolveProvider env m first.provider_).2 ∧
      x.Role_IsDivider = none ∧
      (IsContainerOf (resolveProvider env m first.provider_).2 x ∨
        IsLeafOf (resolveProvider env m first.provider_).2 x) := by
    intro x hx
    rcases h6 x hx with h | h
    · exact ⟨h.2.2.2.1, h.2.2.1, Or.inl h⟩
    · exact ⟨h.2.1, h.2.2.1, Or.inr h⟩
  have hdiv : added.filterMap dividerData = [] := by
    rw [List.filterMap_eq_nil_iff]
    intro x hx
    simp [dividerData, (hkinds x hx).2.1]
  refine ⟨m', created, added, h1, h2, h3, hkinds, h7, h8, ?_, ?_, h4⟩
  · rw [← filterMap_map_coreData leafData leafData_coreData m'.items, h3,
      List.filterMap_append, List.filterMap_append,
      filterMap_map_coreData leafData leafData_coreData, h8]
    by_cases hnew : lookupKey first.provider_ m.provider_sort_indices_ = none
    · simp [hnew, leafData, coreData, dividerItem]
    · simp [hnew]
  · rw [← filterMap_map_coreData dividerData dividerData_coreData m'.items, h3,
      List.filterMap_append, List.filterMap_append,
      filterMap_map_coreData dividerData dividerData_coreData, hdiv]
    by_cases hnew : lookupKey first.provider_ m.provider_sort_indices_ = none
    · simp [hnew, dividerData, coreData, dividerItem]
    · simp [hnew]

/-! ## The cache and the container items -/

theorem getElem?_append_singleton_cases {α : Type} {l : List α} {x it : α} {i : Nat}
    (h : (l ++ [x])[i]? = some it) : l[i]? = some it ∨ (i = l.length ∧ it = x) := by
  rcases Nat.lt_trichotomy i l.length with hlt | heq | hgt
  · left
    rwa [List.getElem?_append_left hlt] at h
  · right
    subst heq
    simp at h
    exact ⟨rfl, h.symm⟩
  · rw [List.getElem?_eq_none (by simp; omega)] at h
    cases h

theorem getElem?_append_of_some {α : Type} {l : List α} (l' : List α) {i : Nat} {it : α}
    (h : l[i]? = some it) : (l ++ l')[i]? = some it := by
  have hlt : i < l.length := by
    rcases Nat.lt_or_ge i l.length with h1 | h1
    · exact h1
    · rw [List.getElem?_eq_none h1] at h
      cases h
  rw [List.getElem?_append_left hlt]
  exact h

theorem containerParent_cons {cache : List (ContainerKey × Nat)} {key k : ContainerKey}
    (v : Nat) {p : Nat} (hnone : lookupKey key cache = none)
    (h : containerParent cache k = some p) :
    containerParent ((key, v) :: cache) k = some p := by
  unfold containerParent at h ⊢
  cases hpk : k.parentKey with
  | none =>
    simp only [hpk] at h ⊢
    exact h
  | some pk =>
    simp only [hpk] at h ⊢
    have hne : key ≠ pk := by
      intro e
      subst e
      rw [hnone] at h
      cases h
    rw [lookupKey_cons_ne _ _ hne]
    exact h

/-- Appending an item that is no container keeps the agreement. -/
theorem CacheTreeOn.append_other {cs : List QStandardItem}
    {cache : List (ContainerKey × Nat)} (h : CacheTreeOn cs cache) (x : QStandardItem)
    (hx : x.Role_ContainerType = none) (hk : x.Role_Result ≠ none → x.Role_IsDivider = none) :
    CacheTreeOn (cs ++ [x]) cache := by
  refine ⟨?_, ?_, ?_⟩
  · intro k c hc
    obtain ⟨it, p, h1, h2⟩ := h.bound k c hc
    exact ⟨it, p, getElem?_append_of_some _ h1, h2⟩
  · intro i it hi hct
    rcases getElem?_append_singleton_cases hi with hi | ⟨_, rfl⟩
    · exact h.containers i it hi hct
    · exact absurd hx hct
  · intro i it hi hr
    rcases getElem?_append_singleton_cases hi with hi | ⟨_, rfl⟩
    · exact h.kinds i it hi hr
    · exact hk hr

/-- Appending a new container and binding a key that was not cached to it keeps the
agreement, when the parent of the container is what the cache gives for the level above
the key. -/
theorem CacheTreeOn.create {cs : List QStandardItem} {cache : List (ContainerKey × Nat)}
    (h : CacheTreeOn cs cache) {key : ContainerKey} (hnone : lookupKey key cache = none)
    (x : QStandardItem) (p : Nat) (h1 : x.Role_ContainerType ≠ none)
    (h2 : x.Role_Result = none) (h3 : x.Role_IsDivider = none)
    (h4 : x.Role_ProviderIndex = some key.provider_index_) (h5 : x.parent = some p)
    (h6 : containerParent cache key = some p) :
    CacheTreeOn (cs ++ [x]) ((key, cs.length) :: cache) := by
  refine ⟨?_, ?_, ?_⟩
  · intro k c hc
    by_cases hk : key = k
    · subst hk
      rw [lookupKey_cons_self] at hc
      cases hc
      exact ⟨x, p, by simp, h1, h2, h3, h4, h5, containerParent_cons _ hnone h6⟩
    · rw [lookupKey_cons_ne _ _ hk] at hc
      obtain ⟨it, q, g1, g2, g3, g4, g5, g6, g7⟩ := h.bound k c hc
      exact ⟨it, q, getElem?_append_of_some _ g1, g2, g3, g4, g5, g6,
        containerParent_cons _ hnone g7⟩
  · intro i it hi hct
    rcases getElem?_append_singleton_cases hi with hi | ⟨rfl, rfl⟩
    · obtain ⟨k, hk⟩ := h.containers i it hi hct
      have hne : key ≠ k := by
        intro e
        subst e
        rw [hnone] at hk
        cases hk
      exact ⟨k, by rw [lookupKey_cons_ne _ _ hne]; exact hk⟩
    · exact ⟨key, lookupKey_cons_self _ _ _⟩
  · intro i it hi hr
    rcases getElem?_append_singleton_cases hi with hi | ⟨_, rfl⟩
    · exact h.kinds i it hi hr
    · exact absurd h2 hr

theorem setGroup_group_1 (key : ContainerKey) (t : QString) :
    (key.setGroup 0 t).group_1 = key.group_1 := rfl

/-- The walk of `BuildContainers` keeps the agreement of the cache and the containers. -/
theorem BuildContainersFrom_cacheTree (env : Env) (s : Song) :
    ∀ (n : Nat) (m : GlobalSearchModel) (parent : Nat) (key : ContainerKey) (level : Nat),
      level + n = 3 → CacheTree m → WalkAt m.containers_ key parent level →
      CacheTree (BuildContainersFrom env s n m parent key level).1 := by
  intro n
  induction n with
  | zero =>
    intro m parent key level _ h _
    exact h
  | succ n ih =>
    intro m parent key level hlev h hw
    cases ht : levelTexts env s (env.group_by_ level) with
    | none =>
      rw [BuildContainersFrom_inactive env s _ m parent key level ht]
      exact h
    | some t =>
      obtain ⟨w0, w1, w2, w3⟩ := hw
      have hg2 : level ≤ 1 → (key.setGroup level t.display_text).group_2 = "" := by
        intro hle
        have := w3 (by omega)
        rcases Nat.lt_or_ge level 1 with h0 | h0
        · have : level = 0 := by omega
          subst this
          exact w3 (by omega)
        · have : level = 1 := by omega
          subst this
          exact w3 (by omega)
      have hg1 : level = 0 → (key.setGroup level t.display_text).group_1 = "" := by
        intro h0
        subst h0
        exact w2 (by omega)
      cases hl : lookupKey (key.setGroup level t.display_text) m.containers_ with
      | some container =>
        simp only [BuildContainersFrom, ht, hl]
        refine ih m container _ (level + 1) (by omega) h ⟨by omega, fun _ => hl, ?_, ?_⟩
        · intro hle
          exact hg1 (by omega)
        · intro hle
          exact hg2 (by omega)
      | none =>
        simp only [BuildContainersFrom, ht, hl]
        refine ih _ m.items.length _ (level + 1) (by omega) ?_
          ⟨by omega, fun _ => lookupKey_cons_self _ _ _, ?_, ?_⟩
        · show CacheTreeOn (List.map coreData (appendRow m.items parent
            (newContainer env (key.setGroup level t.display_text) level t)))
            ((key.setGroup level t.display_text, m.items.length) :: m.containers_)
          rw [map_coreData_appendRow]
          have hlen : m.items.length = (m.items.map coreData).length := by simp
          rw [hlen]
          refine CacheTreeOn.create h hl _ parent ?_ rfl rfl rfl rfl ?_
          · simp [coreData, newContainer]
          · -- the parent is what the cache gives for the level above the new key
            have hl3 : level ≤ 2 := by omega
            rcases Nat.eq_zero_or_pos level with h0 | hpos
            · subst h0
              have e1 := hg1 rfl
              have e2 := hg2 (by omega)
              simp [containerParent, ContainerKey.parentKey, e1, e2, w0 rfl]
            · have hkey := w1 hpos
              have hchars : t.display_text.chars ≠ "" := by
                intro he
                have hsame : key.setGroup level t.display_text = key := by
                  rcases Nat.lt_or_ge level 2 with h1 | h1
                  · have : level = 1 := by omega
                    subst this
                    have := w2 (Nat.le_refl 1)
                    cases key
                    simp_all [ContainerKey.setGroup]
                  · have : level = 2 := by omega
                    subst this
                    have := w3 (Nat.le_refl 2)
                    cases key
                    simp_all [ContainerKey.setGroup]
                rw [hsame, hkey] at hl
                cases hl
              rcases Nat.lt_or_ge level 2 with h1 | h1
              · have : level = 1 := by omega
                subst this
                have e1 := w2 (Nat.le_refl 1)
                have e2 := w3 (by omega)
                have hpk : (key.setGroup 1 t.display_text).parentKey = some key := by
                  cases key
                  simp_all [ContainerKey.setGroup, ContainerKey.parentKey]
                simp only [containerParent, hpk]
                exact hkey
              · have : level = 2 := by omega
                subst this
                have e2 := w3 (Nat.le_refl 2)
                have hpk : (key.setGroup 2 t.display_text).parentKey = some key := by
                  cases key
                  simp_all [ContainerKey.setGroup, ContainerKey.parentKey]
                simp only [containerParent, hpk]
                exact hkey
        · intro hle
          exact hg1 (by omega)
        · intro hle
          exact hg2 (by omega)

theorem insertResult_cacheTree (env : Env) (rank : Int) {m : GlobalSearchModel}
    (h : CacheTree m) (r : Result) : CacheTree (insertResult env rank m r) := by
  by_cases hauto : r.group_automatically_ = true
  · have hb : CacheTree (BuildContainersFrom env r.metadata_ 3 m invisibleRootItem
        (ContainerKey.ofRank rank) 0).1 :=
      BuildContainersFrom_cacheTree env r.metadata_ 3 m invisibleRootItem
        (ContainerKey.ofRank rank) 0 rfl h
        ⟨fun _ => rfl, fun h0 => absurd h0 (Nat.lt_irrefl 0), fun _ => rfl, fun _ => rfl⟩
    show CacheTreeOn ((insertResult env rank m r).items.map coreData)
      (insertResult env rank m r).containers_
    simp only [insertResult, hauto, if_true, BuildContainers]
    rw [map_coreData_appendRow]
    exact CacheTreeOn.append_other hb _ rfl (fun _ => rfl)
  · have hf : r.group_automatically_ = false := by simpa using hauto
    show CacheTreeOn ((insertResult env rank m r).items.map coreData)
      (insertResult env rank m r).containers_
    simp only [insertResult, hf]
    rw [map_coreData_appendRow]
    exact CacheTreeOn.append_other h _ rfl (fun _ => rfl)

theorem foldl_insertResult_cacheTree (env : Env) (rank : Int) :
    ∀ (results : List Result) (m : GlobalSearchModel), CacheTree m →
      CacheTree (results.foldl (insertResult env rank) m) := by
  intro results
  induction results with
  | nil => intro m h; exact h
  | cons r rest ih =>
    intro m h
    exact ih _ (insertResult_cacheTree env rank h r)

theorem resolveProvider_cacheTree (env : Env) {m : GlobalSearchModel} (h : CacheTree m)
    (p : SearchProvider) : CacheTree (resolveProvider env m p).1 := by
  cases hl : lookupKey p m.provider_sort_indices_ with
  | none =>
    show CacheTreeOn ((resolveProvider env m p).1.items.map coreData)
      (resolveProvider env m p).1.containers_
    simp only [resolveProvider, hl]
    rw [map_coreData_appendRow]
    exact CacheTreeOn.append_other h _ rfl (fun hr => absurd rfl hr)
  | some r =>
    simp only [resolveProvider, hl]
    exact h

theorem Clear_cacheTree (m : GlobalSearchModel) : CacheTree (Clear m) := by
  refine ⟨?_, ?_, ?_⟩
  · intro k c hc
    cases hc
  · intro i it hi hct
    cases i with
    | zero =>
      simp [Clear, coreData] at hi
      subst hi
      exact absurd rfl hct
    | succ i => simp [Clear] at hi
  · intro i it hi hr
    cases i with
    | zero =>
      simp [Clear, coreData] at hi
      subst hi
      rfl
    | succ i => simp [Clear] at hi

theorem AddResults_cacheTree (env : Env) {m m' : GlobalSearchModel} (h : CacheTree m)
    {results : List Result} (hm : AddResults env m results = some m') : CacheTree m' := by
  cases results with
  | nil => cases hm
  | cons first rest =>
    simp only [AddResults] at hm
    cases hm
    exact foldl_insertResult_cacheTree env _ _ _ (resolveProvider_cacheTree env h _)

/-- After a `Clear`, every model that a sequence of calls returns has a cache that agrees
with its container items. -/
theorem run_cacheTree (env : Env) :
    ∀ (ops : List Op) (m m' : GlobalSearchModel), CacheTree m →
      run env ops m = some m' → CacheTree m' := by
  intro ops
  induction ops with
  | nil =>
    intro m m' h hm
    simp only [run] at hm
    cases hm
    exact h
  | cons op rest ih =>
    intro m m' h hm
    simp only [run] at hm
    cases hs : step env m op with
    | none =>
      rw [hs] at hm
      cases hm
    | some m1 =>
      rw [hs] at hm
      refine ih m1 m' ?_ hm
      cases op with
      | clear =>
        simp only [step] at hs
        cases hs
        exact Clear_cacheTree m
      | addResults results =>
        simp only [step] at hs
        exact AddResults_cacheTree env h hs

theorem run_clear_cacheTree (env : Env) (m0 m : GlobalSearchModel) (ops : List Op)
    (hm : run env (Op.clear :: ops) m0 = some m) : CacheTree m := by
  simp only [run, step, Option.some_bind] at hm
  exact run_cacheTree env ops _ m (Clear_cacheTree m0) hm

theorem getElem?_map_coreData {items : List QStandardItem} {i : Nat} {it : QStandardItem}
    (h : items[i]? = some it) : (items.map coreData)[i]? = some (coreData it) := by
  rw [List.getElem?_map, h]
  rfl

theorem lookupKey_of_mem {κ ν : Type} [DecidableEq κ] {k : κ} {v : ν} {l : List (κ × ν)}
    (hnd : (l.map Prod.fst).Nodup) (h : (k, v) ∈ l) : lookupKey k l = some v := by
  induction l with
  | nil => cases h
  | cons x rest ih =>
    obtain ⟨k', v'⟩ := x
    rw [List.map_cons, List.nodup_cons] at hnd
    rcases List.mem_cons.mp h with h | h
    · cases h
      exact lookupKey_cons_self _ _ _
    · have hne : k' ≠ k := by
        intro e
        subst e
        exact hnd.1 (List.mem_map.mpr ⟨_, h, rfl⟩)
      rw [lookupKey_cons_ne _ _ hne]
      exact ih hnd.2 h

/-- The binding of a key in a model whose cache agrees with its containers. -/
theorem CacheTree.bound_item {m : GlobalSearchModel} (h : CacheTree m) {k : ContainerKey}
    {c : Nat} (hc : lookupKey k m.containers_ = some c) :
    ∃ (it : QStandardItem) (p : Nat), m.items[c]? = some it ∧
      it.Role_ContainerType ≠ none ∧ it.Role_Result = none ∧ it.Role_IsDivider = none ∧
      it.Role_ProviderIndex = some k.provider_index_ ∧ it.parent = some p ∧
      containerParent m.containers_ k = some p := by
  obtain ⟨it', p, h1, h2, h3, h4, h5, h6, h7⟩ := h.bound k c hc
  rw [List.getElem?_map] at h1
  cases hi : m.items[c]? with
  | none => rw [hi] at h1; cases h1
  | some it =>
    rw [hi] at h1
    have e : coreData it = it' := Option.some.inj h1
    subst e
    exact ⟨it, p, rfl, h2, h3, h4, h5, h6, h7⟩

theorem CacheTree.container_bound {m : GlobalSearchModel} (h : CacheTree m) {i : Nat}
    {it : QStandardItem} (hi : m.items[i]? = some it) (hct : it.Role_ContainerType ≠ none) :
    ∃ k : ContainerKey, lookupKey k m.containers_ = some i :=
  h.containers i (coreData it) (getElem?_map_coreData hi) hct

theorem CacheTree.leaf_kind {m : GlobalSearchModel} (h : CacheTree m) {i : Nat}
    {it : QStandardItem} (hi : m.items[i]? = some it) (hr : it.Role_Result ≠ none) :
    it.Role_IsDivider = none ∧ it.Role_ContainerType = none := by
  refine ⟨h.kinds i (coreData it) (getElem?_map_coreData hi) hr, ?_⟩
  by_contra hct
  obtain ⟨k, hk⟩ := h.container_bound hi hct
  obtain ⟨it', _, h1, _, h3, _⟩ := h.bound_item hk
  rw [hi] at h1
  cases h1
  exact hr h3

theorem countP_eq_length_filterMap (l : List QStandardItem) :
    l.countP (fun it => decide (it.Role_Result ≠ none)) =
      (l.filterMap (fun it => it.Role_Result)).length := by
  induction l with
  | nil => rfl
  | cons a l ih =>
    cases h : a.Role_Result with
    | none =>
      rw [List.countP_cons_of_neg _ _ (by simp [h]), List.filterMap_cons_none h, ih]
    | some b =>
      rw [List.countP_cons_of_pos _ _ (by simp [h]), List.filterMap_cons_some h, ih]
      rfl

theorem filterMap_leafData_snd (items : List QStandardItem) :
    (items.filterMap leafData).map Prod.snd = items.filterMap (fun it => it.Role_Result) := by
  induction items with
  | nil => rfl
  | cons a l ih =>
    cases h : a.Role_Result with
    | none => simp [List.filterMap_cons, leafData, h, ih]
    | some b => simp [List.filterMap_cons, leafData, h, ih]

theorem ranked_snd (env : Env) (seen : List SearchProvider) (batches : List (List Result)) :
    (ranked env seen batches).map Prod.snd = batches.flatten := by
  induction batches with
  | nil => rfl
  | cons b rest ih =>
    have hb : (b.map (fun r => (rankOf env seen (batchProvider b), r))).map Prod.snd = b := by
      simp [List.map_map, Function.comp_def]
    simp only [ranked, List.flatMap_cons, List.map_append, List.flatten_cons] at ih ⊢
    rw [hb]
    congr 1

/-- The leaves of a model that has received the batches, and the other items. -/
theorem Inv.leavesWrapResults {env : Env} {m : GlobalSearchModel}
    {batches : List (List Result)} (h : Inv env m batches) (hct : CacheTree m) :
    LeavesWrapResults m batches := by
  have hres : m.items.filterMap (fun it => it.Role_Result) = batches.flatten := by
    rw [← filterMap_leafData_snd, h.filed.leaves, ranked_snd]
  refine ⟨?_, hres, ?_, ?_⟩
  · rw [countP_eq_length_filterMap, hres, List.length_flatten]
  · intro i it hi hr
    have hlt : i < m.items.length := by
      rcases Nat.lt_or_ge i m.items.length with h1 | h1
      · exact h1
      · rw [List.getElem?_eq_none h1] at hi
        cases hi
    exact ⟨h.filed.wf.items.inTree i hlt, h.filed.wf.leaves_childless i it hi hr,
      hct.leaf_kind hi hr⟩
  · intro i it hi hor
    by_contra hr
    obtain ⟨h1, h2⟩ := hct.leaf_kind hi hr
    rcases hor with hd | hc
    · exact hd h1
    · exact hc h2

/-- The bijection of cache and containers in a well-formed model whose cache agrees with
its containers. -/
theorem CacheTree.bijection {m : GlobalSearchModel} (h : CacheTree m) (hwf : ModelWF m) :
    CacheBijection m := by
  refine ⟨?_, hwf.keys_nodup, ?_, hwf.values_nodup, ?_⟩
  · intro i it hi hct
    have hlt : i < m.items.length := by
      rcases Nat.lt_or_ge i m.items.length with h1 | h1
      · exact h1
      · rw [List.getElem?_eq_none h1] at hi
        cases hi
    obtain ⟨k, hk⟩ := h.container_bound hi hct
    refine ⟨hwf.items.inTree i hlt, k, lookupKey_mem hk, ?_⟩
    intro k' hk'
    exact hwf.lookup_inj (lookupKey_of_mem hwf.keys_nodup hk') hk
  · intro k c c' hc hc'
    have e1 := lookupKey_of_mem hwf.keys_nodup hc
    have e2 := lookupKey_of_mem hwf.keys_nodup hc'
    rw [e1] at e2
    exact Option.some.inj e2
  · intro k c hc
    have hk := lookupKey_of_mem hwf.keys_nodup hc
    obtain ⟨it, _, h1, h2, _, _, h5, _⟩ := h.bound_item hk
    exact ⟨hwf.items.inTree c (hwf.lookup_lt hk), it, h1, h2, h5⟩

/-- C11: after a `Clear` and any calls with non-empty batches (further `Clear` calls
included) the model is returned, and with the batches given since the last `Clear`: the
number of items carrying `Role_Result` is the total number of results of those batches; the
results wrapped by those items, in store order, are exactly the results of the batches in
insertion order, so every inserted result is wrapped by one item of its own; every such
item is in the tree and has no rows, and is neither a divider nor a container; and no
divider and no container carries a result. -/
theorem leaves_are_the_results (env : Env) (m0 : GlobalSearchModel) (ops : List Op)
    (hne : ∀ results, Op.addResults results ∈ ops → results ≠ []) :
    ∃ m, run env (Op.clear :: ops) m0 = some m ∧
      LeavesWrapResults m (batchesSinceClear ops []) := by
  obtain ⟨m, hm, hinv⟩ := run_clear_inv env m0 ops hne
  exact ⟨m, hm, hinv.leavesWrapResults (run_clear_cacheTree env m0 m ops hm)⟩

/-- The scenario batch and then a batch of another provider: 4 results, 4 leaves. -/
theorem leaves_are_the_results_witness :
    (∀ results, Op.addResults results ∈
        [Op.addResults exampleBatch, Op.addResults (singleBatch 2)] → results ≠ []) ∧
    (run exampleEnv [Op.clear, Op.addResults exampleBatch, Op.addResults (singleBatch 2)]
        exampleModel).map (fun m => m.items.filterMap (fun it => it.Role_Result)) =
      some (exampleBatch ++ singleBatch 2) ∧
    ∃ m, run exampleEnv (Op.clear ::
        [Op.addResults exampleBatch, Op.addResults (singleBatch 2)]) exampleModel = some m ∧
      LeavesWrapResults m
        (batchesSinceClear [Op.addResults exampleBatch, Op.addResults (singleBatch 2)] []) :=
  ⟨by intro results h; simp at h; rcases h with h | h <;> subst h <;>
      simp [singleBatch, exampleBatch],
   by decide,
   leaves_are_the_results exampleEnv exampleModel _
     (by intro results h; simp at h; rcases h with h | h <;> subst h <;>
      simp [singleBatch, exampleBatch])⟩

/-- C15: after a `Clear` and any calls with non-empty batches (further `Clear` calls
included), under one grouping configuration, the model is returned and its container cache
and its container items are in bijection: every item with a container type is in the tree
and is the value of exactly one cache key; the keys of the cache are distinct, so no two
items are stored under one key, and its values are distinct; and every cache entry points
to an item that is in the tree, has a container type and carries the rank of the key. -/
theorem cache_matches_containers (env : Env) (m0 : GlobalSearchModel) (ops : List Op)
    (hne : ∀ results, Op.addResults results ∈ ops → results ≠ []) :
    ∃ m, run env (Op.clear :: ops) m0 = some m ∧ CacheBijection m := by
  obtain ⟨m, hm, hinv⟩ := run_clear_inv env m0 ops hne
  exact ⟨m, hm, (run_clear_cacheTree env m0 m ops hm).bijection hinv.filed.wf⟩

/-- The scenario: after the batch the cache binds the keys of "Radiohead" and "Muse" to the
items 2 and 5, the only items with a container type. -/
theorem cache_matches_containers_witness :
    (∀ results, Op.addResults results ∈ [Op.addResults exampleBatch] → results ≠ []) ∧
    (run exampleEnv [Op.clear, Op.addResults exampleBatch] exampleModel).map
        (fun m => m.containers_.map Prod.snd) = some [5, 2] ∧
    scenarioModel.items.map (fun it => decide (it.Role_ContainerType ≠ none)) =
      [false, false, true, false, false, true, false] ∧
    ∃ m, run exampleEnv (Op.clear :: [Op.addResults exampleBatch]) exampleModel = some m ∧
      CacheBijection m :=
  ⟨by intro results h; simp at h; subst h; simp [exampleBatch],
   by decide, by decide,
   cache_matches_containers exampleEnv exampleModel [Op.addResults exampleBatch]
     (by intro results h; simp at h; subst h; simp [exampleBatch])⟩

/-! ## The key of a container is its path -/

theorem chainKeyFrom_one (env : Env) (s : Song) (rank : Int) {a : LevelTexts}
    (h0 : levelTexts env s env.group_by_0 = some a) :
    chainKeyFrom env s 1 (ContainerKey.ofRank rank) 0 =
      { provider_index_ := rank, group_0 := a.display_text.chars, group_1 := "",
        group_2 := "" } := by
  have h0' : levelTexts env s (env.group_by_ 0) = some a := h0
  rw [chainKeyFrom_succ_of_some env s 0 _ 0 h0']
  rfl

theorem chainKeyFrom_two (env : Env) (s : Song) (rank : Int) {a l : LevelTexts}
    (h0 : levelTexts env s env.group_by_0 = some a)
    (h1 : levelTexts env s env.group_by_1 = some l) :
    chainKeyFrom env s 2 (ContainerKey.ofRank rank) 0 =
      { provider_index_ := rank, group_0 := a.display_text.chars,
        group_1 := l.display_text.chars, group_2 := "" } := by
  have h0' : levelTexts env s (env.group_by_ 0) = some a := h0
  have h1' : levelTexts env s (env.group_by_ (0 + 1)) = some l := h1
  rw [chainKeyFrom_succ_of_some env s 1 _ 0 h0', chainKeyFrom_succ_of_some env s 0 _ _ h1']
  rfl

theorem CacheTree.keyIsPath {m : GlobalSearchModel} (h : CacheTree m) (hwf : ModelWF m) :
    KeyIsPath m := by
  intro k c hc
  obtain ⟨it, p, h1, h2, _, _, h5, h6, h7⟩ := h.bound_item hc
  obtain ⟨_, pit, hp, hrow⟩ := hwf.items.parent_valid c it p h1 h6
  refine ⟨it, p, pit, h1, h2, h5, h6, hp, hrow, ?_, ?_, ?_⟩
  · intro e1 e2
    simp [containerParent, ContainerKey.parentKey, e1, e2] at h7
    exact h7.symm
  · intro e1 e2
    simpa [containerParent, ContainerKey.parentKey, e1, e2] using h7
  · intro e2
    simpa [containerParent, ContainerKey.parentKey, e2] using h7

theorem Inv.twoContainers {env : Env} {m : GlobalSearchModel} {batches : List (List Result)}
    (h : Inv env m batches) (hct : CacheTree m) {b1 b2 : List Result} {r1 r2 : Result}
    {a1 a2 l1 l2 : LevelTexts} (hb1 : b1 ∈ batches) (hb2 : b2 ∈ batches)
    (hp : batchProvider b1 = batchProvider b2) (hr1 : r1 ∈ b1) (hr2 : r2 ∈ b2)
    (g1 : r1.group_automatically_ = true) (g2 : r2.group_automatically_ = true)
    (h01 : levelTexts env r1.metadata_ env.group_by_0 = some a1)
    (h02 : levelTexts env r2.metadata_ env.group_by_0 = some a2)
    (h11 : levelTexts env r1.metadata_ env.group_by_1 = some l1)
    (h12 : levelTexts env r2.metadata_ env.group_by_1 = some l2)
    (hdiff : a1.display_text.chars ≠ a2.display_text.chars)
    (hsame : l1.display_text.chars = l2.display_text.chars)
    (hne : l1.display_text.chars ≠ "") :
    TwoContainers m (rankOf env (firstSeen (batches.map batchProvider)) (batchProvider b1))
      a1.display_text.chars a2.display_text.chars l1.display_text.chars := by
  have hwf := h.filed.wf
  have hpath := hct.keyIsPath hwf
  have hact : env.group_by_0 ≠ GroupBy_None := by
    intro hn
    rw [hn] at h01
    cases h01
  have hx1 := mem_ranked env (firstSeen (batches.map batchProvider)) hb1 hr1
  have hx2 := mem_ranked env (firstSeen (batches.map batchProvider)) hb2 hr2
  rw [← hp] at hx2
  obtain ⟨p, hp1⟩ := Option.isSome_iff_exists.mp (h.filed.cached _ hx1 g1 hact 0 (by omega))
  obtain ⟨q, hq1⟩ := Option.isSome_iff_exists.mp (h.filed.cached _ hx2 g2 hact 0 (by omega))
  obtain ⟨c, hc1⟩ := Option.isSome_iff_exists.mp (h.filed.cached _ hx1 g1 hact 1 (by omega))
  obtain ⟨d, hd1⟩ := Option.isSome_iff_exists.mp (h.filed.cached _ hx2 g2 hact 1 (by omega))
  simp only [Nat.zero_add] at hp1 hq1
  rw [chainKeyFrom_one env _ _ h01] at hp1
  rw [chainKeyFrom_one env _ _ h02] at hq1
  rw [show 1 + 1 = 2 from rfl, chainKeyFrom_two env _ _ h01 h11] at hc1
  rw [show 1 + 1 = 2 from rfl, chainKeyFrom_two env _ _ h02 h12, ← hsame] at hd1
  have hpq : p ≠ q := by
    intro e
    rw [e] at hp1
    have := hwf.lookup_inj hp1 hq1
    exact hdiff (congrArg ContainerKey.group_0 this)
  have hcd : c ≠ d := by
    intro e
    rw [e] at hc1
    have := hwf.lookup_inj hc1 hd1
    exact hdiff (congrArg ContainerKey.group_0 this)
  obtain ⟨pit, pp, _, hpi, _, _, hpp, _, _, hproot, _, _⟩ := hpath _ _ hp1
  obtain ⟨qit, qp, _, hqi, _, _, hqp, _, _, hqroot, _, _⟩ := hpath _ _ hq1
  obtain ⟨cit, cp, cpit, hci, _, _, hcp, hcpi, hcrow, _, hcpar, _⟩ := hpath _ _ hc1
  obtain ⟨dit, dp, dpit, hdi, _, _, hdp, hdpi, hdrow, _, hdpar, _⟩ := hpath _ _ hd1
  have e1 : pp = invisibleRootItem := hproot rfl rfl
  have e2 : qp = invisibleRootItem := hqroot rfl rfl
  have e3 : cp = p := by
    have := hcpar hne rfl
    rw [hp1] at this
    exact (Option.some.inj this).symm
  have e4 : dp = q := by
    have := hdpar hne rfl
    rw [hq1] at this
    exact (Option.some.inj this).symm
  subst e1 e2 e3 e4
  rw [hpi] at hcpi
  cases hcpi
  rw [hqi] at hdpi
  cases hdpi
  refine ⟨cp, dp, c, d, pit, qit, cit, dit, hp1, hq1, hc1, hd1, hpq, hcd, hpi, hqi, hci, hdi,
    hpp, hqp, hcp, hdp, hcrow, hdrow, ?_, ?_⟩
  · intro hmem
    obtain ⟨cit', hci', hpar⟩ := hwf.items.rows_valid dp qit hqi c hmem
    rw [hci] at hci'
    cases hci'
    rw [hcp] at hpar
    exact hpq (Option.some.inj hpar)
  · intro hmem
    obtain ⟨dit', hdi', hpar⟩ := hwf.items.rows_valid cp pit hpi d hmem
    rw [hdi] at hdi'
    cases hdi'
    rw [hdp] at hpar
    exact hpq (Option.some.inj hpar).symm

theorem toDigitsCore_ne_nil (b : Nat) :
    ∀ (fuel n : Nat) (ds : List Char), fuel ≠ 0 ∨ ds ≠ [] → Nat.toDigitsCore b fuel n ds ≠ [] := by
  intro fuel
  induction fuel with
  | zero =>
    intro n ds h
    rcases h with h | h
    · exact absurd rfl h
    · simpa [Nat.toDigitsCore] using h
  | succ fuel ih =>
    intro n ds _
    simp only [Nat.toDigitsCore]
    split
    · simp
    · exact ih _ _ (Or.inr (by simp))

theorem nat_repr_ne_empty (n : Nat) : Nat.repr n ≠ "" := by
  intro h
  have h1 : (Nat.toDigits 10 n) ≠ [] := toDigitsCore_ne_nil 10 (n + 1) n [] (Or.inl (by omega))
  apply h1
  have := congrArg String.data h
  simpa [Nat.repr, List.asString] using this

theorem int_toString_ne_empty (y : Int) : toString y ≠ "" := by
  cases y with
  | ofNat n =>
    show Nat.repr n ≠ ""
    exact nat_repr_ne_empty n
  | negSucc n =>
    intro h
    have := congrArg String.length h
    simp [toString, Int.repr] at this
    exact absurd this.1 (by decide)

/-- C18: after a `Clear` and any calls with non-empty batches (further `Clear` calls
included), under one configuration, the model is returned and the key of a container is
its whole path.  The container cached under a key with values at two levels has as parent
the container cached under the key with the first value only, the container cached under a
key with a third value has as parent the one cached under the key without it, and a
container cached under a key with one value is a row of the root.  For two grouped results
of batches of one provider whose first-level texts differ and whose second-level texts are
equal and not empty, the keys of both paths are cached, the two second-level containers
are different items, and each is a row of the first-level container of its own result and
not of the other.  The text of a level is never empty for the modes that go through
`TextOrUnknown` and for `GroupBy_Year`. -/
theorem container_key_is_path (env : Env) (m0 : GlobalSearchModel) (ops : List Op)
    (hne : ∀ results, Op.addResults results ∈ ops → results ≠ []) :
    ∃ m, run env (Op.clear :: ops) m0 = some m ∧ KeyIsPath m ∧
      (∀ (b1 b2 : List Result) (r1 r2 : Result) (a1 a2 l1 l2 : LevelTexts),
        b1 ∈ batchesSinceClear ops [] → b2 ∈ batchesSinceClear ops [] →
        batchProvider b1 = batchProvider b2 → r1 ∈ b1 → r2 ∈ b2 →
        r1.group_automatically_ = true → r2.group_automatically_ = true →
        levelTexts env r1.metadata_ env.group_by_0 = some a1 →
        levelTexts env r2.metadata_ env.group_by_0 = some a2 →
        levelTexts env r1.metadata_ env.group_by_1 = some l1 →
        levelTexts env r2.metadata_ env.group_by_1 = some l2 →
        a1.display_text.chars ≠ a2.display_text.chars →
        l1.display_text.chars = l2.display_text.chars →
        l1.display_text.chars ≠ "" →
        TwoContainers m (rankOf env (providersSeen ops) (batchProvider b1))
          a1.display_text.chars a2.display_text.chars l1.display_text.chars) ∧
      (∀ (s : Song) (g : GroupBy) (t : LevelTexts),
        g = GroupBy_Artist ∨ g = GroupBy_Album ∨ g = GroupBy_AlbumArtist ∨
          g = GroupBy_Composer ∨ g = GroupBy_Genre ∨ g = GroupBy_Year →
        levelTexts env s g = some t → t.display_text.chars ≠ "") := by
  obtain ⟨m, hm, hinv⟩ := run_clear_inv env m0 ops hne
  have hct := run_clear_cacheTree env m0 m ops hm
  refine ⟨m, hm, hct.keyIsPath hinv.filed.wf, ?_, ?_⟩
  · intro b1 b2 r1 r2 a1 a2 l1 l2 hb1 hb2 hp hr1 hr2 g1 g2 h01 h02 h11 h12 hdiff hsame hne1
    exact hinv.twoContainers hct hb1 hb2 hp hr1 hr2 g1 g2 h01 h02 h11 h12 hdiff hsame hne1
  · intro s g t hg ht
    rcases hg with rfl | rfl | rfl | rfl | rfl | rfl
    all_goals
      simp only [levelTexts, caseGenre, caseAlbum, caseAlbumArtist] at ht
      cases ht
      first
        | exact TextOrUnknown_chars_ne _
        | exact int_toString_ne_empty _

/-- The album "Greatest Hits" under the artists "Blur" and "Queen", levels
`[Artist, Album, None]`: two album containers, item 3 under "Blur" (item 2) and item 6
under "Queen" (item 5). -/
theorem container_key_is_path_witness :
    (∀ results, Op.addResults results ∈ [Op.addResults albumBatch] → results ≠ []) ∧
    (run albumEnv [Op.clear, Op.addResults albumBatch] exampleModel).map
        (fun m => m.items.map (fun it => (it.text, it.parent, it.rows))) =
      some [ (.null, none, [1, 2, 5]), (.str "1", some 0, []),
             (.str "Blur", some 0, [3]), (.str "Greatest Hits", some 2, [4]),
             (.str "A", some 3, []),
             (.str "Queen", some 0, [6]), (.str "Greatest Hits", some 5, [7]),
             (.str "B", some 6, []) ] ∧
    ∃ m, run albumEnv (Op.clear :: [Op.addResults albumBatch]) exampleModel = some m ∧
      KeyIsPath m ∧ TwoContainers m 1000 "Blur" "Queen" "Greatest Hits" := by
  have hne : ∀ results, Op.addResults results ∈ [Op.addResults albumBatch] →
      results ≠ [] := by
    intro results h; simp at h; subst h; simp [albumBatch]
  refine ⟨hne, by decide, ?_⟩
  obtain ⟨m, hm, hpath, htwo, _⟩ :=
    container_key_is_path albumEnv exampleModel [Op.addResults albumBatch] hne
  have hrank : rankOf albumEnv (providersSeen [Op.addResults albumBatch])
      (batchProvider albumBatch) = 1000 := by decide
  have h := htwo albumBatch albumBatch
    { provider_ := 1, metadata_ := albumSong "Blur" "Greatest Hits" "A",
      group_automatically_ := true }
    { provider_ := 1, metadata_ := albumSong "Queen" "Greatest Hits" "B",
      group_automatically_ := true }
    { display_text := .str "Blur", sort_text := .str "Blur", has_artist_icon := true,
      has_album_icon := false }
    { display_text := .str "Queen", sort_text := .str "Queen", has_artist_icon := true,
      has_album_icon := false }
    { display_text := .str "Greatest Hits", sort_text := .str "Greatest Hits",
      has_artist_icon := false, has_album_icon := true }
    { display_text := .str "Greatest Hits", sort_text := .str "Greatest Hits",
      has_artist_icon := false, has_album_icon := true }
    (by simp [batchesSinceClear]) (by simp [batchesSinceClear]) rfl
    (by simp [albumBatch]) (by simp [albumBatch]) rfl rfl
    (by decide) (by decide) (by decide) (by decide) (by decide) rfl (by decide)
  rw [hrank] at h
  exact ⟨m, hm, hpath, h⟩

/-! ## Ranks of different providers -/

theorem mem_takeWhile_ne_or (l : List SearchProvider) {p q : SearchProvider}
    (hp : p ∈ l) (hq : q ∈ l) (hne : p ≠ q) :
    p ∈ l.takeWhile (fun x => decide (x ≠ q)) ∨ q ∈ l.takeWhile (fun x => decide (x ≠ p)) := by
  induction l with
  | nil => cases hp
  | cons a l ih =>
    by_cases hap : a = p
    · left
      subst hap
      rw [List.takeWhile_cons_of_pos (by simpa using hne)]
      exact List.mem_cons_self _ _
    · by_cases haq : a = q
      · right
        subst haq
        rw [List.takeWhile_cons_of_pos (by simpa using hap)]
        exact List.mem_cons_self _ _
      · have hp' : p ∈ l := by
          rcases List.mem_cons.mp hp with h | h
          · exact absurd h.symm hap
          · exact h
        have hq' : q ∈ l := by
          rcases List.mem_cons.mp hq with h | h
          · exact absurd h.symm haq
          · exact h
        rw [List.takeWhile_cons_of_pos (by simpa using haq),
          List.takeWhile_cons_of_pos (by simpa using hap)]
        rcases ih hp' hq' with h | h
        · exact Or.inl (List.mem_cons_of_mem _ h)
        · exact Or.inr (List.mem_cons_of_mem _ h)

theorem not_mem_takeWhile_ne (l : List SearchProvider) (p : SearchProvider) :
    p ∉ l.takeWhile (fun x => decide (x ≠ p)) := by
  intro h
  have := List.mem_takeWhile_imp h
  simp at this

/-- The providers before `p` in a list that holds `p`, counted by a predicate, are fewer
than the length of the list, and, when `p` counts, fewer than those before a provider
that `p` is before. -/
theorem filter_takeWhile_lt (P : SearchProvider → Bool) (l : List SearchProvider)
    {p q : SearchProvider} (hP : P p = true)
    (hpq : p ∈ l.takeWhile (fun x => decide (x ≠ q))) :
    ((l.takeWhile (fun x => decide (x ≠ p))).filter P).length <
      ((l.takeWhile (fun x => decide (x ≠ q))).filter P).length := by
  have hsplit : l = l.takeWhile (fun x => decide (x ≠ q)) ++
      l.dropWhile (fun x => decide (x ≠ q)) := (List.takeWhile_append_dropWhile _ l).symm
  have h1 : l.takeWhile (fun x => decide (x ≠ p)) =
      (l.takeWhile (fun x => decide (x ≠ q))).takeWhile (fun x => decide (x ≠ p)) := by
    conv_lhs => rw [hsplit]
    exact takeWhile_ne_append_of_mem _ _ hpq
  rw [h1]
  have hsplit2 := List.takeWhile_append_dropWhile (fun x => decide (x ≠ p))
    (l.takeWhile (fun x => decide (x ≠ q)))
  have hmem : p ∈ (l.takeWhile (fun x => decide (x ≠ q))).dropWhile
      (fun x => decide (x ≠ p)) := by
    rw [← hsplit2] at hpq
    rcases List.mem_append.mp hpq with h | h
    · exact absurd h (not_mem_takeWhile_ne _ p)
    · exact h
  have hpos : 0 < (((l.takeWhile (fun x => decide (x ≠ q))).dropWhile
      (fun x => decide (x ≠ p))).filter P).length :=
    List.length_pos_of_mem (List.mem_filter.mpr ⟨hmem, hP⟩)
  conv_rhs => rw [← hsplit2]
  rw [List.filter_append, List.length_append]
  omega

theorem length_takeWhile_ne_lt (l : List SearchProvider) {p : SearchProvider} (hp : p ∈ l) :
    (l.takeWhile (fun x => decide (x ≠ p))).length < l.length := by
  have hsplit := List.takeWhile_append_dropWhile (fun x => decide (x ≠ p)) l
  have hmem : p ∈ l.dropWhile (fun x => decide (x ≠ p)) := by
    rw [← hsplit] at hp
    rcases List.mem_append.mp hp with h | h
    · exact absurd h (not_mem_takeWhile_ne _ p)
    · exact h
  have hpos := List.length_pos_of_mem hmem
  have := congrArg List.length hsplit
  rw [List.length_append] at this
  omega

theorem rankOf_configured (env : Env) (seen : List SearchProvider) (p : SearchProvider)
    (h : env.provider_id p ∈ env.provider_order_) :
    rankOf env seen p = ((env.provider_order_.indexOf (env.provider_id p) : Nat) : Int) := by
  simp [rankOf, specRank, h]

theorem rankOf_first_seen (env : Env) (seen : List SearchProvider) (p : SearchProvider)
    (h : env.provider_id p ∉ env.provider_order_) :
    rankOf env seen p = 1000 + (((seen.takeWhile (fun q => decide (q ≠ p))).filter
      (fun q => decide (env.provider_id q ∉ env.provider_order_))).length : Nat) := by
  simp [rankOf, specRank, h]

/-- Ranks of the providers of a list, when the preference order has at most 1000 entries
and the providers of the list have distinct ids. -/
theorem rankOf_separate (env : Env) (seen : List SearchProvider)
    (hlen : env.provider_order_.length ≤ 1000)
    (hinj : ∀ p ∈ seen, ∀ q ∈ seen, env.provider_id p = env.provider_id q → p = q) :
    (∀ p ∈ seen, env.provider_id p ∈ env.provider_order_ →
      0 ≤ rankOf env seen p ∧ rankOf env seen p < 1000) ∧
    (∀ p ∈ seen, env.provider_id p ∉ env.provider_order_ →
      1000 ≤ rankOf env seen p ∧ rankOf env seen p < 1000 + (seen.length : Nat)) ∧
    (∀ p ∈ seen, ∀ q ∈ seen, env.provider_id p ∉ env.provider_order_ →
      env.provider_id q ∉ env.provider_order_ →
      p ∈ seen.takeWhile (fun x => decide (x ≠ q)) → rankOf env seen p < rankOf env seen q) ∧
    (∀ p ∈ seen, ∀ q ∈ seen, p ≠ q → rankOf env seen p ≠ rankOf env seen q) := by
  have hconf : ∀ p ∈ seen, env.provider_id p ∈ env.provider_order_ →
      0 ≤ rankOf env seen p ∧ rankOf env seen p < 1000 := by
    intro p _ hc
    rw [rankOf_configured env seen p hc]
    have := List.indexOf_lt_length.mpr hc
    omega
  have hfirst : ∀ p ∈ seen, env.provider_id p ∉ env.provider_order_ →
      1000 ≤ rankOf env seen p ∧ rankOf env seen p < 1000 + (seen.length : Nat) := by
    intro p hp hc
    rw [rankOf_first_seen env seen p hc]
    have h1 := List.length_filter_le
      (fun q => decide (env.provider_id q ∉ env.provider_order_))
      (seen.takeWhile (fun q => decide (q ≠ p)))
    have h2 := length_takeWhile_ne_lt seen hp
    omega
  have hlt : ∀ p ∈ seen, ∀ q ∈ seen, env.provider_id p ∉ env.provider_order_ →
      env.provider_id q ∉ env.provider_order_ →
      p ∈ seen.takeWhile (fun x => decide (x ≠ q)) →
      rankOf env seen p < rankOf env seen q := by
    intro p _ q _ hcp hcq hpq
    rw [rankOf_first_seen env seen p hcp, rankOf_first_seen env seen q hcq]
    have := filter_takeWhile_lt (fun q => decide (env.provider_id q ∉ env.provider_order_))
      seen (by simpa using hcp) hpq
    omega
  refine ⟨hconf, hfirst, hlt, ?_⟩
  intro p hp q hq hne heq
  by_cases hcp : env.provider_id p ∈ env.provider_order_
  · by_cases hcq : env.provider_id q ∈ env.provider_order_
    · rw [rankOf_configured env seen p hcp, rankOf_configured env seen q hcq] at heq
      have hidx : env.provider_order_.indexOf (env.provider_id p) =
          env.provider_order_.indexOf (env.provider_id q) := by exact_mod_cast heq
      exact hne (hinj p hp q hq ((List.indexOf_inj hcp hcq).mp hidx))
    · have h1 := (hconf p hp hcp).2
      have h2 := (hfirst q hq hcq).1
      omega
  · by_cases hcq : env.provider_id q ∈ env.provider_order_
    · have h1 := (hconf q hq hcq).2
      have h2 := (hfirst p hp hcp).1
      omega
    · rcases mem_takeWhile_ne_or seen hp hq hne with h | h
      · have := hlt p hp q hq hcp hcq h
        omega
      · have := hlt q hq p hp hcq hcp h
        omega

/-- C19: starting from a cleared model, with any calls with non-empty batches after it,
if the preference order has at most 1000 entries and the providers seen have distinct ids,
then the model is returned and: every provider seen is bound to its rank; the rank of a
provider whose id is in the preference order is below 1000; the rank of a provider whose
id is not is 1000 or more and greater than the rank of every such provider first seen
before it; different providers seen have different ranks; the keys of their walks differ
for every two songs, also songs with the same values at every level; and cached containers
carrying the ranks of two different providers have different keys and are different items.
Ranks are unbounded integers here; they stay below 1000 plus the number of providers
seen. -/
theorem provider_ranks_separate (env : Env) (m0 : GlobalSearchModel) (ops : List Op)
    (hne : ∀ results, Op.addResults results ∈ ops → results ≠ [])
    (hlen : env.provider_order_.length ≤ 1000)
    (hinj : ∀ p ∈ providersSeen ops, ∀ q ∈ providersSeen ops,
      env.provider_id p = env.provider_id q → p = q) :
    ∃ m, run env (Op.clear :: ops) m0 = some m ∧ RanksSeparate env m (providersSeen ops) := by
  obtain ⟨m, hm, hinv⟩ := run_clear_inv env m0 ops hne
  obtain ⟨h1, h2, h3, h4⟩ := rankOf_separate env (providersSeen ops) hlen hinj
  refine ⟨m, hm, ?_, h1, h2, h3, h4, ?_, ?_⟩
  · intro p hp
    have := hinv.registry.ranks p
    rw [if_pos (show p ∈ firstSeen _ from hp)] at this
    exact this
  · intro p hp q hq hpq s s' j j' hkey
    have := congrArg ContainerKey.provider_index_ hkey
    rw [chainKeyFrom_provider_index, chainKeyFrom_provider_index] at this
    exact h4 p hp q hq hpq this
  · intro p hp q hq hpq k k' c c' it it' hk hk' hi hi' hr hr'
    have hbij := (run_clear_cacheTree env m0 m ops hm).bijection hinv.filed.wf
    obtain ⟨_, it1, g1, _, g3⟩ := hbij.2.2.2.2 k c hk
    obtain ⟨_, it2, g1', _, g3'⟩ := hbij.2.2.2.2 k' c' hk'
    rw [hi] at g1
    cases g1
    rw [hi'] at g1'
    cases g1'
    have hkk : k ≠ k' := by
      intro e
      subst e
      rw [hr] at g3
      rw [hr'] at g3'
      exact h4 p hp q hq hpq ((Option.some.inj g3).trans (Option.some.inj g3').symm)
    refine ⟨hkk, ?_⟩
    intro e
    subst e
    obtain ⟨_, k0, _, huniq⟩ := hbij.1 c it hi (by
      obtain ⟨_, it3, g4, g5, _⟩ := hbij.2.2.2.2 k c hk
      rw [hi] at g4
      cases g4
      exact g5)
    exact hkk ((huniq k hk).trans (huniq k' hk').symm)

/-- Preference order `[P2, P1]` and the same song from the providers 1, 2 and 3: the ranks
are 1, 0 and 1000, and the three "Radiohead" containers are cached under three keys. -/
theorem provider_ranks_separate_witness :
    (∀ results, Op.addResults results ∈
        [Op.addResults (singleBatch 1), Op.addResults (singleBatch 2),
          Op.addResults (singleBatch 3)] → results ≠ []) ∧
    preferenceEnv.provider_order_.length ≤ 1000 ∧
    (∀ p ∈ providersSeen [Op.addResults (singleBatch 1), Op.addResults (singleBatch 2),
        Op.addResults (singleBatch 3)],
      ∀ q ∈ providersSeen [Op.addResults (singleBatch 1), Op.addResults (singleBatch 2),
        Op.addResults (singleBatch 3)],
      preferenceEnv.provider_id p = preferenceEnv.provider_id q → p = q) ∧
    (run preferenceEnv [Op.clear, Op.addResults (singleBatch 1),
        Op.addResults (singleBatch 2), Op.addResults (singleBatch 3)] exampleModel).map
      (fun m => m.containers_.map (fun e => (e.1.provider_index_, e.1.group_0, e.2))) =
        some [(1000, "Radiohead", 8), (0, "Radiohead", 5), (1, "Radiohead", 2)] ∧
    ∃ m, run preferenceEnv (Op.clear :: [Op.addResults (singleBatch 1),
        Op.addResults (singleBatch 2), Op.addResults (singleBatch 3)]) exampleModel = some m ∧
      RanksSeparate preferenceEnv m (providersSeen [Op.addResults (singleBatch 1),
        Op.addResults (singleBatch 2), Op.addResults (singleBatch 3)]) :=
  ⟨by intro results h; simp at h; rcases h with h | h | h <;> subst h <;> simp [singleBatch],
   by decide, by decide, by decide,
   provider_ranks_separate preferenceEnv exampleModel _
     (by intro results h; simp at h; rcases h with h | h | h <;> subst h <;>
      simp [singleBatch])
     (by decide) (by decide)⟩

/-! ## GetChildResults against the depth-first traversal of the claim -/

theorem specVisit_append (v l1 l2 : List Nat) :
    specVisit v (l1 ++ l2) = specVisit (specVisit v l1) l2 := by
  simp [specVisit, List.foldl_append]

theorem specVisit_of_subset : ∀ (l v : List Nat), (∀ x ∈ l, x ∈ v) → specVisit v l = v := by
  intro l
  induction l with
  | nil => intro v _; rfl
  | cons a l ih =>
    intro v h
    have ha : a ∈ v := h a (List.mem_cons_self _ _)
    show specVisit (if a ∈ v then v else v ++ [a]) l = v
    rw [if_pos ha]
    exact ih v (fun x hx => h x (List.mem_cons_of_mem _ hx))

theorem specVisit_singleton_new {v : List Nat} {x : Nat} (h : x ∉ v) :
    specVisit v [x] = v ++ [x] := by
  show (if x ∈ v then v else v ++ [x]) = v ++ [x]
  rw [if_neg h]

theorem mem_specLeavesBelow (items : List QStandardItem) :
    ∀ (fuel x v : Nat), v ∈ specLeavesBelow items fuel x →
      Childless items v ∧ Desc items x v := by
  intro fuel
  induction fuel with
  | zero =>
    intro x v h
    cases h
  | succ fuel ih =>
    intro x v h
    cases hx : items[x]? with
    | none =>
      simp only [specLeavesBelow, hx] at h
      cases h
    | some it =>
      simp only [specLeavesBelow, hx] at h
      by_cases hrows : it.rows = []
      · rw [if_pos hrows, List.mem_singleton] at h
        subst h
        exact ⟨⟨it, hx, hrows⟩, Desc.refl _⟩
      · rw [if_neg hrows, List.mem_flatMap] at h
        obtain ⟨c, hc, hv⟩ := h
        obtain ⟨h1, h2⟩ := ih c v hv
        exact ⟨h1, Desc.step x c v it hx hc h2⟩

/-- Folding a step that emits, for each node, the first visits of the nodes listed for it
emits the first visits of the nodes listed for the whole list. -/
theorem foldl_traced (m : GlobalSearchModel) (dflt : Result)
    (f : List Result × List Nat → Nat → List Result × List Nat) (g : Nat → List Nat)
    (b : Nat)
    (hf : ∀ (c : Nat) (acc : List Result × List Nat) (ids : List Nat),
      c < m.items.length → b ≤ c → Collected m dflt acc ids → ClosedFrom m.items acc.2 c →
      Collected m dflt (f acc c) (specVisit ids (g c)) ∧
        ∀ j, j ∈ (f acc c).2 ↔ j ∈ acc.2 ∨ Desc m.items c j) :
    ∀ (cs : List Nat) (acc : List Result × List Nat) (ids : List Nat),
      (∀ c ∈ cs, c < m.items.length ∧ b ≤ c) → Collected m dflt acc ids →
      ClosedFrom m.items acc.2 b →
      Collected m dflt (cs.foldl f acc) (specVisit ids (cs.flatMap g)) ∧
        (∀ j, j ∈ (cs.foldl f acc).2 ↔ j ∈ acc.2 ∨ ReachedFrom m.items cs j) ∧
        ClosedFrom m.items (cs.foldl f acc).2 b := by
  intro cs
  induction cs with
  | nil =>
    intro acc ids _ hcol hclosed
    refine ⟨hcol, ?_, hclosed⟩
    intro j
    simp [ReachedFrom]
  | cons c rest ih =>
    intro acc ids hcs hcol hclosed
    obtain ⟨hclt, hbc⟩ := hcs c (List.mem_cons_self _ _)
    have hclosedc : ClosedFrom m.items acc.2 c :=
      fun v hv hle j hd => hclosed v hv (Nat.le_trans hbc hle) j hd
    obtain ⟨hcol1, hvis1⟩ := hf c acc ids hclt hbc hcol hclosedc
    have hclosed1 : ClosedFrom m.items (f acc c).2 b := by
      intro v hv hle j hd
      rcases (hvis1 v).mp hv with hv | hv
      · exact (hvis1 j).mpr (Or.inl (hclosed v hv hle j hd))
      · exact (hvis1 j).mpr (Or.inr (desc_trans hv hd))
    obtain ⟨hcol2, hvis2, hclosed2⟩ := ih (f acc c) (specVisit ids (g c))
      (fun x hx => hcs x (List.mem_cons_of_mem _ hx)) hcol1 hclosed1
    rw [List.flatMap_cons, specVisit_append]
    refine ⟨hcol2, ?_, hclosed2⟩
    intro j
    rw [List.foldl_cons, hvis2 j, hvis1 j]
    constructor
    · rintro ((h | h) | ⟨x, hx, hd⟩)
      · exact Or.inl h
      · exact Or.inr ⟨c, List.mem_cons_self _ _, h⟩
      · exact Or.inr ⟨x, List.mem_cons_of_mem _ hx, hd⟩
    · rintro (h | ⟨x, hx, hd⟩)
      · exact Or.inl (Or.inl h)
      · rcases List.mem_cons.mp hx with rfl | hx
        · exact Or.inl (Or.inr hd)
        · exact Or.inr ⟨x, hx, hd⟩

/-- With depth to spare, the recursive `GetChildResults` on an item emits the values of
the first visits of the childless nodes that the depth-first walk of the claim lists for
the item, and visits the item and everything below it. -/
theorem GetChildResultsRec_trace (m : GlobalSearchModel) (dflt : Result)
    (hwf : ItemsWF m.items) :
    ∀ (depth item : Nat) (acc : List Result × List Nat) (ids : List Nat),
      item < m.items.length → m.items.length - item ≤ depth →
      Collected m dflt acc ids → ClosedFrom m.items acc.2 item →
      Collected m dflt (GetChildResultsRec m dflt depth item acc)
          (specVisit ids (specLeavesBelow m.items depth item)) ∧
        ∀ j, j ∈ (GetChildResultsRec m dflt depth item acc).2 ↔
          j ∈ acc.2 ∨ Desc m.items item j := by
  intro depth
  induction depth with
  | zero =>
    intro item acc ids hlt hdepth _ _
    omega
  | succ depth ih =>
    intro item acc ids hlt hdepth hcol hclosed
    have hit : m.items[item]? = some m.items[item] := List.getElem?_eq_getElem hlt
    by_cases hvis : item ∈ acc.2
    · have hrec : GetChildResultsRec m dflt (depth + 1) item acc = acc := by
        rw [GetChildResultsRec, if_pos hvis]
      rw [hrec]
      have hsub : ∀ v ∈ specLeavesBelow m.items (depth + 1) item, v ∈ ids := by
        intro v hv
        obtain ⟨hch, hd⟩ := mem_specLeavesBelow m.items _ _ _ hv
        exact (hcol.mem v).mpr ⟨hclosed item hvis (Nat.le_refl _) v hd, hch⟩
      rw [specVisit_of_subset _ _ hsub]
      refine ⟨hcol, fun j => ⟨Or.inl, ?_⟩⟩
      rintro (h | h)
      · exact h
      · exact hclosed item hvis (Nat.le_refl _) j h
    · by_cases hrows : m.items[item].rows = []
      · have hrec : GetChildResultsRec m dflt (depth + 1) item acc =
            (acc.1 ++ [resultValue dflt m.items[item]], item :: acc.2) := by
          rw [GetChildResultsRec, if_neg hvis]
          simp only [hit, hrows, ne_eq, not_true_eq_false, if_false]
        rw [hrec]
        have hnotin : item ∉ ids := fun h => hvis ((hcol.mem item).mp h).1
        have hleaves : specLeavesBelow m.items (depth + 1) item = [item] := by
          simp only [specLeavesBelow, hit, hrows, if_true]
        rw [hleaves, specVisit_singleton_new hnotin]
        refine ⟨⟨?_, ?_, ?_⟩, ?_⟩
        · simp [hcol.results_eq, valueAt, hit]
        · exact List.Nodup.append hcol.nodup (List.nodup_singleton _)
            (by intro a ha ha2; rw [List.mem_singleton] at ha2; subst ha2; exact hnotin ha)
        · intro i
          simp only [List.mem_append, List.mem_cons, List.not_mem_nil, or_false]
          constructor
          · rintro (h | rfl)
            · exact ⟨Or.inr ((hcol.mem i).mp h).1, ((hcol.mem i).mp h).2⟩
            · exact ⟨Or.inl rfl, _, hit, hrows⟩
          · rintro ⟨rfl | h, hch⟩
            · exact Or.inr rfl
            · exact Or.inl ((hcol.mem i).mpr ⟨h, hch⟩)
        · intro j
          simp only [List.mem_cons]
          constructor
          · rintro (rfl | h)
            · exact Or.inr (Desc.refl _)
            · exact Or.inl h
          · rintro (h | h)
            · exact Or.inr h
            · exact Or.inl (Desc.eq_of_childless hit hrows h)
      · have hrec : GetChildResultsRec m dflt (depth + 1) item acc =
            m.items[item].rows.foldl (fun a child => GetChildResultsRec m dflt depth child a)
              (acc.1, item :: acc.2) := by
          rw [GetChildResultsRec, if_neg hvis]
          simp only [hit, hrows, ne_eq, not_false_eq_true, if_true]
        rw [hrec]
        have hleaves : specLeavesBelow m.items (depth + 1) item =
            m.items[item].rows.flatMap (specLeavesBelow m.items depth) := by
          simp only [specLeavesBelow, hit, hrows, if_false]
        rw [hleaves]
        have hcol0 : Collected m dflt (acc.1, item :: acc.2) ids := by
          refine ⟨hcol.results_eq, hcol.nodup, ?_⟩
          intro i
          simp only [List.mem_cons]
          constructor
          · intro h
            exact ⟨Or.inr ((hcol.mem i).mp h).1, ((hcol.mem i).mp h).2⟩
          · rintro ⟨rfl | h, hch⟩
            · obtain ⟨it, hi, hr⟩ := hch
              rw [hit] at hi
              cases hi
              exact absurd hr hrows
            · exact (hcol.mem i).mpr ⟨h, hch⟩
        have hclosed0 : ClosedFrom m.items (item :: acc.2) (item + 1) := by
          intro v hv hle j hd
          rcases List.mem_cons.mp hv with rfl | hv
          · omega
          · exact List.mem_cons_of_mem _ (hclosed v hv (by omega) j hd)
        have hchildren : ∀ c ∈ m.items[item].rows, c < m.items.length ∧ item + 1 ≤ c := by
          intro c hc
          obtain ⟨cit, hcit, hcp⟩ := hwf.rows_valid item _ hit c hc
          exact ⟨(List.getElem?_eq_some_iff.mp hcit).1,
            (hwf.parent_valid c cit item hcit hcp).1⟩
        obtain ⟨hcol', hvis', _⟩ := foldl_traced m dflt
          (fun a child => GetChildResultsRec m dflt depth child a)
          (specLeavesBelow m.items depth) (item + 1)
          (fun c a ids0 hc hle hcola hcla => ih c a ids0 hc (by omega) hcola hcla)
          m.items[item].rows (acc.1, item :: acc.2) ids hchildren hcol0 hclosed0
        refine ⟨hcol', ?_⟩
        intro j
        rw [hvis' j, Desc.iff_rows hit j]
        simp only [List.mem_cons, ReachedFrom]
        constructor
        · rintro ((rfl | h) | h)
          · exact Or.inr (Or.inl rfl)
          · exact Or.inl h
          · exact Or.inr (Or.inr h)
        · rintro (h | rfl | h)
          · exact Or.inl (Or.inr h)
          · exact Or.inl (Or.inl rfl)
          · exact Or.inr h

/-- The item store of the model of the scenario is well formed. -/
theorem scenarioModel_itemsWF : ItemsWF scenarioModel.items := by
  obtain ⟨m, hm, hinv⟩ := run_clear_inv exampleEnv exampleModel [Op.addResults exampleBatch]
    (by intro results h; simp at h; subst h; simp [exampleBatch])
  have hrun : run exampleEnv (Op.clear :: [Op.addResults exampleBatch]) exampleModel =
      some scenarioModel := by decide
  rw [hrun] at hm
  cases hm
  exact hinv.filed.wf.items

/-- C14: on a well-formed item store and for every list of nodes of the store,
`GetChildResults` returns exactly the list that the traversal of the claim gives
(`specGetChildResults`): the depth-first walks in sibling order from the input nodes in
input order, of which the first visit of each childless node counts, one visited set for
the whole call, each such node giving its `Role_Result` data.  The nodes of that traversal
are distinct and are exactly the childless nodes reached from the input, nodes with
children are not among them, and the output has one entry per node of the traversal, so
its length is the number of distinct childless nodes reachable from the input. -/
theorem GetChildResults_is_depth_first (m : GlobalSearchModel) (dflt : Result)
    (hwf : ItemsWF m.items) (nodes : List Nat) (hnodes : ∀ n ∈ nodes, n < m.items.length) :
    GetChildResults m dflt nodes = specGetChildResults m dflt nodes ∧
    (specTraversal m nodes).Nodup ∧
    (∀ i, i ∈ specTraversal m nodes ↔ Childless m.items i ∧ ReachedFrom m.items nodes i) ∧
    (∀ i ∈ specTraversal m nodes, ∀ it, m.items[i]? = some it → it.rows = []) ∧
    (GetChildResults m dflt nodes).length = (specTraversal m nodes).length := by
  obtain ⟨hcol, hvis, _⟩ := foldl_traced m dflt
    (fun a item => GetChildResultsRec m dflt (m.items.length + 1) item a)
    (specLeavesBelow m.items (m.items.length + 1)) 0
    (fun c a ids0 hc _ hcola hcla =>
      GetChildResultsRec_trace m dflt hwf (m.items.length + 1) c a ids0 hc (by omega)
        hcola hcla)
    nodes ([], []) [] (fun c hc => ⟨hnodes c hc, Nat.zero_le _⟩)
    ⟨rfl, List.nodup_nil, by simp⟩ (by intro v hv; cases hv)
  have hres : GetChildResults m dflt nodes = specGetChildResults m dflt nodes :=
    hcol.results_eq
  have hmem : ∀ i, i ∈ specTraversal m nodes ↔
      Childless m.items i ∧ ReachedFrom m.items nodes i := by
    intro i
    have h1 := hcol.mem i
    have h2 := hvis i
    constructor
    · intro hi
      obtain ⟨hv, hch⟩ := h1.mp hi
      rcases h2.mp hv with h | h
      · cases h
      · exact ⟨hch, h⟩
    · rintro ⟨hch, hr⟩
      exact h1.mpr ⟨h2.mpr (Or.inr hr), hch⟩
  refine ⟨hres, hcol.nodup, hmem, ?_, ?_⟩
  · intro i hi it hit
    obtain ⟨⟨it', hit', hrows⟩, _⟩ := (hmem i).mp hi
    rw [hit] at hit'
    cases hit'
    exact hrows
  · rw [hres, specGetChildResults, List.length_map]

/-- The scenario: from the nodes "Muse" (5), leaf A (3), "Radiohead" (2), leaf A again and
the root, the traversal emits the leaves 6, 3, 4 and then the divider 1, which has no
children either. -/
theorem GetChildResults_is_depth_first_witness :
    ItemsWF scenarioModel.items ∧
    (∀ n ∈ [5, 3, 2, 3, 0], n < scenarioModel.items.length) ∧
    specTraversal scenarioModel [5, 3, 2, 3, 0] = [6, 3, 4, 1] ∧
    GetChildResults scenarioModel exampleDefault [5, 3, 2, 3, 0] =
      specGetChildResults scenarioModel exampleDefault [5, 3, 2, 3, 0] ∧
    (specTraversal scenarioModel [5, 3, 2, 3, 0]).Nodup ∧
    (∀ i, i ∈ specTraversal scenarioModel [5, 3, 2, 3, 0] ↔
      Childless scenarioModel.items i ∧ ReachedFrom scenarioModel.items [5, 3, 2, 3, 0] i) ∧
    (∀ i ∈ specTraversal scenarioModel [5, 3, 2, 3, 0], ∀ it,
      scenarioModel.items[i]? = some it → it.rows = []) ∧
    (GetChildResults scenarioModel exampleDefault [5, 3, 2, 3, 0]).length =
      (specTraversal scenarioModel [5, 3, 2, 3, 0]).length :=
  ⟨scenarioModel_itemsWF, by decide, by decide,
   GetChildResults_is_depth_first scenarioModel exampleDefault scenarioModel_itemsWF
     [5, 3, 2, 3, 0] (by decide)⟩

/-! ## The claims on concrete calls -/

/-- C16 on the levels `[Artist, None, Album]`: one level is active, the walk creates the
"Radiohead" container as item 1 and returns it, and the model is the one built with the
levels `[Artist, None, None]`. -/
theorem BuildContainers_walks_active_levels_witness :
    activeLevels gapEnv = 1 ∧
    (BuildContainers exampleEnv (exampleSong "Radiohead" "A") (Clear exampleModel)
        invisibleRootItem (ContainerKey.ofRank 1000) 0).2 = 1 ∧
    (BuildContainers exampleEnv (exampleSong "Radiohead" "A") (Clear exampleModel)
        invisibleRootItem (ContainerKey.ofRank 1000) 0).1.containers_ =
      [({ provider_index_ := 1000, group_0 := "Radiohead", group_1 := "", group_2 := "" },
        1)] ∧
    BuildContainers gapEnv (exampleSong "Radiohead" "A") (Clear exampleModel)
        invisibleRootItem (ContainerKey.ofRank 1000) 0 =
      BuildContainers exampleEnv (exampleSong "Radiohead" "A") (Clear exampleModel)
        invisibleRootItem (ContainerKey.ofRank 1000) 0 :=
  ⟨by decide, by decide, by decide,
   (BuildContainers_walks_active_levels exampleEnv (exampleSong "Radiohead" "A")
      (Clear exampleModel) invisibleRootItem (ContainerKey.ofRank 1000)).2.2.2.2
      GroupBy_Artist GroupBy_None GroupBy_Album
      (by
        intro i hi
        have h1 : activeLevels exampleEnv = 1 := by decide
        rw [h1] at hi
        rcases Nat.le_one_iff_eq_zero_or_eq_one.mp hi with rfl | rfl <;> rfl)⟩

/-- C17 on a batch of two ungrouped results after `Clear`: the divider of provider 1 and
two leaves, all rows of the root, and an empty cache. -/
theorem ungrouped_result_under_root_witness :
    (AddResults exampleEnv (Clear exampleModel) ungroupedBatch).map
        (fun m => m.containers_) = some [] ∧
    (AddResults exampleEnv (Clear exampleModel) ungroupedBatch).map
        (fun m => m.provider_sort_indices_) = some [(1, 1000)] ∧
    (AddResults exampleEnv (Clear exampleModel) ungroupedBatch).map
        (fun m => m.items.map (fun it => (it.text, it.parent, it.rows))) =
      some [ (.null, none, [1, 2, 3]), (.str "1", some 0, []), (.str "A", some 0, []),
             (.str "B", some 0, []) ] ∧
    ∀ (rank : Int) (r : Result), r.group_automatically_ = false →
      (insertResult exampleEnv rank (Clear exampleModel) r).containers_ =
        (Clear exampleModel).containers_ ∧
      (insertResult exampleEnv rank (Clear exampleModel) r).items[
          (Clear exampleModel).items.length]? =
        some { leafItem rank r with parent := some invisibleRootItem } :=
  ⟨by decide, by decide, by decide, fun rank r hr =>
    ⟨((ungrouped_result_under_root exampleEnv (Clear exampleModel)).1 rank r hr).2.1,
     ((ungrouped_result_under_root exampleEnv (Clear exampleModel)).1 rank r hr).2.2.2.2.1⟩⟩

/-- C20 on a batch whose results name the providers 1, 2 and 3: one divider, for
provider 1, one binding, for provider 1, and all three leaves and both containers carry
the rank 1000 of provider 1. -/
theorem AddResults_reads_first_provider_witness :
    (AddResults exampleEnv (Clear exampleModel) mixedBatch).map
        (fun m => m.provider_sort_indices_) = some [(1, 1000)] ∧
    (AddResults exampleEnv (Clear exampleModel) mixedBatch).map
        (fun m => m.items.filterMap dividerData) =
      some [(Icon.provider_icon 1, .str "1", 1000)] ∧
    (AddResults exampleEnv (Clear exampleModel) mixedBatch).map
        (fun m => m.items.map (fun it => (it.text, it.Role_ProviderIndex))) =
      some [ (.null, none), (.str "1", some 1000), (.str "Radiohead", some 1000),
             (.str "A", some 1000), (.str "Muse", some 1000), (.str "C", some 1000),
             (.str "D", some 1000) ] ∧
    ∃ m', AddResults exampleEnv (Clear exampleModel) mixedBatch = some m' ∧
      m'.items.filterMap leafData =
        (Clear exampleModel).items.filterMap leafData ++
          mixedBatch.map (fun r => ((resolveProvider exampleEnv (Clear exampleModel) 1).2, r)) := by
  refine ⟨by decide, by decide, by decide, ?_⟩
  obtain ⟨m', _, _, h1, _, _, _, _, _, h7, _⟩ :=
    AddResults_reads_first_provider exampleEnv (Clear exampleModel)
      { provider_ := 1, metadata_ := exampleSong "Radiohead" "A",
        group_automatically_ := true }
      [ { provider_ := 2, metadata_ := exampleSong "Muse" "C", group_automatically_ := true },
        { provider_ := 3, metadata_ := exampleSong "Blur" "D",
          group_automatically_ := false } ]
  exact ⟨m', h1, h7⟩

end Clementine
